import Mathlib

/-!
A verification development for the Starzix chess engine sources.

The C++ sources embedded here: `src/board.hpp` (board representation,
Zobrist hashing, move make/undo, pseudolegal move generation, legality
check, SEE, repetition detection), `src/perft.hpp`, `src/nnue.hpp`
(network loading), and the search thread (iterative deepening, negamax).

Machine integers are modelled as `Nat` (bitboards are `Nat` values below
`2 ^ 64`; the wrap-around of the 8-bit halfmove counter and the 16-bit
fullmove counter is modelled with explicit `% 256` / `% 65536`).
Scores are `Int`.  Every definition is executable.
-/

namespace Starzix

/-- The two piece colors, as in the C++ `Color` enum (the `NONE` value of
some variants is not needed by the embedded code paths). -/
inductive Color where
  | white
  | black
deriving DecidableEq, Repr, Fintype

/-- `oppColor` from the source: the other color. -/
def oppColor : Color → Color
  | Color.white => Color.black
  | Color.black => Color.white

/-- The C++ `PieceType` enum, including its `NONE` sentinel. -/
inductive PieceType where
  | pawn
  | knight
  | bishop
  | rook
  | queen
  | king
  | none
deriving DecidableEq, Repr, Fintype

/-- All-ones 64-bit word (`ONES` in the source). -/
def ONES : Nat := 2 ^ 64 - 1

/-- `bitboard(square)`: the single-bit board `1ULL << square`. -/
def bitboard (sq : Nat) : Nat := 1 <<< sq

/-- 64-bit complement `~x` of the C++ source, on values below `2 ^ 64`. -/
def compl64 (x : Nat) : Nat := ONES ^^^ (x &&& ONES)

/-- `squareFile(sq)`: file index 0..7 of a square (A1 = 0, rank-major). -/
def squareFile (sq : Nat) : Nat := sq % 8

/-- `squareRank(sq)`: rank index 0..7 of a square. -/
def squareRank (sq : Nat) : Nat := sq / 8

/-- The ascending list of square indices of the set bits of a bitboard:
the order in which the C++ `poplsb` loops visit them. -/
def bits (bb : Nat) : List Nat := (List.range 64).filter (fun sq => bb.testBit sq)

/-- `lsb(bb)`: index of the least significant set bit (64 when empty; the
C++ leaves `lsb(0)` unspecified and never calls it on reachable states). -/
def lsb (bb : Nat) : Nat := ((List.range 64).find? (fun sq => bb.testBit sq)).getD 64

/-- `popcount` restricted to the 64 board bits. -/
def popcount64 (bb : Nat) : Nat := (bits bb).length

/-- `SQUARE_NONE` sentinel for the en-passant field. -/
def SQUARE_NONE : Nat := 255

-- ## Attack tables
-- Modelled from the spec: `attacks.hpp` is not among the provided sources.
-- §4.1 of the spec fixes only the signatures and the standard chess
-- semantics ("Implementation MAY use magic bitboards, PEXT, or
-- hyperbola-quintessence; externally only the function signature
-- matters"), so the leapers are computed with the standard shift masks
-- and the sliders by ray walking.

/-- Mask of all squares not on file A. -/
def notFileA : Nat := 0xfefefefefefefefe

/-- Mask of all squares not on file H. -/
def notFileH : Nat := 0x7f7f7f7f7f7f7f7f

/-- Mask of all squares not on files A or B. -/
def notFileAB : Nat := 0xfcfcfcfcfcfcfcfc

/-- Mask of all squares not on files G or H. -/
def notFileGH : Nat := 0x3f3f3f3f3f3f3f3f

/-- Modelled from the spec: `knightAttacks[sq]` precomputed leaper table
(§4.1), computed here with the standard shift formulation. -/
def knightAttacks (sq : Nat) : Nat :=
  let b := bitboard sq
  (((b <<< 17) &&& notFileA) ||| ((b <<< 15) &&& notFileH) |||
   ((b <<< 10) &&& notFileAB) ||| ((b <<< 6) &&& notFileGH) |||
   ((b >>> 17) &&& notFileH) ||| ((b >>> 15) &&& notFileA) |||
   ((b >>> 10) &&& notFileGH) ||| ((b >>> 6) &&& notFileAB)) &&& ONES

/-- Modelled from the spec: `kingAttacks[sq]` precomputed leaper table. -/
def kingAttacks (sq : Nat) : Nat :=
  let b := bitboard sq
  let lr := ((b <<< 1) &&& notFileA) ||| ((b >>> 1) &&& notFileH)
  let row := b ||| lr
  (lr ||| (row <<< 8) ||| (row >>> 8)) &&& ONES

/-- Modelled from the spec: `pawnAttacks[color][sq]` (attacks, not
pushes). -/
def pawnAttacks (sq : Nat) (c : Color) : Nat :=
  let b := bitboard sq
  match c with
  | Color.white => (((b <<< 7) &&& notFileH) ||| ((b <<< 9) &&& notFileA)) &&& ONES
  | Color.black => (((b >>> 7) &&& notFileA) ||| ((b >>> 9) &&& notFileH)) &&& ONES

/-- One sliding ray from (rank `r`, file `f`) in direction `(dr, df)`,
stopping at (and including) the first occupied square.  `fuel` bounds the
walk; 7 steps always suffice on the 8×8 board. -/
def rayWalk (occ : Nat) (dr df : Int) : Nat → Int → Int → Nat
  | 0, _, _ => 0
  | fuel + 1, r, f =>
    if 0 ≤ r ∧ r < 8 ∧ 0 ≤ f ∧ f < 8 then
      let t : Nat := (r * 8 + f).toNat
      if occ.testBit t then bitboard t
      else bitboard t ||| rayWalk occ dr df fuel (r + dr) (f + df)
    else 0

/-- Attacks along one ray direction from a square given blockers `occ`. -/
def rayAttacks (sq : Nat) (occ : Nat) (dr df : Int) : Nat :=
  rayWalk occ dr df 7 ((sq : Int) / 8 + dr) ((sq : Int) % 8 + df)

/-- Modelled from the spec: `bishopAttacks(sq, occ)` sliding attacks. -/
def bishopAttacks (sq : Nat) (occ : Nat) : Nat :=
  rayAttacks sq occ 1 1 ||| rayAttacks sq occ 1 (-1) |||
  rayAttacks sq occ (-1) 1 ||| rayAttacks sq occ (-1) (-1)

/-- Modelled from the spec: `rookAttacks(sq, occ)` sliding attacks. -/
def rookAttacks (sq : Nat) (occ : Nat) : Nat :=
  rayAttacks sq occ 1 0 ||| rayAttacks sq occ (-1) 0 |||
  rayAttacks sq occ 0 1 ||| rayAttacks sq occ 0 (-1)

/-- `queenAttacks = bishopAttacks | rookAttacks` (spec §4.1). -/
def queenAttacks (sq : Nat) (occ : Nat) : Nat :=
  bishopAttacks sq occ ||| rookAttacks sq occ

/-- Sign of the difference of two board coordinates. -/
def dirSign (a b : Nat) : Int := if a < b then 1 else if b < a then -1 else 0

/-- Whether two distinct squares share a rank, file or diagonal. -/
def alignedSquares (a b : Nat) : Bool :=
  a ≠ b ∧
  (squareRank a = squareRank b ∨ squareFile a = squareFile b ∨
   (max (squareRank a) (squareRank b) - min (squareRank a) (squareRank b)) =
   (max (squareFile a) (squareFile b) - min (squareFile a) (squareFile b)))

/-- Modelled from the spec: `BETWEEN[a][b]`, the squares strictly between
`a` and `b` on a shared rank/file/diagonal, empty otherwise (§4.1). -/
def BETWEEN (a b : Nat) : Nat :=
  if alignedSquares a b then
    let dr := dirSign (squareRank a) (squareRank b)
    let df := dirSign (squareFile a) (squareFile b)
    rayWalk (bitboard b) dr df 7 ((a : Int) / 8 + dr) ((a : Int) % 8 + df) ^^^ bitboard b
  else 0

/-- Modelled from the spec: `LINE_THROUGH[a][b]`, the full line through
two colinear squares extended to the board edges (including `a` and `b`),
empty if not colinear (§4.1). -/
def LINE_THROUGH (a b : Nat) : Nat :=
  if alignedSquares a b then
    let dr := dirSign (squareRank a) (squareRank b)
    let df := dirSign (squareFile a) (squareFile b)
    rayWalk 0 dr df 7 ((a : Int) / 8 + dr) ((a : Int) % 8 + df) |||
    rayWalk 0 (-dr) (-df) 7 ((a : Int) / 8 - dr) ((a : Int) % 8 - df) |||
    bitboard a
  else 0

-- ## Moves
-- Modelled from the spec: `move.hpp` is not among the provided sources.
-- §3 of the spec fixes the content: a move packs `from`, `to` and a flag
-- drawn from {PAWN..KING, PAWN_TWO_UP, EN_PASSANT, CASTLING, the four
-- promotions}, with a sentinel MOVE_NONE; the moving piece and promotion
-- piece are recoverable from the flag.  The 16-bit packing itself is
-- never observed by the embedded code, so the move is a plain record.

/-- The move flag of spec §3 (`noneF` is the flag of the MOVE_NONE
sentinel). -/
inductive MoveFlag where
  | noneF
  | pawnF
  | knightF
  | bishopF
  | rookF
  | queenF
  | kingF
  | pawnTwoUp
  | enPassant
  | castling
  | promoKnight
  | promoBishop
  | promoRook
  | promoQueen
deriving DecidableEq, Repr

/-- A move: packed `from`/`to`/`flag` (spec §3). -/
structure Move where
  src : Nat
  dst : Nat
  flag : MoveFlag
deriving DecidableEq, Repr

/-- The MOVE_NONE sentinel. -/
def MOVE_NONE : Move := ⟨0, 0, MoveFlag.noneF⟩

/-- `Move::pieceType()`: the moving piece, recovered from the flag. -/
def Move.pieceType (m : Move) : PieceType :=
  match m.flag with
  | MoveFlag.noneF => PieceType.none
  | MoveFlag.pawnF => PieceType.pawn
  | MoveFlag.knightF => PieceType.knight
  | MoveFlag.bishopF => PieceType.bishop
  | MoveFlag.rookF => PieceType.rook
  | MoveFlag.queenF => PieceType.queen
  | MoveFlag.kingF => PieceType.king
  | MoveFlag.pawnTwoUp => PieceType.pawn
  | MoveFlag.enPassant => PieceType.pawn
  | MoveFlag.castling => PieceType.king
  | MoveFlag.promoKnight => PieceType.pawn
  | MoveFlag.promoBishop => PieceType.pawn
  | MoveFlag.promoRook => PieceType.pawn
  | MoveFlag.promoQueen => PieceType.pawn

/-- `Move::promotion()`: the promotion piece, or NONE. -/
def Move.promotion (m : Move) : PieceType :=
  match m.flag with
  | MoveFlag.promoKnight => PieceType.knight
  | MoveFlag.promoBishop => PieceType.bishop
  | MoveFlag.promoRook => PieceType.rook
  | MoveFlag.promoQueen => PieceType.queen
  | _ => PieceType.none

-- ## Castling constants
-- Modelled from the spec: `CASTLING_MASKS[color][side]` holds the rook
-- home square of each castling right ("a bitboard whose set bits are the
-- rook squares still eligible to castle", §3), and
-- `CASTLING_ROOK_FROM_TO[to]` maps the king's castling destination to the
-- rook's fixed source and destination (§4.2 step 4).

/-- Which side of the board a castling right is on. -/
def CASTLE_SHORT : Nat := 0

/-- Long-castle index. -/
def CASTLE_LONG : Nat := 1

/-- `CASTLING_MASKS[color][right]`: the rook home square bit. -/
def CASTLING_MASKS (c : Color) (right : Nat) : Nat :=
  match c, right with
  | Color.white, 0 => bitboard 7
  | Color.white, _ => bitboard 0
  | Color.black, 0 => bitboard 63
  | Color.black, _ => bitboard 56

/-- `CASTLING_ROOK_FROM_TO[to]`: rook source and destination for a king
castling destination square. -/
def CASTLING_ROOK_FROM_TO (dst : Nat) : Nat × Nat :=
  if dst = 6 then (7, 5)
  else if dst = 2 then (0, 3)
  else if dst = 62 then (63, 61)
  else if dst = 58 then (56, 59)
  else (dst, dst)

-- ## Zobrist keys
-- `initZobrist` in `board.hpp` fills the key tables with values of
-- `randomU64()` (from the absent `utils.hpp`), so the keys are kept
-- abstract: every hash theorem is proved for an arbitrary key table.

/-- The Zobrist key tables of `board.hpp`: `ZOBRIST_COLOR`,
`ZOBRIST_PIECES[color][pieceType][square]`, `ZOBRIST_FILES[file]`. -/
structure ZKeys where
  color : Nat
  pieces : Color → PieceType → Nat → Nat
  files : Nat → Nat

/-- A concrete all-zero key table, used for witnesses where the key
values are irrelevant. -/
def zk0 : ZKeys := ⟨0, fun _ _ _ => 0, fun _ => 0⟩

-- ## BoardState and Board

/-- The `BoardState` record of `board.hpp` (one snapshot per ply). -/
structure BoardState where
  colorToMove : Color
  bbWhite : Nat
  bbBlack : Nat
  bbPawn : Nat
  bbKnight : Nat
  bbBishop : Nat
  bbRook : Nat
  bbQueen : Nat
  bbKing : Nat
  castlingRights : Nat
  enPassantSquare : Nat
  pliesSincePawnOrCapture : Nat
  currentMoveCounter : Nat
  checkers : Nat
  zobristHash : Nat
  pawnsHash : Nat
  nonPawnsHashWhite : Nat
  nonPawnsHashBlack : Nat
  lastMove : Move
  captured : PieceType
deriving DecidableEq, Repr

/-- The default-constructed `BoardState()`. -/
def BoardState.init : BoardState :=
  { colorToMove := Color.white
    bbWhite := 0, bbBlack := 0
    bbPawn := 0, bbKnight := 0, bbBishop := 0
    bbRook := 0, bbQueen := 0, bbKing := 0
    castlingRights := 0
    enPassantSquare := SQUARE_NONE
    pliesSincePawnOrCapture := 0
    currentMoveCounter := 1
    checkers := 0
    zobristHash := 0, pawnsHash := 0
    nonPawnsHashWhite := 0, nonPawnsHashBlack := 0
    lastMove := MOVE_NONE
    captured := PieceType.none }

/-- `colorBitboards[color]`. -/
def BoardState.colorBb (s : BoardState) : Color → Nat
  | Color.white => s.bbWhite
  | Color.black => s.bbBlack

/-- `piecesBitboards[pieceType]` (`PieceType::NONE` is never looked up by
the embedded code; it reads as 0 here). -/
def BoardState.pieceBb (s : BoardState) : PieceType → Nat
  | PieceType.pawn => s.bbPawn
  | PieceType.knight => s.bbKnight
  | PieceType.bishop => s.bbBishop
  | PieceType.rook => s.bbRook
  | PieceType.queen => s.bbQueen
  | PieceType.king => s.bbKing
  | PieceType.none => 0

/-- Functional update of one color bitboard. -/
def BoardState.setColorBb (s : BoardState) : Color → Nat → BoardState
  | Color.white, v => { s with bbWhite := v }
  | Color.black, v => { s with bbBlack := v }

/-- Functional update of one piece bitboard. -/
def BoardState.setPieceBb (s : BoardState) : PieceType → Nat → BoardState
  | PieceType.pawn, v => { s with bbPawn := v }
  | PieceType.knight, v => { s with bbKnight := v }
  | PieceType.bishop, v => { s with bbBishop := v }
  | PieceType.rook, v => { s with bbRook := v }
  | PieceType.queen, v => { s with bbQueen := v }
  | PieceType.king, v => { s with bbKing := v }
  | PieceType.none, _ => s

/-- The `Board` of `board.hpp`: the growable `mStates` history with the
current state on top.  `cur` is `mStates.back()`; `prev` holds the older
states, most recent first (so the C++ `mStates[i]` is
`(cur :: prev).get (size - 1 - i)`). -/
structure Board where
  cur : BoardState
  prev : List BoardState
deriving DecidableEq, Repr

/-- The full history, current state first (reverse of the C++ vector). -/
def Board.hist (b : Board) : List BoardState := b.cur :: b.prev

/-- `mStates.size()`. -/
def Board.size (b : Board) : Nat := b.prev.length + 1

/-- `sideToMove()`. -/
def Board.sideToMove (b : Board) : Color := b.cur.colorToMove

/-- `oppSide()`. -/
def Board.oppSide (b : Board) : Color := oppColor b.cur.colorToMove

/-- `getBb(color)`. -/
def Board.getBbColor (b : Board) (c : Color) : Nat := b.cur.colorBb c

/-- `getBb(pieceType)`. -/
def Board.getBbPiece (b : Board) (pt : PieceType) : Nat := b.cur.pieceBb pt

/-- `getBb(color, pieceType)`. -/
def Board.getBb (b : Board) (c : Color) (pt : PieceType) : Nat :=
  b.cur.pieceBb pt &&& b.cur.colorBb c

/-- `us()`. -/
def Board.us (b : Board) : Nat := b.getBbColor b.sideToMove

/-- `them()`. -/
def Board.them (b : Board) : Nat := b.getBbColor b.oppSide

/-- `occupancy()`. -/
def Board.occupancy (b : Board) : Nat := b.getBbColor Color.white ||| b.getBbColor Color.black

/-- `isOccupied(square)`. -/
def Board.isOccupied (b : Board) (sq : Nat) : Bool := b.occupancy &&& bitboard sq ≠ 0

/-- `inCheck()`. -/
def Board.inCheck (b : Board) : Bool := b.cur.checkers ≠ 0

/-- `pieceTypeAt(square)`: scan PAWN..KING for a piece bitboard holding
the square. -/
def Board.pieceTypeAt (b : Board) (sq : Nat) : PieceType :=
  if ¬ b.isOccupied sq then PieceType.none
  else if (bitboard sq &&& b.getBbPiece PieceType.pawn) ≠ 0 then PieceType.pawn
  else if (bitboard sq &&& b.getBbPiece PieceType.knight) ≠ 0 then PieceType.knight
  else if (bitboard sq &&& b.getBbPiece PieceType.bishop) ≠ 0 then PieceType.bishop
  else if (bitboard sq &&& b.getBbPiece PieceType.rook) ≠ 0 then PieceType.rook
  else if (bitboard sq &&& b.getBbPiece PieceType.queen) ≠ 0 then PieceType.queen
  else if (bitboard sq &&& b.getBbPiece PieceType.king) ≠ 0 then PieceType.king
  else PieceType.none

/-- `kingSquare(color)`. -/
def Board.kingSquareOf (b : Board) (c : Color) : Nat := lsb (b.getBb c PieceType.king)

/-- `kingSquare()`. -/
def Board.kingSquare (b : Board) : Nat := b.kingSquareOf b.sideToMove

/-- `isSquareAttacked(square, colorAttacking, occ)` from `board.hpp`:
super-piece probe. -/
def Board.isSquareAttackedOcc (b : Board) (sq : Nat) (atk : Color) (occ : Nat) : Bool :=
  (pawnAttacks sq (oppColor atk) &&& b.getBb atk PieceType.pawn ≠ 0) ∨
  (knightAttacks sq &&& b.getBb atk PieceType.knight ≠ 0) ∨
  (bishopAttacks sq occ &&&
     (b.getBb atk PieceType.bishop ||| b.getBb atk PieceType.queen) ≠ 0) ∨
  (rookAttacks sq occ &&&
     (b.getBb atk PieceType.rook ||| b.getBb atk PieceType.queen) ≠ 0) ∨
  (kingAttacks sq &&& b.getBb atk PieceType.king ≠ 0)

/-- `isSquareAttacked(square, colorAttacking)`. -/
def Board.isSquareAttacked (b : Board) (sq : Nat) (atk : Color) : Bool :=
  b.isSquareAttackedOcc sq atk b.occupancy

/-- `attackers(square, occ)` from `board.hpp`: all pieces of both colors
attacking a square. -/
def Board.attackersOcc (b : Board) (sq : Nat) (occ : Nat) : Nat :=
  let bishopsQueens := b.getBbPiece PieceType.bishop ||| b.getBbPiece PieceType.queen
  let rooksQueens := b.getBbPiece PieceType.rook ||| b.getBbPiece PieceType.queen
  (b.getBb Color.black PieceType.pawn &&& pawnAttacks sq Color.white) |||
  (b.getBb Color.white PieceType.pawn &&& pawnAttacks sq Color.black) |||
  (b.getBbPiece PieceType.knight &&& knightAttacks sq) |||
  (bishopsQueens &&& bishopAttacks sq occ) |||
  (rooksQueens &&& rookAttacks sq occ) |||
  (b.getBbPiece PieceType.king &&& kingAttacks sq)

/-- `attackers(square)`. -/
def Board.attackers (b : Board) (sq : Nat) : Nat := b.attackersOcc sq b.occupancy

/-- One step of the `pinned()` accumulation loop: add the single piece of
ours between a potential attacker and our king, if it is single. -/
def pinnedStep (b : Board) (kingSq : Nat) (acc : Nat) (attackerSq : Nat) : Nat :=
  let maybePinned := b.us &&& BETWEEN attackerSq kingSq
  if popcount64 maybePinned = 1 then acc ||| maybePinned else acc

/-- `pinned()` from `board.hpp`: bitboard of our pieces pinned to our
king. -/
def Board.pinned (b : Board) : Nat :=
  let kingSq := b.kingSquare
  let theirBishopsQueens :=
    b.them &&& (b.getBbPiece PieceType.bishop ||| b.getBbPiece PieceType.queen)
  let theirRooksQueens :=
    b.them &&& (b.getBbPiece PieceType.rook ||| b.getBbPiece PieceType.queen)
  let potentialAttackers :=
    (theirBishopsQueens &&& bishopAttacks kingSq b.them) |||
    (theirRooksQueens &&& rookAttacks kingSq b.them)
  (bits potentialAttackers).foldl (pinnedStep b kingSq) 0

-- ## Piece placement and hashing

/-- `updateHashes(color, pieceType, square)`: XOR the piece key into the
Zobrist hash and into the pawn / non-pawn hash. -/
def updateHashes (zk : ZKeys) (c : Color) (pt : PieceType) (sq : Nat) (s : BoardState) :
    BoardState :=
  let key := zk.pieces c pt sq
  let s := { s with zobristHash := s.zobristHash ^^^ key }
  if pt = PieceType.pawn then { s with pawnsHash := s.pawnsHash ^^^ key }
  else
    match c with
    | Color.white => { s with nonPawnsHashWhite := s.nonPawnsHashWhite ^^^ key }
    | Color.black => { s with nonPawnsHashBlack := s.nonPawnsHashBlack ^^^ key }

/-- `placePiece(color, pieceType, square)` (sets the bits with `|=`). -/
def placePiece (zk : ZKeys) (c : Color) (pt : PieceType) (sq : Nat) (s : BoardState) :
    BoardState :=
  let s := s.setColorBb c (s.colorBb c ||| bitboard sq)
  let s := s.setPieceBb pt (s.pieceBb pt ||| bitboard sq)
  updateHashes zk c pt sq s

/-- `removePiece(color, pieceType, square)` (clears the bits with `^=`). -/
def removePiece (zk : ZKeys) (c : Color) (pt : PieceType) (sq : Nat) (s : BoardState) :
    BoardState :=
  let s := s.setColorBb c (s.colorBb c ^^^ bitboard sq)
  let s := s.setPieceBb pt (s.pieceBb pt ^^^ bitboard sq)
  updateHashes zk c pt sq s

-- ## makeMove / undoMove

/-- View a single state as a board, for the state-level queries that
`makeMove` performs on the state it is building. -/
def asBoard (s : BoardState) : Board := ⟨s, []⟩

/-- The castling-rights update of `makeMove` (`board.hpp` lines 767-776):
king moves drop both rights of the mover; a move from or to a rook home
square drops that square's right. -/
def updateCastlingRights (stm : Color) (pt : PieceType) (src dst cr : Nat) : Nat :=
  let cr :=
    if pt = PieceType.king then
      cr &&& compl64 (CASTLING_MASKS stm CASTLE_SHORT) &&&
        compl64 (CASTLING_MASKS stm CASTLE_LONG)
    else if bitboard src &&& cr ≠ 0 then cr &&& compl64 (bitboard src)
    else cr
  if bitboard dst &&& cr ≠ 0 then cr &&& compl64 (bitboard dst) else cr

/-- The piece movement of `makeMove` (`board.hpp` lines 739-763): remove
the mover, then branch on the flag (castling / en passant / normal with
optional capture and promotion), recording `captured`. -/
def movePieces (zk : ZKeys) (stm : Color) (m : Move) (s : BoardState) : BoardState :=
  let opp := oppColor stm
  let s := removePiece zk stm m.pieceType m.src s
  if m.flag = MoveFlag.castling then
    let s := placePiece zk stm PieceType.king m.dst s
    let rookFromTo := CASTLING_ROOK_FROM_TO m.dst
    let s := removePiece zk stm PieceType.rook rookFromTo.1 s
    let s := placePiece zk stm PieceType.rook rookFromTo.2 s
    { s with captured := PieceType.none }
  else if m.flag = MoveFlag.enPassant then
    let capturedPieceSquare := if stm = Color.white then m.dst - 8 else m.dst + 8
    let s := removePiece zk opp PieceType.pawn capturedPieceSquare s
    let s := placePiece zk stm PieceType.pawn m.dst s
    { s with captured := PieceType.pawn }
  else
    let cap := (asBoard s).pieceTypeAt m.dst
    let s := { s with captured := cap }
    let s := if cap ≠ PieceType.none then removePiece zk opp cap m.dst s else s
    placePiece zk stm
      (if m.promotion ≠ PieceType.none then m.promotion else m.pieceType) m.dst s

/-- The castling-rights section of `makeMove`: XOR the old rights out of
the hash, update the rights, XOR the new rights in. -/
def crStep (stm : Color) (pt : PieceType) (src dst : Nat) (s : BoardState) : BoardState :=
  let s := { s with zobristHash := s.zobristHash ^^^ s.castlingRights }
  let s := { s with castlingRights := updateCastlingRights stm pt src dst s.castlingRights }
  { s with zobristHash := s.zobristHash ^^^ s.castlingRights }

/-- The en-passant clearing section of `makeMove` (also used by the null
move): hash the old square's file out and reset the square. -/
def epClear (zk : ZKeys) (s : BoardState) : BoardState :=
  if s.enPassantSquare ≠ SQUARE_NONE then
    { s with
      zobristHash := s.zobristHash ^^^ zk.files (squareFile s.enPassantSquare)
      enPassantSquare := SQUARE_NONE }
  else s

/-- The en-passant setting section of `makeMove` for a double push. -/
def epSet (zk : ZKeys) (ep : Nat) (s : BoardState) : BoardState :=
  { s with
    enPassantSquare := ep
    zobristHash := s.zobristHash ^^^ zk.files (squareFile ep) }

/-- The side-to-move flip of `makeMove`, with the side key hashed. -/
def flipColor (zk : ZKeys) (opp : Color) (s : BoardState) : BoardState :=
  { s with colorToMove := opp, zobristHash := s.zobristHash ^^^ zk.color }

/-- The halfmove / fullmove counter updates at the end of `makeMove`
(the fullmove counter increments when the new side to move is White). -/
def counterStep (reset : Bool) (s : BoardState) : BoardState :=
  let s :=
    if reset then { s with pliesSincePawnOrCapture := 0 }
    else { s with pliesSincePawnOrCapture := (s.pliesSincePawnOrCapture + 1) % 256 }
  if s.colorToMove = Color.white then
    { s with currentMoveCounter := (s.currentMoveCounter + 1) % 65536 }
  else s

/-- The final recomputation of `checkers` in `makeMove`. -/
def checkersStep (s : BoardState) : BoardState :=
  { s with checkers := (asBoard s).attackers ((asBoard s).kingSquare) &&& (asBoard s).them }

/-- The new top state computed by `makeMove(move)` from a copy of the
current state (`board.hpp` lines 701-804). -/
def makeMoveState (zk : ZKeys) (cur : BoardState) (m : Move) : BoardState :=
  let stm := cur.colorToMove
  let opp := oppColor stm
  let s := { cur with lastMove := m }
  if m = MOVE_NONE then
    -- null move: flip the side, clear en passant, bump the counters
    let s := flipColor zk opp s
    let s := epClear zk s
    let s := { s with pliesSincePawnOrCapture := (s.pliesSincePawnOrCapture + 1) % 256 }
    let s :=
      if s.colorToMove = Color.white then
        { s with currentMoveCounter := (s.currentMoveCounter + 1) % 65536 }
      else s
    { s with captured := PieceType.none }
  else
    let s := movePieces zk stm m s
    let s := crStep stm m.pieceType m.src m.dst s
    -- en passant: always clear the old square, set a new one on a double push
    let s := epClear zk s
    let s :=
      if m.flag = MoveFlag.pawnTwoUp then
        epSet zk (if stm = Color.white then m.dst - 8 else m.dst + 8) s
      else s
    let s := flipColor zk opp s
    let s := counterStep
      (m.pieceType = PieceType.pawn ∨ s.captured ≠ PieceType.none) s
    checkersStep s

/-- `makeMove(move)`: push a copy of the current state and mutate it. -/
def Board.makeMove (zk : ZKeys) (b : Board) (m : Move) : Board :=
  ⟨makeMoveState zk b.cur m, b.cur :: b.prev⟩

/-- `undoMove()`: pop the top state (identity on a singleton history,
which the C++ forbids with an assert). -/
def Board.undoMove (b : Board) : Board :=
  match b.prev with
  | [] => b
  | p :: rest => ⟨p, rest⟩

-- ## Pseudolegal move generation (`board.hpp` lines 813-948)

/-- `addPromotions(...)`: queen promotion, then (when `underpromotions`)
rook, bishop, knight. -/
def addPromotions (src dst : Nat) (underpromotions : Bool) : List Move :=
  Move.mk src dst MoveFlag.promoQueen ::
    (if underpromotions then
      [Move.mk src dst MoveFlag.promoRook,
       Move.mk src dst MoveFlag.promoBishop,
       Move.mk src dst MoveFlag.promoKnight]
    else [])

/-- The moves generated for one pawn, in generation order: captures
(promotions when on the seventh rank), then pushes. -/
def pawnMovesFor (b : Board) (noisyOnly underpromotions : Bool) (sq : Nat) : List Move :=
  let stm := b.sideToMove
  let rank := squareRank sq
  let pawnHasntMoved :=
    (rank = 1 ∧ stm = Color.white) ∨ (rank = 6 ∧ stm = Color.black)
  let willPromote :=
    (rank = 1 ∧ stm = Color.black) ∨ (rank = 6 ∧ stm = Color.white)
  let capMoves :=
    (bits (pawnAttacks sq stm &&& b.them)).flatMap (fun t =>
      if willPromote then addPromotions sq t underpromotions
      else [Move.mk sq t MoveFlag.pawnF])
  let squareOneUp := if stm = Color.white then sq + 8 else sq - 8
  if b.isOccupied squareOneUp then capMoves
  else if willPromote then capMoves ++ addPromotions sq squareOneUp underpromotions
  else if noisyOnly then capMoves
  else
    let squareTwoUp := if stm = Color.white then sq + 16 else sq - 16
    capMoves ++ [Move.mk sq squareOneUp MoveFlag.pawnF] ++
      (if pawnHasntMoved ∧ ¬ b.isOccupied squareTwoUp then
        [Move.mk sq squareTwoUp MoveFlag.pawnTwoUp]
      else [])

/-- Moves of one leaper/slider piece into an attack mask. -/
def pieceMovesFor (atk : Nat) (mask : Nat) (fl : MoveFlag) (sq : Nat) : List Move :=
  (bits (atk &&& mask)).map (fun t => Move.mk sq t fl)

/-- `pseudolegalMoves(moves, noisyOnly, underpromotions)`: the generated
move list, in generation order (en passant, pawns, knights, bishops,
rooks, queens, king, castling). -/
def Board.pseudolegalMoves (b : Board) (noisyOnly underpromotions : Bool) : List Move :=
  let stm := b.sideToMove
  let occ := b.occupancy
  let epMoves :=
    if b.cur.enPassantSquare ≠ SQUARE_NONE then
      (bits (pawnAttacks b.cur.enPassantSquare b.oppSide &&& b.getBb stm PieceType.pawn)).map
        (fun sq => Move.mk sq b.cur.enPassantSquare MoveFlag.enPassant)
    else []
  let pawnMoves :=
    (bits (b.getBb stm PieceType.pawn)).flatMap (pawnMovesFor b noisyOnly underpromotions)
  let mask := if noisyOnly then b.them else compl64 b.us
  let knightMoves :=
    (bits (b.getBb stm PieceType.knight)).flatMap (fun sq =>
      pieceMovesFor (knightAttacks sq) mask MoveFlag.knightF sq)
  let bishopMoves :=
    (bits (b.getBb stm PieceType.bishop)).flatMap (fun sq =>
      pieceMovesFor (bishopAttacks sq occ) mask MoveFlag.bishopF sq)
  let rookMoves :=
    (bits (b.getBb stm PieceType.rook)).flatMap (fun sq =>
      pieceMovesFor (rookAttacks sq occ) mask MoveFlag.rookF sq)
  let queenMoves :=
    (bits (b.getBb stm PieceType.queen)).flatMap (fun sq =>
      pieceMovesFor (queenAttacks sq occ) mask MoveFlag.queenF sq)
  let kingSq := b.kingSquare
  let kingMoves := pieceMovesFor (kingAttacks kingSq) mask MoveFlag.kingF kingSq
  let castleMoves :=
    if ¬ noisyOnly ∧ ¬ b.inCheck then
      (if b.cur.castlingRights &&& CASTLING_MASKS stm CASTLE_SHORT ≠ 0 ∧
          occ &&& BETWEEN kingSq (kingSq + 3) = 0 then
        [Move.mk kingSq (kingSq + 2) MoveFlag.castling]
      else []) ++
      (if b.cur.castlingRights &&& CASTLING_MASKS stm CASTLE_LONG ≠ 0 ∧
          occ &&& BETWEEN kingSq (kingSq - 4) = 0 then
        [Move.mk kingSq (kingSq - 2) MoveFlag.castling]
      else [])
    else []
  epMoves ++ pawnMoves ++ knightMoves ++ bishopMoves ++ rookMoves ++ queenMoves ++
    kingMoves ++ castleMoves

-- ## Legality check (`board.hpp` lines 966-1012)

/-- `isPseudolegalLegal(move, pinned)`: decide whether a pseudolegal move
leaves the mover's king safe, via the castling / en-passant / king-move
special cases and the double-check, pin and single-check masks. -/
def Board.isPseudolegalLegal (b : Board) (m : Move) (pinned : Nat) : Bool :=
  let opp := b.oppSide
  if m.flag = MoveFlag.castling then
    if m.src < m.dst then
      ¬ b.isSquareAttacked (m.src + 1) opp ∧ ¬ b.isSquareAttacked (m.src + 2) opp
    else
      ¬ b.isSquareAttacked (m.src - 1) opp ∧ ¬ b.isSquareAttacked (m.src - 2) opp
  else
    let kingSq := b.kingSquare
    if m.flag = MoveFlag.enPassant then
      let capturedSq := if b.sideToMove = Color.white then m.dst - 8 else m.dst + 8
      let occAfter :=
        b.occupancy ^^^ bitboard m.src ^^^ bitboard capturedSq ^^^ bitboard m.dst
      let bishopsQueens := b.getBbPiece PieceType.bishop ||| b.getBbPiece PieceType.queen
      let rooksQueens := b.getBbPiece PieceType.rook ||| b.getBbPiece PieceType.queen
      let slidingAttackersTo :=
        (bishopAttacks kingSq occAfter &&& bishopsQueens) |||
        (rookAttacks kingSq occAfter &&& rooksQueens)
      slidingAttackersTo &&& b.them = 0
    else if m.pieceType = PieceType.king then
      ¬ b.isSquareAttackedOcc m.dst opp (b.occupancy ^^^ bitboard m.src)
    else if 1 < popcount64 b.cur.checkers then false
    else if pinned &&& bitboard m.src ≠ 0 ∧
        LINE_THROUGH m.src m.dst &&& bitboard kingSq = 0 then false
    else if b.cur.checkers ≠ 0 then
      let checkerSquare := lsb b.cur.checkers
      bitboard m.dst &&& (BETWEEN kingSq checkerSquare ||| b.cur.checkers) ≠ 0
    else true

-- ## FEN parsing (`Board(std::string fen)`, `board.hpp` lines 74-164)

/-- `charToInt` of a digit character. -/
def charToInt (c : Char) : Nat := c.toNat - '0'.toNat

/-- `isdigit`. -/
def isDigitChar (c : Char) : Bool := '0'.toNat ≤ c.toNat ∧ c.toNat ≤ '9'.toNat

/-- `isupper`. -/
def isUpperChar (c : Char) : Bool := 'A'.toNat ≤ c.toNat ∧ c.toNat ≤ 'Z'.toNat

/-- The piece letter mapping of the FEN constructor (the C++ lowercases
the character first; both cases are matched directly here). -/
def charToPieceType (c : Char) : PieceType :=
  if c = 'p' ∨ c = 'P' then PieceType.pawn
  else if c = 'n' ∨ c = 'N' then PieceType.knight
  else if c = 'b' ∨ c = 'B' then PieceType.bishop
  else if c = 'r' ∨ c = 'R' then PieceType.rook
  else if c = 'q' ∨ c = 'Q' then PieceType.queen
  else PieceType.king

/-- `trim` + `splitString(fen, ' ')`: the whitespace-separated tokens of
the FEN line (structural recursion over the characters). -/
def splitTokens : List Char → List Char → List (List Char)
  | [], acc => if acc = [] then [] else [acc.reverse]
  | c :: rest, acc =>
    if c = ' ' then
      if acc = [] then splitTokens rest []
      else acc.reverse :: splitTokens rest []
    else splitTokens rest (c :: acc)

/-- The piece-placement loop of the FEN constructor: iterate ranks top to
bottom, files left to right ("rank" is an `Int` as the C++ decrement may
pass 0 on malformed input). -/
def parseRows (zk : ZKeys) : List Char → Int → Nat → BoardState → BoardState
  | [], _, _, s => s
  | c :: rest, rank, file, s =>
    if c = '/' then parseRows zk rest (rank - 1) 0 s
    else if isDigitChar c then parseRows zk rest rank (file + charToInt c) s
    else
      let sq := (rank * 8 + (file : Int)).toNat
      let color := if isUpperChar c then Color.white else Color.black
      let pt := charToPieceType c
      parseRows zk rest rank (file + 1) (placePiece zk color pt sq s)

/-- The castling-rights field parse: each letter sets the matching rook
square bit. -/
def parseCastlingRights : List Char → Nat → Nat
  | [], cr => cr
  | c :: rest, cr =>
    let color := if isUpperChar c then Color.white else Color.black
    let right := if c = 'K' ∨ c = 'k' then CASTLE_SHORT else CASTLE_LONG
    parseCastlingRights rest (cr ||| CASTLING_MASKS color right)

/-- `strToSquare`: two-character algebraic square. -/
def strToSquare (str : List Char) : Nat :=
  match str with
  | c0 :: c1 :: _ => (c1.toNat - '1'.toNat) * 8 + (c0.toNat - 'a'.toNat)
  | _ => 0

/-- The numeric FEN fields are read with `stoi`; well-formed inputs are
digit strings, on which this folding parser equals `stoi`. -/
def parseNat (str : List Char) : Nat :=
  str.foldl (fun acc c => acc * 10 + charToInt c) 0

/-- `Board(std::string fen)`: construct the one-state board from a FEN
string (whitespace-trimmed and split on spaces first). -/
def parseFen (zk : ZKeys) (fen : String) : Board :=
  let fenSplit := splitTokens fen.toList []
  let s := BoardState.init
  -- side to move, hashed in when Black
  let colorToMove := if fenSplit.getD 1 [] = ['b'] then Color.black else Color.white
  let s := { s with colorToMove := colorToMove }
  let s :=
    if colorToMove = Color.black then
      { s with zobristHash := s.zobristHash ^^^ zk.color }
    else s
  -- pieces
  let s := parseRows zk (fenSplit.getD 0 []) 7 0 s
  -- castling rights
  let crField := fenSplit.getD 2 []
  let s :=
    if crField ≠ ['-'] then
      let s := { s with castlingRights := parseCastlingRights crField 0 }
      { s with zobristHash := s.zobristHash ^^^ s.castlingRights }
    else s
  -- en passant square
  let epField := fenSplit.getD 3 []
  let s :=
    if epField ≠ ['-'] then
      let ep := strToSquare epField
      { s with
        enPassantSquare := ep
        zobristHash := s.zobristHash ^^^ zk.files (squareFile ep) }
    else s
  -- halfmove clock and fullmove number (u8 / u16 in the state record)
  let s := { s with
    pliesSincePawnOrCapture :=
      (if 5 ≤ fenSplit.length then parseNat (fenSplit.getD 4 []) else 0) % 256
    currentMoveCounter :=
      (if 6 ≤ fenSplit.length then parseNat (fenSplit.getD 5 []) else 1) % 65536 }
  let s :=
    { s with checkers := (asBoard s).attackers ((asBoard s).kingSquare) &&& (asBoard s).them }
  ⟨s, []⟩

/-- The standard starting position FEN. -/
def START_FEN : String := "rnbqkbnr/pppppppp/8/8/8/8/PPPPPPPP/RNBQKBNR w KQkq - 0 1"

-- ## perft (`perft.hpp` lines 7-32)

/-- `perft(board, depth)`: count the leaves of the legal game tree,
generating pseudolegal moves and filtering with `isPseudolegalLegal`
(the make/undo of the C++ by-reference traversal is the pure recursion
here). -/
def perft (zk : ZKeys) (b : Board) : Nat → Nat
  | 0 => 1
  | 1 =>
    let pinned := b.pinned
    ((b.pseudolegalMoves false true).filter (fun m => b.isPseudolegalLegal m pinned)).length
  | d + 2 =>
    let pinned := b.pinned
    ((b.pseudolegalMoves false true).filter (fun m => b.isPseudolegalLegal m pinned)).foldl
      (fun acc m => acc + perft zk (b.makeMove zk m) (d + 1)) 0

-- ## Repetition detection (`board.hpp` lines 409-428)

/-- The distances scanned by the `isRepetition` loop, in scan order: the
C++ walks `i = size-3, size-5, …` down to
`max(0, size - pliesSincePawnOrCapture - 1)`; in terms of the distance
`d = size - 1 - i` from the top of the history that is
`d = 2, 4, …` while `d ≤ min (size - 1) plies`. -/
def scanDistances (n plies : Nat) : List Nat :=
  (List.range n).filter (fun d => 2 ≤ d ∧ d % 2 = 0 ∧ d ≤ plies)

/-- The body of the `isRepetition` loop: report a match above the root
immediately, count matches at or below the root until the second one. -/
def repScan (hist : List BoardState) (h0 searchPly : Nat) : List Nat → Nat → Bool
  | [], _ => false
  | d :: rest, count =>
    if (hist.getD d BoardState.init).zobristHash = h0 then
      if d < searchPly then true
      else if count + 1 = 2 then true
      else repScan hist h0 searchPly rest (count + 1)
    else repScan hist h0 searchPly rest count

/-- `isRepetition(searchPly)` from `board.hpp`: twofold repetition above
the search root, threefold at or below it, scanning back two plies at a
time and no further than the last irreversible move. -/
def Board.isRepetition (b : Board) (searchPly : Nat) : Bool :=
  let n := b.size
  let plies := b.cur.pliesSincePawnOrCapture
  if n ≤ 4 ∨ plies < 4 then false
  else repScan b.hist b.cur.zobristHash searchPly (scanDistances n plies) 0

-- ## SEE (`board.hpp` lines 571-657)

/-- `captured(move)` from `board.hpp`: PAWN for en passant, else the
piece on the destination square. -/
def Board.capturedPiece (b : Board) (m : Move) : PieceType :=
  if m.flag = MoveFlag.enPassant then PieceType.pawn else b.pieceTypeAt m.dst

/-- `isCapture(move)` from `board.hpp`. -/
def Board.isCapture (b : Board) (m : Move) : Bool :=
  b.isOccupied m.dst ∨ m.flag = MoveFlag.enPassant

/-- The SEE piece values.  `search_params.hpp` is not among the provided
sources; the spec (§4.2) fixes only the shape
`{pawn, minor, minor, rook, queen, king = 0}`, so the four base values
are parameters. -/
structure SeeVals where
  pawn : Int
  minor : Int
  rook : Int
  queen : Int
deriving DecidableEq, Repr

/-- `SEE_PIECE_VALUES[pieceType]` (king and NONE are 0 in the source). -/
def seeVal (v : SeeVals) : PieceType → Int
  | PieceType.pawn => v.pawn
  | PieceType.knight => v.minor
  | PieceType.bishop => v.minor
  | PieceType.rook => v.rook
  | PieceType.queen => v.queen
  | PieceType.king => 0
  | PieceType.none => 0

/-- The `popLeastValuable` lambda of `SEE`: the cheapest piece type of
`us` within the attacker set, together with the occupancy with that
piece's least significant square cleared.  (`NONE` with unchanged
occupancy when no piece bitboard matches.) -/
def popLeastValuable (b : Board) (us : Color) (ourAttackers occ : Nat) : PieceType × Nat :=
  let pick := fun (pt : PieceType) =>
    let bb := ourAttackers &&& b.getBb us pt
    if bb ≠ 0 then some (pt, occ ^^^ bitboard (lsb bb)) else Option.none
  ((pick PieceType.pawn).orElse fun _ =>
   (pick PieceType.knight).orElse fun _ =>
   (pick PieceType.bishop).orElse fun _ =>
   (pick PieceType.rook).orElse fun _ =>
   (pick PieceType.queen).orElse fun _ =>
   (pick PieceType.king)).getD (PieceType.none, occ)

/-- The `while (true)` exchange loop of `SEE`, returning the final `us`;
`fuel` bounds the iterations (each one clears an occupancy bit, so 64
always suffices on well-formed states). -/
def seeLoop (b : Board) (v : SeeVals) (square bishopsQueens rooksQueens : Nat) :
    Nat → Nat → Nat → Int → Color → Color
  | 0, _, _, _, us => us
  | fuel + 1, occ, attackers, score, us =>
    let ourAttackers := attackers &&& b.getBbColor us
    if ourAttackers = 0 then us
    else
      let nextOcc := popLeastValuable b us ourAttackers occ
      let next := nextOcc.1
      let occ := nextOcc.2
      let attackers :=
        if next = PieceType.pawn ∨ next = PieceType.bishop ∨ next = PieceType.queen then
          attackers ||| (bishopAttacks square occ &&& bishopsQueens)
        else attackers
      let attackers :=
        if next = PieceType.rook ∨ next = PieceType.queen then
          attackers ||| (rookAttacks square occ &&& rooksQueens)
        else attackers
      let attackers := attackers &&& occ
      let score := -score - 1 - seeVal v next
      let us := oppColor us
      if 0 ≤ score then
        if next = PieceType.king ∧ attackers &&& b.getBbColor us ≠ 0 then oppColor us
        else us
      else seeLoop b v square bishopsQueens rooksQueens fuel occ attackers score us

/-- `SEE(move, threshold)` from `board.hpp`: true iff the exchange on the
destination square wins at least `threshold` for the mover. -/
def Board.SEE (b : Board) (v : SeeVals) (m : Move) (threshold : Int) : Bool :=
  let captured := b.capturedPiece m
  let promo := m.promotion
  let score := -threshold + seeVal v captured +
    (if promo ≠ PieceType.none then seeVal v promo - v.pawn else 0)
  if score < 0 then false
  else
    let next := if promo ≠ PieceType.none then promo else m.pieceType
    let score := score - seeVal v next
    if 0 ≤ score then true
    else
      let bishopsQueens := b.getBbPiece PieceType.bishop ||| b.getBbPiece PieceType.queen
      let rooksQueens := b.getBbPiece PieceType.rook ||| b.getBbPiece PieceType.queen
      let occ := b.occupancy ^^^ bitboard m.src ^^^ bitboard m.dst
      let attackers := b.attackersOcc m.dst occ
      let finalUs := seeLoop b v m.dst bishopsQueens rooksQueens 64 occ attackers score b.oppSide
      b.sideToMove ≠ finalUs

-- ## Search thread (the `SearchThread` source file)

/-- `INF` of the search. -/
def INF : Int := 32000

/-- The side-to-move material balance of `SearchThread::evaluate()`:
pawn 100, knight 300, bishop 300, rook 500, queen 900, own minus
opponent. -/
def materialBalance (b : Board) : Int :=
  let stm := b.sideToMove
  let opp := b.oppSide
  100 * (popcount64 (b.getBb stm PieceType.pawn) : Int)
  + 300 * (popcount64 (b.getBb stm PieceType.knight) : Int)
  + 300 * (popcount64 (b.getBb stm PieceType.bishop) : Int)
  + 500 * (popcount64 (b.getBb stm PieceType.rook) : Int)
  + 900 * (popcount64 (b.getBb stm PieceType.queen) : Int)
  - 100 * (popcount64 (b.getBb opp PieceType.pawn) : Int)
  - 300 * (popcount64 (b.getBb opp PieceType.knight) : Int)
  - 300 * (popcount64 (b.getBb opp PieceType.bishop) : Int)
  - 500 * (popcount64 (b.getBb opp PieceType.rook) : Int)
  - 900 * (popcount64 (b.getBb opp PieceType.queen) : Int)

/-- `SearchThread::evaluate()` with the `randomU64()` draw passed in
(`utils.hpp` is not among the provided sources; the generator state is
abstracted into the oracle value `r`):
`material + i32(randomU64() % 51) - 25`. -/
def evaluate (b : Board) (r : Nat) : Int :=
  materialBalance b + ((r % 51 : Nat) : Int) - 25

/-- The oracle inputs of one search run.  `stopSearch()` reads the stop
flag, the node counters and the wall clock, and `evaluate()` draws a
random number; both are modelled as streams indexed by a consultation
counter threaded through the search (the `Nat` state component below). -/
structure SOracle where
  stop : Nat → Bool
  rand : Nat → Nat

-- The `PlyData::genAndScoreMoves` / `nextMove` move picker lives in
-- `ply_data.hpp`, which is not among the provided sources.  Modelled
-- from the spec (§4.6): the picker yields every generated pseudolegal
-- move exactly once; the order is taken to be generation order, which
-- none of the embedded claims depends on.  The main search generates
-- all moves, the quiescence search only noisy moves without
-- underpromotions (§4.7).  The principal-variation bookkeeping of the
-- ply data feeds only the iterative-deepening driver, which is modelled
-- separately below.

mutual

/-- `SearchThread::qSearch(ply, alpha, beta)`: stand pat on the static
evaluation, then search the noisy moves.  The state component is the
oracle consultation counter; `fuel` bounds the recursion depth (the C++
is bounded by `ply >= mMaxDepth`, so `maxD + 1` fuel suffices from the
root). -/
def qSearchAB (O : SOracle) (zk : ZKeys) (maxD : Nat) (fuel : Nat) (b : Board)
    (ply : Nat) (alpha beta : Int) (σ : Nat) : Int × Nat :=
  match fuel with
  | 0 => (0, σ)
  | fuel + 1 =>
    if O.stop σ then (0, σ + 1)
    else
      let σ := σ + 1
      if maxD ≤ ply then (evaluate b (O.rand σ), σ + 1)
      else
        let ev := evaluate b (O.rand σ)
        let σ := σ + 1
        if beta ≤ ev then (ev, σ)
        else
          let alpha := if alpha < ev then ev else alpha
          qLoop O zk maxD fuel b ply b.pinned (b.pseudolegalMoves true false) alpha beta ev σ
  termination_by (fuel, 0)

/-- The move loop of `qSearch`: skip illegal moves, recurse with the
negated window, keep the best score, raise alpha, cut on beta. -/
def qLoop (O : SOracle) (zk : ZKeys) (maxD : Nat) (fuel : Nat) (b : Board)
    (ply : Nat) (pinned : Nat) (moves : List Move) (alpha beta bestScore : Int)
    (σ : Nat) : Int × Nat :=
  match moves with
  | [] => (bestScore, σ)
  | m :: rest =>
    if ¬ b.isPseudolegalLegal m pinned then
      qLoop O zk maxD fuel b ply pinned rest alpha beta bestScore σ
    else
      let child := qSearchAB O zk maxD fuel (b.makeMove zk m) (ply + 1) (-beta) (-alpha) σ
      let score := -child.1
      if O.stop child.2 then (0, child.2 + 1)
      else
        let σ := child.2 + 1
        if score ≤ bestScore then qLoop O zk maxD fuel b ply pinned rest alpha beta bestScore σ
        else if beta ≤ score then (score, σ)
        else
          let alpha := if alpha < score then score else alpha
          qLoop O zk maxD fuel b ply pinned rest alpha beta score σ
  termination_by (fuel, moves.length + 1)

end

mutual

/-- `SearchThread::search(depth, ply, alpha, beta)` (the negamax node):
stop check, quiescence drop-off at `depth ≤ 0`, static evaluation at the
depth limit, then the move loop and the checkmate / stalemate scores.
`fuel` bounds the recursion (the C++ is bounded by `ply >= mMaxDepth`).
The seldepth statistic and the principal-variation bookkeeping do not
contribute to the returned score and are not modelled here; the
principal variation is modelled with the iterative-deepening driver. -/
def searchAB (O : SOracle) (zk : ZKeys) (maxD : Nat) (fuel : Nat) (b : Board)
    (depth : Int) (ply : Nat) (alpha beta : Int) (σ : Nat) : Int × Nat :=
  match fuel with
  | 0 => (0, σ)
  | fuel + 1 =>
    if O.stop σ then (0, σ + 1)
    else
      let σ := σ + 1
      if depth ≤ 0 then qSearchAB O zk maxD fuel b ply alpha beta σ
      else if maxD ≤ ply then (evaluate b (O.rand σ), σ + 1)
      else
        let depth := if maxD < depth then (maxD : Int) else depth
        searchLoop O zk maxD fuel b depth ply b.pinned (b.pseudolegalMoves false true)
          alpha beta (-INF) 0 σ
  termination_by (fuel, 0)

/-- The move loop of `search`: skip illegal moves, score each child
(0 on repetition, negamax otherwise), keep the best score, raise alpha,
break on beta; when no move was legal, return mate (`-INF + ply`) in
check and stalemate (0) otherwise. -/
def searchLoop (O : SOracle) (zk : ZKeys) (maxD : Nat) (fuel : Nat) (b : Board)
    (depth : Int) (ply : Nat) (pinned : Nat) (moves : List Move)
    (alpha beta bestScore : Int) (legalSeen : Nat) (σ : Nat) : Int × Nat :=
  match moves with
  | [] =>
    if legalSeen = 0 then (if b.inCheck then -INF + (ply : Int) else 0, σ)
    else (bestScore, σ)
  | m :: rest =>
    if ¬ b.isPseudolegalLegal m pinned then
      searchLoop O zk maxD fuel b depth ply pinned rest alpha beta bestScore legalSeen σ
    else
      let child := b.makeMove zk m
      let res :=
        if child.isRepetition ply then ((0 : Int), σ)
        else
          let r := searchAB O zk maxD fuel child
            (depth - 1 + (if child.inCheck then 1 else 0)) (ply + 1) (-beta) (-alpha) σ
          (-r.1, r.2)
      let score := res.1
      if O.stop res.2 then (0, res.2 + 1)
      else
        let σ := res.2 + 1
        let bestScore := if bestScore < score then score else bestScore
        if score ≤ alpha then
          searchLoop O zk maxD fuel b depth ply pinned rest alpha beta bestScore (legalSeen + 1) σ
        else if score < beta then
          searchLoop O zk maxD fuel b depth ply pinned rest score beta bestScore (legalSeen + 1) σ
        else (bestScore, σ)
  termination_by (fuel, moves.length + 1)

end

-- ## Iterative deepening (`SearchThread::search(board, maxDepth, …)`)
-- The driver loop is embedded with the inner negamax call abstracted as
-- an oracle: iteration `d` turns the current root principal variation
-- into a score and a new root principal variation (`iter`), and the
-- `stopSearch()` poll right after iteration `d` is `stopAfter d` (the
-- wall clock behind it is not statable).  Everything else — the saved
-- `moveBefore`, the clear/push restore on stop, the loop bounds — is a
-- direct translation of the source.

/-- `bestMoveRoot()`: head of the root principal variation, MOVE_NONE
when it is empty. -/
def bestMoveRootOf : List Move → Move
  | [] => MOVE_NONE
  | m :: _ => m

/-- The iterative-deepening loop from depth `d`: remember the best root
move, run the iteration, and on a stop restore the remembered move as
the whole principal variation and break. -/
def idLoop (iter : Nat → List Move → Int × List Move) (stopAfter : Nat → Bool)
    (maxD : Nat) (d : Nat) (pv : List Move) (score : Int) : Int × List Move :=
  if h : maxD < d then (score, pv)
  else
    let moveBefore := bestMoveRootOf pv
    let r := iter d pv
    if stopAfter d then (score, [moveBefore])
    else idLoop iter stopAfter maxD (d + 1) r.2 r.1
termination_by maxD + 1 - d

/-- The whole iterative deepening run: fresh root ply data (empty
principal variation), iterations 1, 2, …, `maxD`. -/
def iterativeDeepening (iter : Nat → List Move → Int × List Move)
    (stopAfter : Nat → Bool) (maxD : Nat) : Int × List Move :=
  idLoop iter stopAfter maxD 1 [] 0

/-- The root principal variation after `k` completed (un-stopped)
iterations starting at depth `d`. -/
def completedPv (iter : Nat → List Move → Int × List Move) (d : Nat) :
    Nat → List Move → List Move
  | 0, pv => pv
  | k + 1, pv => completedPv iter (d + 1) k (iter d pv).2

-- ## NNUE network loading (`nnue.hpp` lines 29-45)

/-- An output channel of the process. -/
inductive OutChannel where
  | out
  | err
deriving DecidableEq, Repr

/-- The observable outcome of `nnue::loadNetFromFile()`. -/
structure LoadResult where
  netLoaded : Bool
  errorLog : Option OutChannel
  exitCode : Option Nat
deriving DecidableEq, Repr

/-- `nnue::loadNetFromFile()`: when `fopen` succeeds the weights are
read; otherwise the source runs
`cout << "Error opening net file " << NET_FILE << endl; exit(0);` —
the message goes to standard output and the process exits with
status 0. -/
def loadNetFromFile (canOpen : Bool) : LoadResult :=
  if canOpen then ⟨true, Option.none, Option.none⟩
  else ⟨false, some OutChannel.out, some 0⟩

-- ## Helper definitions for the theorems

/-- Apply `makeMove` for each move of a list, in order. -/
def makeMoves (zk : ZKeys) (b : Board) (ms : List Move) : Board :=
  ms.foldl (fun bb m => bb.makeMove zk m) b

/-- Perform `k` `undoMove` calls. -/
def undoMoves (b : Board) : Nat → Board
  | 0 => b
  | k + 1 => undoMoves b.undoMove k

-- ## Theorems

theorem undoMoves_succ (b : Board) (k : Nat) :
    undoMoves b (k + 1) = (undoMoves b k).undoMove := by
  induction k generalizing b with
  | zero => rfl
  | succ k ih => rw [undoMoves, ih, undoMoves]

theorem undoMove_makeMove (zk : ZKeys) (b : Board) (m : Move) :
    (b.makeMove zk m).undoMove = b := rfl

/-- Claim C3: for every Board and every sequence of moves applied with
`makeMove`, the same number of `undoMove` calls returns the Board to a
state bitwise-equal to the original: the `Board` values — every
`BoardState` field of every history entry — are equal.  (This `Board`
has no paired accumulator: the embedded `board.hpp` stores none, and the
search thread of the provided sources never pushes one.) -/
theorem make_undo_roundtrip (zk : ZKeys) (b : Board) (ms : List Move) :
    undoMoves (makeMoves zk b ms) ms.length = b := by
  induction ms generalizing b with
  | nil => rfl
  | cons m ms ih =>
    have h1 : makeMoves zk b (m :: ms) = makeMoves zk (b.makeMove zk m) ms := rfl
    rw [h1, List.length_cons, undoMoves_succ, ih, undoMove_makeMove]

/-- Claim C8, counterexample: on a missing weights file the source does
not log to stderr nor exit nonzero — it writes the message to standard
output (`cout`) and calls `exit(0)`. -/
theorem loadNet_not_stderr_nonzero :
    ¬ ((loadNetFromFile false).errorLog = some OutChannel.err ∧
       ∃ c, (loadNetFromFile false).exitCode = some c ∧ c ≠ 0) := by
  intro h
  exact absurd h.1 (by decide)

/-- Claim C8, amended: if the NNUE weights file cannot be opened at
startup, the program logs the error to standard output and exits with
exit code 0 (without loading a network). -/
theorem loadNet_stdout_exit_zero :
    (loadNetFromFile false).errorLog = some OutChannel.out ∧
    (loadNetFromFile false).exitCode = some 0 ∧
    (loadNetFromFile false).netLoaded = false := by
  decide

/-- Claim C10: the search thread's `evaluate()` is the side-to-move
material balance (pawn 100, knight 300, bishop 300, rook 500, queen 900,
own minus opponent) plus a pseudo-random offset: it never differs from
the exact material balance by more than 25, and two calls on the same
position (with different random draws) need not return equal values. -/
theorem evaluate_material_window (b : Board) (r : Nat) :
    (evaluate b r - materialBalance b).natAbs ≤ 25 ∧ evaluate b 0 ≠ evaluate b 1 := by
  have h : r % 51 < 51 := Nat.mod_lt _ (by norm_num)
  constructor
  · simp only [evaluate]
    omega
  · simp only [evaluate]
    omega

/-- The `search` move loop on a list of moves that are all illegal
reaches its end with no legal move seen, producing the checkmate /
stalemate score. -/
theorem searchLoop_no_legal (O : SOracle) (zk : ZKeys) (maxD fuel : Nat) (b : Board)
    (depth : Int) (ply pinned : Nat) (moves : List Move) (alpha beta : Int) (σ : Nat)
    (h : ∀ m ∈ moves, b.isPseudolegalLegal m pinned = false) :
    searchLoop O zk maxD fuel b depth ply pinned moves alpha beta (-INF) 0 σ =
      (if b.inCheck then -INF + (ply : Int) else 0, σ) := by
  induction moves with
  | nil =>
    rw [searchLoop]
    simp
  | cons m rest ih =>
    have hm : b.isPseudolegalLegal m pinned = false := h m (List.mem_cons_self ..)
    rw [searchLoop]
    simp only [hm, Bool.false_eq_true, not_false_eq_true, if_true]
    exact ih (fun x hx => h x (List.mem_cons_of_mem _ hx))

/-- Claim C7: a negamax node with positive remaining depth (below the
ply limit, not yet stopped) whose generated pseudolegal moves are all
illegal returns `-INF + ply` when the side to move is in check
(checkmate) and 0 otherwise (stalemate). -/
theorem search_mate_stalemate (O : SOracle) (zk : ZKeys) (maxD fuel : Nat) (b : Board)
    (depth : Int) (ply : Nat) (alpha beta : Int) (σ : Nat)
    (hstop : O.stop σ = false) (hdepth : 0 < depth) (hply : ply < maxD)
    (hmoves : ∀ m ∈ b.pseudolegalMoves false true,
      b.isPseudolegalLegal m b.pinned = false) :
    searchAB O zk maxD (fuel + 1) b depth ply alpha beta σ =
      (if b.inCheck then -INF + (ply : Int) else 0, σ + 1) := by
  rw [searchAB]
  simp only [hstop, Bool.false_eq_true, if_false]
  rw [if_neg (by omega), if_neg (by omega)]
  exact searchLoop_no_legal O zk maxD fuel b _ ply b.pinned _ alpha beta (σ + 1) hmoves

/-- The iterative-deepening loop, started at depth `d` with the stop
poll failing for the next `k` iterations and succeeding after iteration
`d + k ≤ maxD`, ends with the principal variation restored to exactly
the best root move of the last completed iteration. -/
theorem idLoop_stopped (iter : Nat → List Move → Int × List Move)
    (stopAfter : Nat → Bool) (maxD : Nat) (k : Nat) :
    ∀ d pv score, (∀ i, d ≤ i → i < d + k → stopAfter i = false) →
    stopAfter (d + k) = true → d + k ≤ maxD →
    (idLoop iter stopAfter maxD d pv score).2 =
      [bestMoveRootOf (completedPv iter d k pv)] := by
  induction k with
  | zero =>
    intro d pv score _ hstop hle
    rw [idLoop]
    simp only [Nat.add_zero] at hstop hle
    rw [dif_neg (by omega), if_pos hstop]
    rfl
  | succ k ih =>
    intro d pv score hrun hstop hle
    rw [idLoop]
    rw [dif_neg (by omega), if_neg (by simp [hrun d le_rfl (by omega)])]
    have h2 : stopAfter (d + 1 + k) = true := by
      have : d + 1 + k = d + (k + 1) := by omega
      rw [this]; exact hstop
    exact ih (d + 1) (iter d pv).2 (iter d pv).1
      (fun i h1 h2 => hrun i (by omega) (by omega)) h2 (by omega)

/-- Claim C9: if the stop flag becomes set during iterative deepening
right after iteration `j + 1` began producing results — with iterations
1..j having completed un-stopped and the last completed iteration having
published a root best move `m ≠ MOVE_NONE` — then after the driver
returns, `bestMoveRoot()` still yields `m`, never MOVE_NONE. -/
theorem iterativeDeepening_keeps_best (iter : Nat → List Move → Int × List Move)
    (stopAfter : Nat → Bool) (maxD j : Nat) (m : Move)
    (hrun : ∀ i, 1 ≤ i → i < j + 1 → stopAfter i = false)
    (hstop : stopAfter (j + 1) = true)
    (hle : j + 1 ≤ maxD)
    (hm : bestMoveRootOf (completedPv iter 1 j []) = m)
    (hne : m ≠ MOVE_NONE) :
    bestMoveRootOf (iterativeDeepening iter stopAfter maxD).2 = m ∧ m ≠ MOVE_NONE := by
  refine ⟨?_, hne⟩
  have h := idLoop_stopped iter stopAfter maxD j 1 [] 0
    (fun i h1 h2 => hrun i h1 (by omega)) (by rw [Nat.add_comm 1 j]; exact hstop)
    (by omega)
  rw [iterativeDeepening, h, hm]
  rfl

/-- Witness for `search_mate_stalemate`: a concrete stalemate (black to
move, no legal move, not in check: the search returns 0) reached from a
FEN-constructed position. -/
theorem search_mate_stalemate_witness :
    searchAB ⟨fun _ => false, fun _ => 0⟩ zk0 5 3
      (parseFen zk0 "7k/5Q2/6K1/8/8/8/8/8 b - - 0 1") 2 1 (-INF) INF 0 = (0, 1) := by
  have h := search_mate_stalemate ⟨fun _ => false, fun _ => 0⟩ zk0 5 2
    (parseFen zk0 "7k/5Q2/6K1/8/8/8/8/8 b - - 0 1") 2 1 (-INF) INF 0
    (by decide) (by decide) (by decide) (by decide)
  rw [h]
  decide

/-- Witness for `iterativeDeepening_keeps_best`: one completed iteration
publishing a move, a stop after the second iteration. -/
theorem iterativeDeepening_keeps_best_witness :
    bestMoveRootOf (iterativeDeepening
      (fun _ _ => (7, [Move.mk 12 28 MoveFlag.pawnTwoUp]))
      (fun i => decide (2 ≤ i)) 4).2 = Move.mk 12 28 MoveFlag.pawnTwoUp := by
  have h := iterativeDeepening_keeps_best
    (fun _ _ => (7, [Move.mk 12 28 MoveFlag.pawnTwoUp]))
    (fun i => decide (2 ≤ i)) 4 1 (Move.mk 12 28 MoveFlag.pawnTwoUp)
    (fun i h1 h2 => by
      have hi : i = 1 := by omega
      subst hi
      rfl)
    (by decide) (by decide) (by decide) (by decide)
  exact h.1

-- ## Claim C6: repetition detection against its specification

/-- A scanned history entry at distance `d` that matches the current
hash at or below the search root. -/
def belowRootMatch (hist : List BoardState) (h0 searchPly d : Nat) : Bool :=
  decide ((hist.getD d BoardState.init).zobristHash = h0 ∧ searchPly ≤ d)

/-- The specification predicate of `isRepetition(searchPly)`: scanning
the history backward in two-ply steps (`d = 2, 4, …`), stopping at the
last irreversible move (`d ≤ pliesSincePawnOrCapture`, bounded by the
history), the current Zobrist hash occurs at least once above the search
root (`d < searchPly`, i.e. within the top `searchPly` plies), or at
least twice at or below the root. -/
def specRepetition (b : Board) (searchPly : Nat) : Prop :=
  (∃ d ∈ scanDistances b.size b.cur.pliesSincePawnOrCapture,
    (b.hist.getD d BoardState.init).zobristHash = b.cur.zobristHash ∧ d < searchPly) ∨
  2 ≤ (scanDistances b.size b.cur.pliesSincePawnOrCapture).countP
    (belowRootMatch b.hist b.cur.zobristHash searchPly)

/-- The scan loop reports a repetition exactly when some scanned entry
matches above the root, or when the at-or-below-root matches (counted on
top of the entries already counted) reach two. -/
theorem repScan_iff (hist : List BoardState) (h0 searchPly : Nat) (ds : List Nat)
    (count : Nat) (hcount : count ≤ 1) :
    repScan hist h0 searchPly ds count = true ↔
      (∃ d ∈ ds, (hist.getD d BoardState.init).zobristHash = h0 ∧ d < searchPly) ∨
      2 ≤ count + ds.countP (belowRootMatch hist h0 searchPly) := by
  induction ds generalizing count with
  | nil =>
    have hl : repScan hist h0 searchPly [] count = false := rfl
    rw [hl, List.countP_nil]
    simp only [Bool.false_eq_true, false_iff]
    rintro (⟨d, hd, _⟩ | hn)
    · exact absurd hd (List.not_mem_nil d)
    · omega
  | cons d rest ih =>
    by_cases hd : (hist.getD d BoardState.init).zobristHash = h0
    · by_cases hroot : d < searchPly
      · have hl : repScan hist h0 searchPly (d :: rest) count = true := by
          rw [repScan, if_pos hd, if_pos hroot]
        rw [hl]
        simp only [true_iff]
        exact Or.inl ⟨d, List.mem_cons_self .., hd, hroot⟩
      · have hbm : belowRootMatch hist h0 searchPly d = true := by
          rw [belowRootMatch]
          exact decide_eq_true ⟨hd, by omega⟩
        rw [List.countP_cons_of_pos _ _ hbm]
        by_cases htwo : count + 1 = 2
        · have hl : repScan hist h0 searchPly (d :: rest) count = true := by
            rw [repScan, if_pos hd, if_neg hroot, if_pos htwo]
          rw [hl]
          simp only [true_iff]
          exact Or.inr (by omega)
        · have hc0 : count = 0 := by omega
          subst hc0
          have hl : repScan hist h0 searchPly (d :: rest) 0 =
              repScan hist h0 searchPly rest 1 := by
            rw [repScan, if_pos hd, if_neg hroot, if_neg htwo]
          rw [hl, ih 1 le_rfl]
          constructor
          · rintro (⟨e, he, hm⟩ | hn)
            · exact Or.inl ⟨e, List.mem_cons_of_mem _ he, hm⟩
            · exact Or.inr (by omega)
          · rintro (⟨e, he, hm, hr⟩ | hn)
            · rcases List.mem_cons.mp he with rfl | he'
              · exact absurd hr hroot
              · exact Or.inl ⟨e, he', hm, hr⟩
            · exact Or.inr (by omega)
    · have hbm : belowRootMatch hist h0 searchPly d = false := by
        rw [belowRootMatch]
        exact decide_eq_false (fun h => hd h.1)
      rw [List.countP_cons_of_neg _ _ (by rw [hbm]; exact Bool.false_ne_true)]
      have hl : repScan hist h0 searchPly (d :: rest) count =
          repScan hist h0 searchPly rest count := by
        rw [repScan, if_neg hd]
      rw [hl, ih count hcount]
      constructor
      · rintro (⟨e, he, hm⟩ | hn)
        · exact Or.inl ⟨e, List.mem_cons_of_mem _ he, hm⟩
        · exact Or.inr hn
      · rintro (⟨e, he, hm, hr⟩ | hn)
        · rcases List.mem_cons.mp he with rfl | he'
          · exact absurd hm hd
          · exact Or.inl ⟨e, he', hm, hr⟩
        · exact Or.inr hn

/-- Membership in the scanned distances. -/
theorem mem_scanDistances (n plies d : Nat) :
    d ∈ scanDistances n plies ↔ d < n ∧ 2 ≤ d ∧ d % 2 = 0 ∧ d ≤ plies := by
  simp [scanDistances, List.mem_filter, List.mem_range, and_assoc]

/-- A duplicate-free list whose elements all equal `a` has at most one
element. -/
theorem length_le_one_of_nodup_const (l : List Nat) (a : Nat) (hn : l.Nodup)
    (hs : ∀ x ∈ l, x = a) : l.length ≤ 1 := by
  match l with
  | [] => simp
  | [x] => simp
  | x :: y :: rest =>
    have hx : x = a := hs x (by simp)
    have hy : y = a := hs y (by simp)
    rw [List.nodup_cons] at hn
    exact absurd (by simp [hx, hy] : x ∈ y :: rest) hn.1

/-- The scanned distances form a duplicate-free list. -/
theorem scanDistances_nodup (n plies : Nat) : (scanDistances n plies).Nodup :=
  (List.nodup_range n).filter _

/-- Claim C6: `isRepetition(searchPly)` returns true iff, scanning the
history backward in two-ply steps and stopping at the last irreversible
move, the current Zobrist hash occurs at least once above the search
root or at least twice at or below it.  The hypothesis rules out a
repetition at distance exactly two plies, which cannot occur in a real
game (one move by each side cannot restore the position) but would
otherwise be missed by the source's `size <= 4 || plies < 4` early
exit. -/
theorem isRepetition_iff_spec (b : Board) (searchPly : Nat)
    (h2 : 2 ≤ b.cur.pliesSincePawnOrCapture → 3 ≤ b.size →
      (b.hist.getD 2 BoardState.init).zobristHash ≠ b.cur.zobristHash) :
    b.isRepetition searchPly = true ↔ specRepetition b searchPly := by
  rw [Board.isRepetition]
  by_cases hguard : b.size ≤ 4 ∨ b.cur.pliesSincePawnOrCapture < 4
  · rw [if_pos hguard]
    simp only [Bool.false_eq_true, false_iff]
    -- with the guard failing, every scanned distance is 2, so any
    -- repetition the specification sees is a distance-2 repetition
    intro hspec
    have hsub : ∀ d ∈ scanDistances b.size b.cur.pliesSincePawnOrCapture, d = 2 := by
      intro d hd
      rw [mem_scanDistances] at hd
      rcases hguard with hg | hg
      · omega
      · omega
    have hmatch2 : (b.hist.getD 2 BoardState.init).zobristHash = b.cur.zobristHash ∧
        2 ∈ scanDistances b.size b.cur.pliesSincePawnOrCapture := by
      rcases hspec with ⟨d, hd, hm, _⟩ | hn
      · have := hsub d hd
        subst this
        exact ⟨hm, hd⟩
      · have hlen := List.countP_le_length
          (p := belowRootMatch b.hist b.cur.zobristHash searchPly)
          (l := scanDistances b.size b.cur.pliesSincePawnOrCapture)
        have hone := length_le_one_of_nodup_const _ 2 (scanDistances_nodup _ _) hsub
        omega
    rcases hmatch2 with ⟨hm, hmem⟩
    rw [mem_scanDistances] at hmem
    exact h2 (by omega) (by omega) hm
  · rw [if_neg hguard]
    have := repScan_iff b.hist b.cur.zobristHash searchPly
      (scanDistances b.size b.cur.pliesSincePawnOrCapture) 0 (by omega)
    rw [this]
    simp [specRepetition]

/-- Witness for `isRepetition_iff_spec`: a concrete six-entry history
with the current hash repeated at distances 4 (above a root at
`searchPly = 5`), detected by both sides of the equivalence. -/
theorem isRepetition_iff_spec_witness :
    (Board.isRepetition
      ⟨{ BoardState.init with zobristHash := 77, pliesSincePawnOrCapture := 5 },
       [{ BoardState.init with zobristHash := 3 },
        { BoardState.init with zobristHash := 5 },
        { BoardState.init with zobristHash := 9 },
        { BoardState.init with zobristHash := 77 },
        { BoardState.init with zobristHash := 11 }]⟩ 5) = true := by
  rw [isRepetition_iff_spec _ 5 (by intro _ _; decide)]
  exact Or.inl ⟨4, by decide, by decide, by decide⟩

-- ## Claim C4: the Zobrist hash invariant
-- The hash recomputed from scratch, as the claim describes it: XOR over
-- all (color, piece-type, square) occupancies of `ZOBRIST_PIECES`, XOR
-- the side key when Black is to move, XOR the castling-rights
-- contribution (the source hashes the castling-rights bitboard value
-- itself), XOR the file key of the en-passant square when one is set.

/-- One (color, piece-type) key contribution at a square: the key when a
piece of that color and type occupies the square, 0 otherwise. -/
def keyTerm (zk : ZKeys) (s : BoardState) (c : Color) (pt : PieceType) (sq : Nat) : Nat :=
  if (s.pieceBb pt &&& s.colorBb c).testBit sq then zk.pieces c pt sq else 0

/-- The key contribution of one square: XOR over the twelve
(color, piece-type) pairs. -/
def sqKeys (zk : ZKeys) (s : BoardState) (sq : Nat) : Nat :=
  keyTerm zk s Color.white PieceType.pawn sq ^^^
  keyTerm zk s Color.white PieceType.knight sq ^^^
  keyTerm zk s Color.white PieceType.bishop sq ^^^
  keyTerm zk s Color.white PieceType.rook sq ^^^
  keyTerm zk s Color.white PieceType.queen sq ^^^
  keyTerm zk s Color.white PieceType.king sq ^^^
  keyTerm zk s Color.black PieceType.pawn sq ^^^
  keyTerm zk s Color.black PieceType.knight sq ^^^
  keyTerm zk s Color.black PieceType.bishop sq ^^^
  keyTerm zk s Color.black PieceType.rook sq ^^^
  keyTerm zk s Color.black PieceType.queen sq ^^^
  keyTerm zk s Color.black PieceType.king sq

/-- XOR of `f 0, …, f (n-1)`. -/
def xorRange (f : Nat → Nat) : Nat → Nat
  | 0 => 0
  | n + 1 => xorRange f n ^^^ f n

/-- The piece part of the recomputed hash: XOR over all squares. -/
def piecesKey (zk : ZKeys) (s : BoardState) : Nat := xorRange (sqKeys zk s) 64

/-- The Zobrist hash recomputed from scratch. -/
def recomputeZobrist (zk : ZKeys) (s : BoardState) : Nat :=
  piecesKey zk s ^^^
  (if s.colorToMove = Color.black then zk.color else 0) ^^^
  s.castlingRights ^^^
  (if s.enPassantSquare ≠ SQUARE_NONE then zk.files (squareFile s.enPassantSquare) else 0)

theorem xorRange_congr (f g : Nat → Nat) (n : Nat) (h : ∀ i, i < n → f i = g i) :
    xorRange f n = xorRange g n := by
  induction n with
  | zero => rfl
  | succ n ih =>
    rw [xorRange, xorRange, ih (fun i hi => h i (by omega)), h n (by omega)]

theorem xor_left_comm (a b c : Nat) : a ^^^ (b ^^^ c) = b ^^^ (a ^^^ c) := by
  rw [← Nat.xor_assoc, Nat.xor_comm a b, Nat.xor_assoc]

theorem xor_self_left (a b : Nat) : a ^^^ (a ^^^ b) = b := by
  rw [← Nat.xor_assoc, Nat.xor_self, Nat.zero_xor]

theorem xorRange_update (f g : Nat → Nat) (n q : Nat) (hq : q < n)
    (h : ∀ i, i < n → i ≠ q → f i = g i) :
    xorRange g n = xorRange f n ^^^ (f q ^^^ g q) := by
  induction n with
  | zero => omega
  | succ n ih =>
    by_cases hqn : q = n
    · rw [xorRange, xorRange,
        xorRange_congr g f n (fun i hi => (h i (by omega) (by omega)).symm), hqn]
      simp only [Nat.xor_assoc, xor_left_comm, Nat.xor_comm, xor_self_left]
    · rw [xorRange, xorRange, ih (by omega) (fun i hi hne => h i (by omega) hne),
        h n (by omega) (by omega)]
      simp only [Nat.xor_assoc, xor_left_comm, Nat.xor_comm, xor_self_left]

theorem xorRange_zero_fn (f : Nat → Nat) (n : Nat) (h : ∀ i, i < n → f i = 0) :
    xorRange f n = 0 := by
  induction n with
  | zero => rfl
  | succ n ih =>
    rw [xorRange, ih (fun i hi => h i (by omega)), h n (by omega)]
    decide

/-- `testBit` of a single-square bitboard. -/
theorem testBit_bitboard (q i : Nat) : (bitboard q).testBit i = decide (q = i) := by
  rw [bitboard, Nat.shiftLeft_eq, Nat.one_mul, Nat.testBit_two_pow]

/-- Square `q` holds exactly a piece of color `c` and type `pt`: the own
color and piece bits are set and every other piece or color bit at the
square is clear. -/
def holdsExactly (s : BoardState) (q : Nat) (c : Color) (pt : PieceType) : Prop :=
  (s.colorBb c).testBit q = true ∧
  (s.colorBb (oppColor c)).testBit q = false ∧
  (s.pieceBb pt).testBit q = true ∧
  ∀ pt', pt' ≠ pt → (s.pieceBb pt').testBit q = false

/-- Square `q` is empty in every bitboard. -/
def emptyAt (s : BoardState) (q : Nat) : Prop :=
  (s.colorBb Color.white).testBit q = false ∧
  (s.colorBb Color.black).testBit q = false ∧
  ∀ pt, (s.pieceBb pt).testBit q = false

theorem removePiece_colorBb (zk : ZKeys) (c : Color) (pt : PieceType) (q : Nat)
    (s : BoardState) (c' : Color) :
    (removePiece zk c pt q s).colorBb c' =
      if c' = c then s.colorBb c' ^^^ bitboard q else s.colorBb c' := by
  cases c <;> cases c' <;> cases pt <;>
    simp [removePiece, updateHashes, BoardState.setColorBb, BoardState.setPieceBb,
      BoardState.colorBb, BoardState.pieceBb]

theorem removePiece_pieceBb (zk : ZKeys) (c : Color) (pt : PieceType) (q : Nat)
    (s : BoardState) (pt' : PieceType) (hpt : pt ≠ PieceType.none) :
    (removePiece zk c pt q s).pieceBb pt' =
      if pt' = pt then s.pieceBb pt' ^^^ bitboard q else s.pieceBb pt' := by
  cases c <;> cases pt <;> cases pt' <;>
    simp_all [removePiece, updateHashes, BoardState.setColorBb, BoardState.setPieceBb,
      BoardState.colorBb, BoardState.pieceBb]

theorem removePiece_zobristHash (zk : ZKeys) (c : Color) (pt : PieceType) (q : Nat)
    (s : BoardState) :
    (removePiece zk c pt q s).zobristHash = s.zobristHash ^^^ zk.pieces c pt q := by
  cases c <;> cases pt <;>
    simp [removePiece, updateHashes, BoardState.setColorBb, BoardState.setPieceBb]

theorem removePiece_rest (zk : ZKeys) (c : Color) (pt : PieceType) (q : Nat)
    (s : BoardState) :
    (removePiece zk c pt q s).colorToMove = s.colorToMove ∧
    (removePiece zk c pt q s).castlingRights = s.castlingRights ∧
    (removePiece zk c pt q s).enPassantSquare = s.enPassantSquare ∧
    (removePiece zk c pt q s).pliesSincePawnOrCapture = s.pliesSincePawnOrCapture ∧
    (removePiece zk c pt q s).currentMoveCounter = s.currentMoveCounter ∧
    (removePiece zk c pt q s).checkers = s.checkers ∧
    (removePiece zk c pt q s).lastMove = s.lastMove ∧
    (removePiece zk c pt q s).captured = s.captured := by
  cases c <;> cases pt <;>
    simp [removePiece, updateHashes, BoardState.setColorBb, BoardState.setPieceBb]

theorem placePiece_colorBb (zk : ZKeys) (c : Color) (pt : PieceType) (q : Nat)
    (s : BoardState) (c' : Color) :
    (placePiece zk c pt q s).colorBb c' =
      if c' = c then s.colorBb c' ||| bitboard q else s.colorBb c' := by
  cases c <;> cases c' <;> cases pt <;>
    simp [placePiece, updateHashes, BoardState.setColorBb, BoardState.setPieceBb,
      BoardState.colorBb, BoardState.pieceBb]

theorem placePiece_pieceBb (zk : ZKeys) (c : Color) (pt : PieceType) (q : Nat)
    (s : BoardState) (pt' : PieceType) (hpt : pt ≠ PieceType.none) :
    (placePiece zk c pt q s).pieceBb pt' =
      if pt' = pt then s.pieceBb pt' ||| bitboard q else s.pieceBb pt' := by
  cases c <;> cases pt <;> cases pt' <;>
    simp_all [placePiece, updateHashes, BoardState.setColorBb, BoardState.setPieceBb,
      BoardState.colorBb, BoardState.pieceBb]

theorem placePiece_zobristHash (zk : ZKeys) (c : Color) (pt : PieceType) (q : Nat)
    (s : BoardState) :
    (placePiece zk c pt q s).zobristHash = s.zobristHash ^^^ zk.pieces c pt q := by
  cases c <;> cases pt <;>
    simp [placePiece, updateHashes, BoardState.setColorBb, BoardState.setPieceBb]

theorem placePiece_rest (zk : ZKeys) (c : Color) (pt : PieceType) (q : Nat)
    (s : BoardState) :
    (placePiece zk c pt q s).colorToMove = s.colorToMove ∧
    (placePiece zk c pt q s).castlingRights = s.castlingRights ∧
    (placePiece zk c pt q s).enPassantSquare = s.enPassantSquare ∧
    (placePiece zk c pt q s).pliesSincePawnOrCapture = s.pliesSincePawnOrCapture ∧
    (placePiece zk c pt q s).currentMoveCounter = s.currentMoveCounter ∧
    (placePiece zk c pt q s).checkers = s.checkers ∧
    (placePiece zk c pt q s).lastMove = s.lastMove ∧
    (placePiece zk c pt q s).captured = s.captured := by
  cases c <;> cases pt <;>
    simp [placePiece, updateHashes, BoardState.setColorBb, BoardState.setPieceBb]

theorem oppColor_ne (c : Color) : oppColor c ≠ c := by cases c <;> decide

theorem sqKeys_congr (zk : ZKeys) (s s' : BoardState) (i : Nat)
    (h : ∀ c pt, (s'.pieceBb pt &&& s'.colorBb c).testBit i =
      (s.pieceBb pt &&& s.colorBb c).testBit i) :
    sqKeys zk s' i = sqKeys zk s i := by
  simp only [sqKeys, keyTerm, h]

theorem sqKeys_removePiece_ne (zk : ZKeys) (c : Color) (pt : PieceType) (q : Nat)
    (s : BoardState) (i : Nat) (hpt : pt ≠ PieceType.none) (hne : i ≠ q) :
    sqKeys zk (removePiece zk c pt q s) i = sqKeys zk s i := by
  have hb : (bitboard q).testBit i = false := by
    rw [testBit_bitboard]
    exact decide_eq_false (fun hh => hne hh.symm)
  apply sqKeys_congr
  intro c' pt'
  rw [removePiece_pieceBb zk c pt q s pt' hpt, removePiece_colorBb zk c pt q s c']
  split_ifs <;> simp [Nat.testBit_land, Nat.testBit_xor, hb]

theorem sqKeys_placePiece_ne (zk : ZKeys) (c : Color) (pt : PieceType) (q : Nat)
    (s : BoardState) (i : Nat) (hpt : pt ≠ PieceType.none) (hne : i ≠ q) :
    sqKeys zk (placePiece zk c pt q s) i = sqKeys zk s i := by
  have hb : (bitboard q).testBit i = false := by
    rw [testBit_bitboard]
    exact decide_eq_false (fun hh => hne hh.symm)
  apply sqKeys_congr
  intro c' pt'
  rw [placePiece_pieceBb zk c pt q s pt' hpt, placePiece_colorBb zk c pt q s c']
  split_ifs <;> simp [Nat.testBit_land, Nat.testBit_lor, hb]

theorem sqKeys_eval_nocolor (zk : ZKeys) (s : BoardState) (q : Nat)
    (hw : (s.colorBb Color.white).testBit q = false)
    (hb : (s.colorBb Color.black).testBit q = false) :
    sqKeys zk s q = 0 := by
  simp [sqKeys, keyTerm, Nat.testBit_land, hw, hb]

theorem sqKeys_eval_single (zk : ZKeys) (s : BoardState) (q : Nat) (c : Color)
    (pt : PieceType) (hpt : pt ≠ PieceType.none) (h : holdsExactly s q c pt) :
    sqKeys zk s q = zk.pieces c pt q := by
  obtain ⟨h1, h2, h3, h4⟩ := h
  cases c <;> cases pt <;>
    simp_all [sqKeys, keyTerm, Nat.testBit_land, oppColor]

theorem removePiece_colorBits (zk : ZKeys) (c : Color) (pt : PieceType) (q : Nat)
    (s : BoardState) (h : holdsExactly s q c pt) (c' : Color) :
    ((removePiece zk c pt q s).colorBb c').testBit q = false := by
  obtain ⟨h1, h2, _, _⟩ := h
  rw [removePiece_colorBb]
  by_cases hc : c' = c
  · subst hc
    simp [Nat.testBit_xor, testBit_bitboard, h1]
  · rw [if_neg hc]
    cases c <;> cases c' <;> simp_all [oppColor]

theorem piecesKey_removePiece (zk : ZKeys) (c : Color) (pt : PieceType) (q : Nat)
    (s : BoardState) (hq : q < 64) (hpt : pt ≠ PieceType.none)
    (h : holdsExactly s q c pt) :
    piecesKey zk (removePiece zk c pt q s) = piecesKey zk s ^^^ zk.pieces c pt q := by
  rw [piecesKey, piecesKey,
    xorRange_update (sqKeys zk s) (sqKeys zk (removePiece zk c pt q s)) 64 q hq
      (fun i _ hne => (sqKeys_removePiece_ne zk c pt q s i hpt hne).symm),
    sqKeys_eval_single zk s q c pt hpt h,
    sqKeys_eval_nocolor zk _ q (removePiece_colorBits zk c pt q s h Color.white)
      (removePiece_colorBits zk c pt q s h Color.black),
    Nat.xor_zero]

theorem placePiece_holdsExactly (zk : ZKeys) (c : Color) (pt : PieceType) (q : Nat)
    (s : BoardState) (hpt : pt ≠ PieceType.none) (h : emptyAt s q) :
    holdsExactly (placePiece zk c pt q s) q c pt := by
  obtain ⟨hw, hb, hp⟩ := h
  refine ⟨?_, ?_, ?_, ?_⟩
  · rw [placePiece_colorBb, if_pos rfl]
    simp [Nat.testBit_lor, testBit_bitboard]
  · rw [placePiece_colorBb, if_neg (oppColor_ne c)]
    cases c <;> simp_all [oppColor]
  · rw [placePiece_pieceBb zk c pt q s pt hpt, if_pos rfl]
    simp [Nat.testBit_lor, testBit_bitboard]
  · intro pt' hne
    rw [placePiece_pieceBb zk c pt q s pt' hpt, if_neg hne]
    exact hp pt'

theorem piecesKey_placePiece (zk : ZKeys) (c : Color) (pt : PieceType) (q : Nat)
    (s : BoardState) (hq : q < 64) (hpt : pt ≠ PieceType.none) (h : emptyAt s q) :
    piecesKey zk (placePiece zk c pt q s) = piecesKey zk s ^^^ zk.pieces c pt q := by
  rw [piecesKey, piecesKey,
    xorRange_update (sqKeys zk s) (sqKeys zk (placePiece zk c pt q s)) 64 q hq
      (fun i _ hne => (sqKeys_placePiece_ne zk c pt q s i hpt hne).symm),
    sqKeys_eval_nocolor zk s q h.1 h.2.1,
    sqKeys_eval_single zk _ q c pt hpt (placePiece_holdsExactly zk c pt q s hpt h),
    Nat.zero_xor]

/-- Removing a piece that stands exactly at its square keeps the stored
hash equal to the recomputed hash. -/
theorem hashOK_removePiece (zk : ZKeys) (c : Color) (pt : PieceType) (q : Nat)
    (s : BoardState) (hq : q < 64) (hpt : pt ≠ PieceType.none)
    (h : holdsExactly s q c pt) (hinv : s.zobristHash = recomputeZobrist zk s) :
    (removePiece zk c pt q s).zobristHash =
      recomputeZobrist zk (removePiece zk c pt q s) := by
  obtain ⟨hctm, hcr, hep, -⟩ := removePiece_rest zk c pt q s
  rw [removePiece_zobristHash, hinv, recomputeZobrist, recomputeZobrist,
    piecesKey_removePiece zk c pt q s hq hpt h, hctm, hcr, hep]
  simp only [Nat.xor_assoc, xor_left_comm, Nat.xor_comm, xor_self_left]

/-- Placing a piece on an empty square keeps the stored hash equal to
the recomputed hash. -/
theorem hashOK_placePiece (zk : ZKeys) (c : Color) (pt : PieceType) (q : Nat)
    (s : BoardState) (hq : q < 64) (hpt : pt ≠ PieceType.none)
    (h : emptyAt s q) (hinv : s.zobristHash = recomputeZobrist zk s) :
    (placePiece zk c pt q s).zobristHash =
      recomputeZobrist zk (placePiece zk c pt q s) := by
  obtain ⟨hctm, hcr, hep, -⟩ := placePiece_rest zk c pt q s
  rw [placePiece_zobristHash, hinv, recomputeZobrist, recomputeZobrist,
    piecesKey_placePiece zk c pt q s hq hpt h, hctm, hcr, hep]
  simp only [Nat.xor_assoc, xor_left_comm, Nat.xor_comm, xor_self_left]

theorem and_eq_zero_testBit (x y : Nat) (h : x &&& y = 0) (i : Nat)
    (hx : x.testBit i = true) : y.testBit i = false := by
  by_contra hy
  have h1 : (x &&& y).testBit i = true := by
    rw [Nat.testBit_land, hx, Bool.true_and]
    exact eq_true_of_ne_false hy
  rw [h, Nat.zero_testBit] at h1
  exact Bool.false_ne_true h1

theorem bitboard_and (q : Nat) (x : Nat) :
    bitboard q &&& x = if x.testBit q then bitboard q else 0 := by
  apply Nat.eq_of_testBit_eq
  intro i
  rw [Nat.testBit_land, testBit_bitboard]
  by_cases hqi : q = i
  · subst hqi
    by_cases hx : x.testBit q <;> simp [hx, testBit_bitboard]
  · by_cases hx : x.testBit q <;>
      simp [hx, testBit_bitboard, hqi, Nat.zero_testBit]

theorem bitboard_ne_zero (q : Nat) : bitboard q ≠ 0 := by
  rw [bitboard, Nat.shiftLeft_eq, Nat.one_mul]
  exact (Nat.two_pow_pos q).ne'

theorem bitboard_and_ne_zero (q : Nat) (x : Nat) :
    (bitboard q &&& x ≠ 0) ↔ x.testBit q = true := by
  rw [bitboard_and]
  by_cases hx : x.testBit q <;> simp [hx, bitboard_ne_zero]

theorem bitboard_and_eq_zero (q : Nat) (x : Nat) :
    (bitboard q &&& x = 0) ↔ x.testBit q = false := by
  rw [bitboard_and]
  by_cases hx : x.testBit q <;> simp [hx, bitboard_ne_zero]

/-- The union of all six piece bitboards. -/
def allPieces (s : BoardState) : Nat :=
  s.bbPawn ||| s.bbKnight ||| s.bbBishop ||| s.bbRook ||| s.bbQueen ||| s.bbKing

/-- The castling-rights component of well-formedness: rights bits sit on
the four rook home corners only, and a surviving right implies the rook
on its corner and the king on its home square. -/
def crWF (s : BoardState) : Prop :=
  s.castlingRights &&& compl64 (bitboard 0 ||| bitboard 7 ||| bitboard 56 ||| bitboard 63) = 0 ∧
  (s.castlingRights.testBit 7 = true →
    (s.pieceBb PieceType.rook &&& s.colorBb Color.white).testBit 7 = true ∧
    (s.pieceBb PieceType.king &&& s.colorBb Color.white).testBit 4 = true) ∧
  (s.castlingRights.testBit 0 = true →
    (s.pieceBb PieceType.rook &&& s.colorBb Color.white).testBit 0 = true ∧
    (s.pieceBb PieceType.king &&& s.colorBb Color.white).testBit 4 = true) ∧
  (s.castlingRights.testBit 63 = true →
    (s.pieceBb PieceType.rook &&& s.colorBb Color.black).testBit 63 = true ∧
    (s.pieceBb PieceType.king &&& s.colorBb Color.black).testBit 60 = true) ∧
  (s.castlingRights.testBit 56 = true →
    (s.pieceBb PieceType.rook &&& s.colorBb Color.black).testBit 56 = true ∧
    (s.pieceBb PieceType.king &&& s.colorBb Color.black).testBit 60 = true)

/-- The en-passant component of well-formedness: when a square is set it
lies on the capture rank of the side to move, it is empty, and the
just-pushed enemy pawn stands in front of it. -/
def epWF (s : BoardState) : Prop :=
  s.enPassantSquare = SQUARE_NONE ∨
  ((s.bbWhite ||| s.bbBlack).testBit s.enPassantSquare = false ∧
   (s.colorToMove = Color.white →
     40 ≤ s.enPassantSquare ∧ s.enPassantSquare < 48 ∧
     (s.pieceBb PieceType.pawn &&& s.colorBb Color.black).testBit (s.enPassantSquare - 8) = true) ∧
   (s.colorToMove = Color.black →
     16 ≤ s.enPassantSquare ∧ s.enPassantSquare < 24 ∧
     (s.pieceBb PieceType.pawn &&& s.colorBb Color.white).testBit (s.enPassantSquare + 8) = true))

/-- The core invariants of spec §3 for one board state: disjoint color
bitboards, pairwise disjoint piece bitboards matching the color union,
exactly one king per color, no pawn on the back ranks, consistent
castling rights and en-passant square. -/
def WFState (s : BoardState) : Prop :=
  s.bbWhite &&& s.bbBlack = 0 ∧
  (∀ pt1 pt2 : PieceType, pt1 ≠ pt2 → s.pieceBb pt1 &&& s.pieceBb pt2 = 0) ∧
  allPieces s = s.bbWhite ||| s.bbBlack ∧
  (∀ c : Color, ∃ q, q < 64 ∧ s.pieceBb PieceType.king &&& s.colorBb c = bitboard q) ∧
  s.bbPawn &&& 0xFF000000000000FF = 0 ∧
  crWF s ∧ epWF s

theorem WF_holdsExactly (s : BoardState) (h : WFState s) (c : Color) (pt : PieceType)
    (q : Nat) (hc : (s.colorBb c).testBit q = true)
    (hp : (s.pieceBb pt).testBit q = true) :
    holdsExactly s q c pt := by
  obtain ⟨h1, h2, -, -, -, -, -⟩ := h
  refine ⟨hc, ?_, hp,
    fun pt' hne => and_eq_zero_testBit _ _ (h2 pt pt' (fun e => hne e.symm)) q hp⟩
  cases c
  · exact and_eq_zero_testBit _ _ h1 q hc
  · exact and_eq_zero_testBit _ _ (by rw [Nat.land_comm]; exact h1) q hc

theorem pieceBit_occ (s : BoardState) (hun : allPieces s = s.bbWhite ||| s.bbBlack)
    (pt : PieceType) (q : Nat) (hp : (s.pieceBb pt).testBit q = true) :
    (s.bbWhite ||| s.bbBlack).testBit q = true := by
  rw [← hun, allPieces]
  simp only [Nat.testBit_lor]
  cases pt
  case pawn => rw [show s.pieceBb PieceType.pawn = s.bbPawn from rfl] at hp; simp [hp]
  case knight => rw [show s.pieceBb PieceType.knight = s.bbKnight from rfl] at hp; simp [hp]
  case bishop => rw [show s.pieceBb PieceType.bishop = s.bbBishop from rfl] at hp; simp [hp]
  case rook => rw [show s.pieceBb PieceType.rook = s.bbRook from rfl] at hp; simp [hp]
  case queen => rw [show s.pieceBb PieceType.queen = s.bbQueen from rfl] at hp; simp [hp]
  case king => rw [show s.pieceBb PieceType.king = s.bbKing from rfl] at hp; simp [hp]
  case none =>
    rw [show s.pieceBb PieceType.none = 0 from rfl] at hp
    rw [Nat.zero_testBit] at hp
    exact absurd hp Bool.false_ne_true

theorem WF_emptyAt (s : BoardState) (hun : allPieces s = s.bbWhite ||| s.bbBlack)
    (q : Nat) (hocc : (s.bbWhite ||| s.bbBlack).testBit q = false) :
    emptyAt s q := by
  have hw : s.bbWhite.testBit q = false := by
    have h := hocc
    rw [Nat.testBit_lor] at h
    exact (Bool.or_eq_false_iff.mp h).1
  have hb : s.bbBlack.testBit q = false := by
    have h := hocc
    rw [Nat.testBit_lor] at h
    exact (Bool.or_eq_false_iff.mp h).2
  refine ⟨hw, hb, fun pt => ?_⟩
  cases hpt : (s.pieceBb pt).testBit q
  · rfl
  · rw [pieceBit_occ s hun pt q hpt] at hocc
    exact absurd hocc (by decide)

theorem pieceTypeAt_cases (s : BoardState) (q : Nat) :
    (asBoard s).pieceTypeAt q = PieceType.none ∨
    (s.pieceBb ((asBoard s).pieceTypeAt q)).testBit q = true := by
  unfold Board.pieceTypeAt
  by_cases h1 : ¬ (asBoard s).isOccupied q = true
  · rw [if_pos h1]
    exact Or.inl rfl
  rw [if_neg h1]
  by_cases h2 : bitboard q &&& (asBoard s).getBbPiece PieceType.pawn ≠ 0
  · rw [if_pos h2]
    exact Or.inr ((bitboard_and_ne_zero q _).mp h2)
  rw [if_neg h2]
  by_cases h3 : bitboard q &&& (asBoard s).getBbPiece PieceType.knight ≠ 0
  · rw [if_pos h3]
    exact Or.inr ((bitboard_and_ne_zero q _).mp h3)
  rw [if_neg h3]
  by_cases h4 : bitboard q &&& (asBoard s).getBbPiece PieceType.bishop ≠ 0
  · rw [if_pos h4]
    exact Or.inr ((bitboard_and_ne_zero q _).mp h4)
  rw [if_neg h4]
  by_cases h5 : bitboard q &&& (asBoard s).getBbPiece PieceType.rook ≠ 0
  · rw [if_pos h5]
    exact Or.inr ((bitboard_and_ne_zero q _).mp h5)
  rw [if_neg h5]
  by_cases h6 : bitboard q &&& (asBoard s).getBbPiece PieceType.queen ≠ 0
  · rw [if_pos h6]
    exact Or.inr ((bitboard_and_ne_zero q _).mp h6)
  rw [if_neg h6]
  by_cases h7 : bitboard q &&& (asBoard s).getBbPiece PieceType.king ≠ 0
  · rw [if_pos h7]
    exact Or.inr ((bitboard_and_ne_zero q _).mp h7)
  rw [if_neg h7]
  exact Or.inl rfl

theorem pieceTypeAt_bit (s : BoardState) (q : Nat)
    (hne : (asBoard s).pieceTypeAt q ≠ PieceType.none) :
    (s.pieceBb ((asBoard s).pieceTypeAt q)).testBit q = true :=
  (pieceTypeAt_cases s q).resolve_left hne

theorem pieceTypeAt_ne_none (s : BoardState)
    (hun : allPieces s = s.bbWhite ||| s.bbBlack) (q : Nat)
    (hocc : (s.bbWhite ||| s.bbBlack).testBit q = true) :
    (asBoard s).pieceTypeAt q ≠ PieceType.none := by
  intro h
  -- if the scan returned NONE, every piece bit at the square is clear,
  -- contradicting occupancy
  have hoccb : (asBoard s).isOccupied q = true := by
    rw [Board.isOccupied]
    have hob : (asBoard s).occupancy = s.bbWhite ||| s.bbBlack := rfl
    rw [hob, Nat.land_comm]
    simp [(bitboard_and_ne_zero q _).mpr hocc]
  unfold Board.pieceTypeAt at h
  rw [if_neg (by simp [hoccb])] at h
  by_cases h2 : bitboard q &&& (asBoard s).getBbPiece PieceType.pawn ≠ 0
  · rw [if_pos h2] at h
    exact PieceType.noConfusion h
  rw [if_neg h2] at h
  by_cases h3 : bitboard q &&& (asBoard s).getBbPiece PieceType.knight ≠ 0
  · rw [if_pos h3] at h
    exact PieceType.noConfusion h
  rw [if_neg h3] at h
  by_cases h4 : bitboard q &&& (asBoard s).getBbPiece PieceType.bishop ≠ 0
  · rw [if_pos h4] at h
    exact PieceType.noConfusion h
  rw [if_neg h4] at h
  by_cases h5 : bitboard q &&& (asBoard s).getBbPiece PieceType.rook ≠ 0
  · rw [if_pos h5] at h
    exact PieceType.noConfusion h
  rw [if_neg h5] at h
  by_cases h6 : bitboard q &&& (asBoard s).getBbPiece PieceType.queen ≠ 0
  · rw [if_pos h6] at h
    exact PieceType.noConfusion h
  rw [if_neg h6] at h
  by_cases h7 : bitboard q &&& (asBoard s).getBbPiece PieceType.king ≠ 0
  · rw [if_pos h7] at h
    exact PieceType.noConfusion h
  have e2 : s.bbPawn.testBit q = false :=
    (bitboard_and_eq_zero q _).mp (not_not.mp h2)
  have e3 : s.bbKnight.testBit q = false :=
    (bitboard_and_eq_zero q _).mp (not_not.mp h3)
  have e4 : s.bbBishop.testBit q = false :=
    (bitboard_and_eq_zero q _).mp (not_not.mp h4)
  have e5 : s.bbRook.testBit q = false :=
    (bitboard_and_eq_zero q _).mp (not_not.mp h5)
  have e6 : s.bbQueen.testBit q = false :=
    (bitboard_and_eq_zero q _).mp (not_not.mp h6)
  have e7 : s.bbKing.testBit q = false :=
    (bitboard_and_eq_zero q _).mp (not_not.mp h7)
  have hocc2 : (allPieces s).testBit q = true := by rw [hun]; exact hocc
  rw [allPieces] at hocc2
  simp [Nat.testBit_lor, e2, e3, e4, e5, e6, e7] at hocc2

theorem pieceTypeAt_none_unocc (s : BoardState)
    (hun : allPieces s = s.bbWhite ||| s.bbBlack) (q : Nat)
    (h : (asBoard s).pieceTypeAt q = PieceType.none) :
    (s.bbWhite ||| s.bbBlack).testBit q = false := by
  cases hh : (s.bbWhite ||| s.bbBlack).testBit q
  · rfl
  · exact absurd h (pieceTypeAt_ne_none s hun q hh)

theorem testBit_bitboard_ne (q i : Nat) (hne : i ≠ q) : (bitboard q).testBit i = false := by
  rw [testBit_bitboard]
  exact decide_eq_false (fun hh => hne hh.symm)

theorem asBoard_getBbPiece (s : BoardState) (pt : PieceType) :
    (asBoard s).getBbPiece pt = s.pieceBb pt := rfl

theorem removePiece_colorBb_ne (zk : ZKeys) (c : Color) (pt : PieceType) (q : Nat)
    (s : BoardState) (c' : Color) (i : Nat) (hne : i ≠ q) :
    ((removePiece zk c pt q s).colorBb c').testBit i = (s.colorBb c').testBit i := by
  rw [removePiece_colorBb]
  split_ifs with h
  · subst h
    simp [Nat.testBit_xor, testBit_bitboard_ne q i hne]
  · rfl

theorem removePiece_pieceBb_ne (zk : ZKeys) (c : Color) (pt : PieceType) (q : Nat)
    (s : BoardState) (pt' : PieceType) (i : Nat) (hpt : pt ≠ PieceType.none)
    (hne : i ≠ q) :
    ((removePiece zk c pt q s).pieceBb pt').testBit i = (s.pieceBb pt').testBit i := by
  rw [removePiece_pieceBb zk c pt q s pt' hpt]
  split_ifs with h
  · simp [Nat.testBit_xor, testBit_bitboard_ne q i hne]
  · rfl

theorem placePiece_colorBb_ne (zk : ZKeys) (c : Color) (pt : PieceType) (q : Nat)
    (s : BoardState) (c' : Color) (i : Nat) (hne : i ≠ q) :
    ((placePiece zk c pt q s).colorBb c').testBit i = (s.colorBb c').testBit i := by
  rw [placePiece_colorBb]
  split_ifs with h
  · subst h
    simp [Nat.testBit_lor, testBit_bitboard_ne q i hne]
  · rfl

theorem placePiece_pieceBb_ne (zk : ZKeys) (c : Color) (pt : PieceType) (q : Nat)
    (s : BoardState) (pt' : PieceType) (i : Nat) (hpt : pt ≠ PieceType.none)
    (hne : i ≠ q) :
    ((placePiece zk c pt q s).pieceBb pt').testBit i = (s.pieceBb pt').testBit i := by
  rw [placePiece_pieceBb zk c pt q s pt' hpt]
  split_ifs with h
  · simp [Nat.testBit_lor, testBit_bitboard_ne q i hne]
  · rfl

theorem holdsExactly_removePiece_ne (zk : ZKeys) (c : Color) (pt : PieceType) (q : Nat)
    (s : BoardState) (i : Nat) (c2 : Color) (pt2 : PieceType)
    (hpt : pt ≠ PieceType.none) (hne : i ≠ q) (h : holdsExactly s i c2 pt2) :
    holdsExactly (removePiece zk c pt q s) i c2 pt2 := by
  obtain ⟨h1, h2, h3, h4⟩ := h
  exact ⟨by rw [removePiece_colorBb_ne zk c pt q s c2 i hne]; exact h1,
    by rw [removePiece_colorBb_ne zk c pt q s _ i hne]; exact h2,
    by rw [removePiece_pieceBb_ne zk c pt q s pt2 i hpt hne]; exact h3,
    fun pt' hp => by rw [removePiece_pieceBb_ne zk c pt q s pt' i hpt hne]; exact h4 pt' hp⟩

theorem emptyAt_removePiece_ne (zk : ZKeys) (c : Color) (pt : PieceType) (q : Nat)
    (s : BoardState) (i : Nat) (hpt : pt ≠ PieceType.none) (hne : i ≠ q)
    (h : emptyAt s i) : emptyAt (removePiece zk c pt q s) i := by
  obtain ⟨h1, h2, h3⟩ := h
  exact ⟨by rw [removePiece_colorBb_ne zk c pt q s _ i hne]; exact h1,
    by rw [removePiece_colorBb_ne zk c pt q s _ i hne]; exact h2,
    fun pt' => by rw [removePiece_pieceBb_ne zk c pt q s pt' i hpt hne]; exact h3 pt'⟩

theorem emptyAt_placePiece_ne (zk : ZKeys) (c : Color) (pt : PieceType) (q : Nat)
    (s : BoardState) (i : Nat) (hpt : pt ≠ PieceType.none) (hne : i ≠ q)
    (h : emptyAt s i) : emptyAt (placePiece zk c pt q s) i := by
  obtain ⟨h1, h2, h3⟩ := h
  exact ⟨by rw [placePiece_colorBb_ne zk c pt q s _ i hne]; exact h1,
    by rw [placePiece_colorBb_ne zk c pt q s _ i hne]; exact h2,
    fun pt' => by rw [placePiece_pieceBb_ne zk c pt q s pt' i hpt hne]; exact h3 pt'⟩

theorem removePiece_emptyAt_self (zk : ZKeys) (c : Color) (pt : PieceType) (q : Nat)
    (s : BoardState) (hpt : pt ≠ PieceType.none) (h : holdsExactly s q c pt) :
    emptyAt (removePiece zk c pt q s) q := by
  obtain ⟨h1, h2, h3, h4⟩ := h
  refine ⟨?_, ?_, fun pt' => ?_⟩
  · have := removePiece_colorBits zk c pt q s ⟨h1, h2, h3, h4⟩ Color.white
    exact this
  · exact removePiece_colorBits zk c pt q s ⟨h1, h2, h3, h4⟩ Color.black
  · rw [removePiece_pieceBb zk c pt q s pt' hpt]
    split_ifs with hp
    · subst hp
      simp [Nat.testBit_xor, testBit_bitboard, h3]
    · exact h4 pt' hp

theorem piecesKey_congr (zk : ZKeys) (s s' : BoardState)
    (hbb : ∀ pt, s'.pieceBb pt = s.pieceBb pt) (hcb : ∀ c, s'.colorBb c = s.colorBb c) :
    piecesKey zk s' = piecesKey zk s := by
  rw [piecesKey, piecesKey]
  exact xorRange_congr _ _ 64 (fun i _ => by simp only [sqKeys, keyTerm, hbb, hcb])

theorem recomputeZobrist_congr (zk : ZKeys) (s s' : BoardState)
    (hbb : ∀ pt, s'.pieceBb pt = s.pieceBb pt) (hcb : ∀ c, s'.colorBb c = s.colorBb c)
    (hctm : s'.colorToMove = s.colorToMove) (hcr : s'.castlingRights = s.castlingRights)
    (hep : s'.enPassantSquare = s.enPassantSquare) :
    recomputeZobrist zk s' = recomputeZobrist zk s := by
  rw [recomputeZobrist, recomputeZobrist, piecesKey_congr zk s s' hbb hcb, hctm, hcr, hep]

theorem colorTerm_opp (zk : ZKeys) (c : Color) :
    (if oppColor c = Color.black then zk.color else 0) =
      (if c = Color.black then zk.color else 0) ^^^ zk.color := by
  cases c
  · rw [show oppColor Color.white = Color.black from rfl, if_pos rfl,
      if_neg (by decide), Nat.zero_xor]
  · rw [show oppColor Color.black = Color.white from rfl, if_neg (by decide),
      if_pos rfl, Nat.xor_self]

theorem hashOK_crStep (zk : ZKeys) (stm : Color) (pt : PieceType) (src dst : Nat)
    (s : BoardState) (hinv : s.zobristHash = recomputeZobrist zk s) :
    (crStep stm pt src dst s).zobristHash =
      recomputeZobrist zk (crStep stm pt src dst s) := by
  have hre : recomputeZobrist zk (crStep stm pt src dst s) =
      piecesKey zk s ^^^ (if s.colorToMove = Color.black then zk.color else 0) ^^^
      updateCastlingRights stm pt src dst s.castlingRights ^^^
      (if s.enPassantSquare ≠ SQUARE_NONE then zk.files (squareFile s.enPassantSquare)
        else 0) := by
    rw [recomputeZobrist]
    rw [piecesKey_congr zk s _ (fun p => by cases p <;> rfl) (fun c => by cases c <;> rfl)]
    rfl
  rw [hre]
  have hz : (crStep stm pt src dst s).zobristHash =
      s.zobristHash ^^^ s.castlingRights ^^^
      updateCastlingRights stm pt src dst s.castlingRights := rfl
  rw [hz, hinv, recomputeZobrist]
  simp only [Nat.xor_assoc, xor_left_comm, Nat.xor_comm, xor_self_left]

theorem hashOK_of_neutral (zk : ZKeys) (s s' : BoardState)
    (hz : s'.zobristHash = s.zobristHash)
    (hbb : ∀ pt, s'.pieceBb pt = s.pieceBb pt) (hcb : ∀ c, s'.colorBb c = s.colorBb c)
    (hctm : s'.colorToMove = s.colorToMove) (hcr : s'.castlingRights = s.castlingRights)
    (hep : s'.enPassantSquare = s.enPassantSquare)
    (hinv : s.zobristHash = recomputeZobrist zk s) :
    s'.zobristHash = recomputeZobrist zk s' := by
  rw [hz, hinv, recomputeZobrist_congr zk s s' hbb hcb hctm hcr hep]

theorem hashOK_epClear (zk : ZKeys) (s : BoardState)
    (hinv : s.zobristHash = recomputeZobrist zk s) :
    (epClear zk s).zobristHash = recomputeZobrist zk (epClear zk s) := by
  rw [epClear]
  split_ifs with h
  · have hre : recomputeZobrist zk
        { s with
          zobristHash := s.zobristHash ^^^ zk.files (squareFile s.enPassantSquare)
          enPassantSquare := SQUARE_NONE } =
        piecesKey zk s ^^^ (if s.colorToMove = Color.black then zk.color else 0) ^^^
        s.castlingRights ^^^ 0 := by
      rw [recomputeZobrist]
      rw [piecesKey_congr zk s _ (fun p => by cases p <;> rfl) (fun c => by cases c <;> rfl)]
      rfl
    rw [hre]
    have hz : ({ s with
        zobristHash := s.zobristHash ^^^ zk.files (squareFile s.enPassantSquare)
        enPassantSquare := SQUARE_NONE } : BoardState).zobristHash =
        s.zobristHash ^^^ zk.files (squareFile s.enPassantSquare) := rfl
    rw [hz, hinv, recomputeZobrist, if_pos h]
    simp only [Nat.xor_assoc, xor_left_comm, Nat.xor_comm, xor_self_left, Nat.xor_self,
      Nat.xor_zero, Nat.zero_xor]
  · exact hinv

theorem hashOK_epSet (zk : ZKeys) (ep : Nat) (s : BoardState)
    (hs : s.enPassantSquare = SQUARE_NONE) (hep : ep ≠ SQUARE_NONE)
    (hinv : s.zobristHash = recomputeZobrist zk s) :
    (epSet zk ep s).zobristHash = recomputeZobrist zk (epSet zk ep s) := by
  have hre : recomputeZobrist zk (epSet zk ep s) =
      piecesKey zk s ^^^ (if s.colorToMove = Color.black then zk.color else 0) ^^^
      s.castlingRights ^^^ zk.files (squareFile ep) := by
    rw [recomputeZobrist]
    rw [piecesKey_congr zk s _ (fun p => by cases p <;> rfl) (fun c => by cases c <;> rfl)]
    rw [show (epSet zk ep s).enPassantSquare = ep from rfl]
    rw [if_pos hep]
    rfl
  rw [hre]
  have hz : (epSet zk ep s).zobristHash =
      s.zobristHash ^^^ zk.files (squareFile ep) := rfl
  rw [hz, hinv, recomputeZobrist, hs,
    if_neg (show ¬ (SQUARE_NONE ≠ SQUARE_NONE) from fun hh => hh rfl)]
  simp only [Nat.xor_assoc, xor_left_comm, Nat.xor_comm, xor_self_left, Nat.xor_self,
    Nat.xor_zero, Nat.zero_xor]

theorem hashOK_flipColor (zk : ZKeys) (s : BoardState)
    (hinv : s.zobristHash = recomputeZobrist zk s) :
    (flipColor zk (oppColor s.colorToMove) s).zobristHash =
      recomputeZobrist zk (flipColor zk (oppColor s.colorToMove) s) := by
  have hre : recomputeZobrist zk (flipColor zk (oppColor s.colorToMove) s) =
      piecesKey zk s ^^^ (if oppColor s.colorToMove = Color.black then zk.color else 0) ^^^
      s.castlingRights ^^^
      (if s.enPassantSquare ≠ SQUARE_NONE then zk.files (squareFile s.enPassantSquare)
        else 0) := by
    rw [recomputeZobrist]
    rw [piecesKey_congr zk s _ (fun p => by cases p <;> rfl) (fun c => by cases c <;> rfl)]
    rfl
  rw [hre, colorTerm_opp]
  have hz : (flipColor zk (oppColor s.colorToMove) s).zobristHash =
      s.zobristHash ^^^ zk.color := rfl
  rw [hz, hinv, recomputeZobrist]
  simp only [Nat.xor_assoc, xor_left_comm, Nat.xor_comm, xor_self_left, Nat.xor_self,
    Nat.xor_zero, Nat.zero_xor]

theorem hashOK_counterStep (zk : ZKeys) (reset : Bool) (s : BoardState)
    (hinv : s.zobristHash = recomputeZobrist zk s) :
    (counterStep reset s).zobristHash = recomputeZobrist zk (counterStep reset s) := by
  rw [counterStep]
  split_ifs <;>
    exact hashOK_of_neutral zk s _ rfl (fun p => by cases p <;> rfl)
      (fun c => by cases c <;> rfl) rfl rfl rfl hinv

theorem hashOK_checkersStep (zk : ZKeys) (s : BoardState)
    (hinv : s.zobristHash = recomputeZobrist zk s) :
    (checkersStep s).zobristHash = recomputeZobrist zk (checkersStep s) := by
  rw [checkersStep]
  exact hashOK_of_neutral zk s _ rfl (fun p => by cases p <;> rfl)
    (fun c => by cases c <;> rfl) rfl rfl rfl hinv

/-- `holdsExactly` only depends on the bitboards. -/
theorem holdsExactly_congr (s s' : BoardState) (q : Nat) (c : Color) (pt : PieceType)
    (hbb : ∀ p, s'.pieceBb p = s.pieceBb p) (hcb : ∀ c2, s'.colorBb c2 = s.colorBb c2)
    (h : holdsExactly s q c pt) : holdsExactly s' q c pt := by
  obtain ⟨h1, h2, h3, h4⟩ := h
  exact ⟨by rw [hcb]; exact h1, by rw [hcb]; exact h2, by rw [hbb]; exact h3,
    fun p hp => by rw [hbb]; exact h4 p hp⟩

/-- `emptyAt` only depends on the bitboards. -/
theorem emptyAt_congr (s s' : BoardState) (q : Nat)
    (hbb : ∀ p, s'.pieceBb p = s.pieceBb p) (hcb : ∀ c2, s'.colorBb c2 = s.colorBb c2)
    (h : emptyAt s q) : emptyAt s' q := by
  obtain ⟨h1, h2, h3⟩ := h
  exact ⟨by rw [hcb]; exact h1, by rw [hcb]; exact h2, fun p => by rw [hbb]; exact h3 p⟩

/-- Placing a piece elsewhere preserves `holdsExactly` at a square. -/
theorem holdsExactly_placePiece_ne (zk : ZKeys) (c : Color) (pt : PieceType) (q : Nat)
    (s : BoardState) (i : Nat) (c2 : Color) (pt2 : PieceType)
    (hpt : pt ≠ PieceType.none) (hne : i ≠ q) (h : holdsExactly s i c2 pt2) :
    holdsExactly (placePiece zk c pt q s) i c2 pt2 := by
  obtain ⟨h1, h2, h3, h4⟩ := h
  exact ⟨by rw [placePiece_colorBb_ne zk c pt q s c2 i hne]; exact h1,
    by rw [placePiece_colorBb_ne zk c pt q s _ i hne]; exact h2,
    by rw [placePiece_pieceBb_ne zk c pt q s pt2 i hpt hne]; exact h3,
    fun p hp => by rw [placePiece_pieceBb_ne zk c pt q s p i hpt hne]; exact h4 p hp⟩

/-- An empty square reads as unoccupied. -/
theorem isOccupied_false_of_emptyAt (s : BoardState) (q : Nat) (h : emptyAt s q) :
    (asBoard s).isOccupied q = false := by
  obtain ⟨hw, hb, -⟩ := h
  have hocc : ((asBoard s).occupancy).testBit q = false := by
    show (s.colorBb Color.white ||| s.colorBb Color.black).testBit q = false
    rw [Nat.testBit_lor, hw, hb]
    rfl
  rw [Board.isOccupied]
  apply decide_eq_false
  intro hne
  exact hne (by rw [Nat.land_comm]; exact (bitboard_and_eq_zero q _).mpr hocc)

/-- A square held by a piece reads as occupied. -/
theorem isOccupied_true_of_holds (s : BoardState) (q : Nat) (c : Color) (pt : PieceType)
    (h : holdsExactly s q c pt) : (asBoard s).isOccupied q = true := by
  obtain ⟨h1, -, -, -⟩ := h
  have hocc : ((asBoard s).occupancy).testBit q = true := by
    show (s.colorBb Color.white ||| s.colorBb Color.black).testBit q = true
    rw [Nat.testBit_lor]
    cases c <;> simp [h1]
  rw [Board.isOccupied]
  apply decide_eq_true
  rw [Nat.land_comm]
  exact (bitboard_and_ne_zero q _).mpr hocc

/-- `pieceTypeAt` of an empty square is NONE. -/
theorem pieceTypeAt_of_emptyAt (s : BoardState) (q : Nat) (h : emptyAt s q) :
    (asBoard s).pieceTypeAt q = PieceType.none := by
  rw [Board.pieceTypeAt, if_pos (by simp [isOccupied_false_of_emptyAt s q h])]

/-- `pieceTypeAt` of a square held exactly by one piece returns its
type. -/
theorem pieceTypeAt_of_holdsExactly (s : BoardState) (q : Nat) (c : Color)
    (pt : PieceType) (hpt : pt ≠ PieceType.none) (h : holdsExactly s q c pt) :
    (asBoard s).pieceTypeAt q = pt := by
  have hocc := isOccupied_true_of_holds s q c pt h
  obtain ⟨h1, h2, h3, h4⟩ := h
  rw [Board.pieceTypeAt, if_neg (by simp [hocc])]
  simp only [asBoard_getBbPiece, bitboard_and_ne_zero]
  cases pt
  case pawn => simp [h3]
  case knight => simp [h3, h4 PieceType.pawn (by decide)]
  case bishop => simp [h3, h4 PieceType.pawn (by decide), h4 PieceType.knight (by decide)]
  case rook => simp [h3, h4 PieceType.pawn (by decide), h4 PieceType.knight (by decide),
    h4 PieceType.bishop (by decide)]
  case queen => simp [h3, h4 PieceType.pawn (by decide), h4 PieceType.knight (by decide),
    h4 PieceType.bishop (by decide), h4 PieceType.rook (by decide)]
  case king => simp [h3, h4 PieceType.pawn (by decide), h4 PieceType.knight (by decide),
    h4 PieceType.bishop (by decide), h4 PieceType.rook (by decide),
    h4 PieceType.queen (by decide)]
  case none => exact absurd rfl hpt

theorem removePiece_colorToMove (zk : ZKeys) (c : Color) (pt : PieceType) (q : Nat)
    (s : BoardState) : (removePiece zk c pt q s).colorToMove = s.colorToMove :=
  (removePiece_rest zk c pt q s).1

theorem placePiece_colorToMove (zk : ZKeys) (c : Color) (pt : PieceType) (q : Nat)
    (s : BoardState) : (placePiece zk c pt q s).colorToMove = s.colorToMove :=
  (placePiece_rest zk c pt q s).1

/-- The piece-movement phase of `makeMove` does not touch the side to
move. -/
theorem movePieces_colorToMove (zk : ZKeys) (stm : Color) (m : Move) (s : BoardState) :
    (movePieces zk stm m s).colorToMove = s.colorToMove := by
  simp only [movePieces]
  split_ifs <;>
    simp only [removePiece_colorToMove, placePiece_colorToMove]

theorem crStep_colorToMove (stm : Color) (pt : PieceType) (src dst : Nat)
    (s : BoardState) : (crStep stm pt src dst s).colorToMove = s.colorToMove := rfl

theorem epClear_colorToMove (zk : ZKeys) (s : BoardState) :
    (epClear zk s).colorToMove = s.colorToMove := by
  rw [epClear]; split_ifs <;> rfl

/-- After `epClear` the en-passant square is always unset. -/
theorem epClear_enPassant (zk : ZKeys) (s : BoardState) :
    (epClear zk s).enPassantSquare = SQUARE_NONE := by
  rw [epClear]
  split_ifs with h
  · rfl
  · exact not_not.mp h

theorem epSet_colorToMove (zk : ZKeys) (ep : Nat) (s : BoardState) :
    (epSet zk ep s).colorToMove = s.colorToMove := rfl

/-- The square of the pawn removed by an en-passant capture. -/
def epCapturedSquare (stm : Color) (dst : Nat) : Nat :=
  if stm = Color.white then dst - 8 else dst + 8

/-- The local position-consistency facts about a non-null move that the
hash updates of `makeMove` rely on: the mover stands alone on the source
square, and the squares each branch writes hold exactly what that branch
expects (empty targets, the castling rook on its corner, the en-passant
pawn in place, the captured piece alone on the target).  Every move
generated by `pseudolegalMoves` on a well-formed position satisfies
this. -/
def movePreBase (s : BoardState) (m : Move) : Prop :=
  m.src < 64 ∧ m.dst < 64 ∧ m.dst ≠ m.src ∧ m.pieceType ≠ PieceType.none ∧
  holdsExactly s m.src s.colorToMove m.pieceType

/-- The castling-branch facts of `movePre`: the king's destination and
the rook's destination are empty distinct squares, and the rook stands
on its corner. -/
def movePreCastling (s : BoardState) (m : Move) : Prop :=
  (CASTLING_ROOK_FROM_TO m.dst).1 < 64 ∧ (CASTLING_ROOK_FROM_TO m.dst).2 < 64 ∧
  (CASTLING_ROOK_FROM_TO m.dst).1 ≠ m.src ∧ (CASTLING_ROOK_FROM_TO m.dst).1 ≠ m.dst ∧
  (CASTLING_ROOK_FROM_TO m.dst).2 ≠ m.src ∧ (CASTLING_ROOK_FROM_TO m.dst).2 ≠ m.dst ∧
  (CASTLING_ROOK_FROM_TO m.dst).2 ≠ (CASTLING_ROOK_FROM_TO m.dst).1 ∧
  emptyAt s m.dst ∧
  holdsExactly s (CASTLING_ROOK_FROM_TO m.dst).1 s.colorToMove PieceType.rook ∧
  emptyAt s (CASTLING_ROOK_FROM_TO m.dst).2

/-- The en-passant-branch facts of `movePre`: the captured pawn stands
alone behind the destination, which is empty. -/
def movePreEp (s : BoardState) (m : Move) : Prop :=
  epCapturedSquare s.colorToMove m.dst < 64 ∧
  epCapturedSquare s.colorToMove m.dst ≠ m.src ∧
  epCapturedSquare s.colorToMove m.dst ≠ m.dst ∧
  holdsExactly s (epCapturedSquare s.colorToMove m.dst)
    (oppColor s.colorToMove) PieceType.pawn ∧
  emptyAt s m.dst

/-- The normal-branch facts of `movePre`: the destination is empty or
holds exactly one enemy piece. -/
def movePreNormal (s : BoardState) (m : Move) : Prop :=
  emptyAt s m.dst ∨
  ∃ cpt, cpt ≠ PieceType.none ∧ holdsExactly s m.dst (oppColor s.colorToMove) cpt

def movePre (s : BoardState) (m : Move) : Prop :=
  movePreBase s m ∧
  (m.flag = MoveFlag.castling → movePreCastling s m) ∧
  (m.flag = MoveFlag.enPassant → movePreEp s m) ∧
  (m.flag ≠ MoveFlag.castling → m.flag ≠ MoveFlag.enPassant → movePreNormal s m)

instance (s : BoardState) (q : Nat) (c : Color) (pt : PieceType) :
    Decidable (holdsExactly s q c pt) := by
  unfold holdsExactly; infer_instance

instance (s : BoardState) (q : Nat) : Decidable (emptyAt s q) := by
  unfold emptyAt; infer_instance

instance (s : BoardState) (m : Move) : Decidable (movePreBase s m) := by
  unfold movePreBase; infer_instance

instance (s : BoardState) (m : Move) : Decidable (movePreCastling s m) := by
  unfold movePreCastling; infer_instance

instance (s : BoardState) (m : Move) : Decidable (movePreEp s m) := by
  unfold movePreEp; infer_instance

instance (s : BoardState) (m : Move) : Decidable (movePreNormal s m) := by
  unfold movePreNormal; infer_instance

instance (s : BoardState) (m : Move) : Decidable (movePre s m) := by
  unfold movePre; infer_instance

/-- `movePre` only depends on the bitboards and the side to move. -/
theorem movePre_congr (s s' : BoardState) (m : Move)
    (hbb : ∀ p, s'.pieceBb p = s.pieceBb p) (hcb : ∀ c2, s'.colorBb c2 = s.colorBb c2)
    (hctm : s'.colorToMove = s.colorToMove) (h : movePre s m) : movePre s' m := by
  unfold movePre movePreBase movePreCastling movePreEp movePreNormal at h ⊢
  obtain ⟨⟨h1, h2, h3, h4, h5⟩, h6, h7, h8⟩ := h
  refine ⟨⟨h1, h2, h3, h4, ?_⟩, ?_, ?_, ?_⟩
  · rw [hctm]
    exact holdsExactly_congr s s' _ _ _ hbb hcb h5
  · intro hc
    obtain ⟨a1, a2, a3, a4, a5, a6, a7, a8, a9, a10⟩ := h6 hc
    refine ⟨a1, a2, a3, a4, a5, a6, a7, emptyAt_congr s s' _ hbb hcb a8, ?_,
      emptyAt_congr s s' _ hbb hcb a10⟩
    rw [hctm]
    exact holdsExactly_congr s s' _ _ _ hbb hcb a9
  · intro hc
    obtain ⟨a1, a2, a3, a4, a5⟩ := h7 hc
    rw [hctm]
    exact ⟨a1, a2, a3, holdsExactly_congr s s' _ _ _ hbb hcb a4,
      emptyAt_congr s s' _ hbb hcb a5⟩
  · intro hc1 hc2
    rcases h8 hc1 hc2 with ha | ⟨cpt, hn, hh⟩
    · exact Or.inl (emptyAt_congr s s' _ hbb hcb ha)
    · refine Or.inr ⟨cpt, hn, ?_⟩
      rw [hctm]
      exact holdsExactly_congr s s' _ _ _ hbb hcb hh

/-- The piece-movement phase of `makeMove` preserves the recompute
invariant on any move satisfying `movePre`. -/
theorem hashOK_movePieces (zk : ZKeys) (s : BoardState) (m : Move)
    (hpre : movePre s m) (hinv : s.zobristHash = recomputeZobrist zk s) :
    (movePieces zk s.colorToMove m s).zobristHash =
      recomputeZobrist zk (movePieces zk s.colorToMove m s) := by
  obtain ⟨⟨hsrc, hdst, hds, hptn, hhold⟩, hcast, hepc, hnorm⟩ := hpre
  have hinv1 := hashOK_removePiece zk s.colorToMove m.pieceType m.src s hsrc hptn hhold hinv
  simp only [movePieces]
  by_cases hc : m.flag = MoveFlag.castling
  · rw [if_pos hc]
    obtain ⟨hrf64, hrt64, hrfs, hrfd, hrts, hrtd, hrtrf, hdEmpty, hrookHold, hrtEmpty⟩ :=
      hcast hc
    have he0 : emptyAt (removePiece zk s.colorToMove m.pieceType m.src s) m.dst :=
      emptyAt_removePiece_ne zk s.colorToMove m.pieceType m.src s m.dst hptn hds hdEmpty
    have hinvA := hashOK_placePiece zk s.colorToMove PieceType.king m.dst _ hdst
      (by decide) he0 hinv1
    have hrook1 : holdsExactly (removePiece zk s.colorToMove m.pieceType m.src s)
        (CASTLING_ROOK_FROM_TO m.dst).1 s.colorToMove PieceType.rook :=
      holdsExactly_removePiece_ne zk s.colorToMove m.pieceType m.src s _ _ _ hptn hrfs
        hrookHold
    have hrook2 : holdsExactly
        (placePiece zk s.colorToMove PieceType.king m.dst
          (removePiece zk s.colorToMove m.pieceType m.src s))
        (CASTLING_ROOK_FROM_TO m.dst).1 s.colorToMove PieceType.rook :=
      holdsExactly_placePiece_ne zk s.colorToMove PieceType.king m.dst _ _ _ _
        (by decide) hrfd hrook1
    have hinvB := hashOK_removePiece zk s.colorToMove PieceType.rook
      (CASTLING_ROOK_FROM_TO m.dst).1 _ hrf64 (by decide) hrook2 hinvA
    have hrt1 : emptyAt (removePiece zk s.colorToMove m.pieceType m.src s)
        (CASTLING_ROOK_FROM_TO m.dst).2 :=
      emptyAt_removePiece_ne zk s.colorToMove m.pieceType m.src s _ hptn hrts hrtEmpty
    have hrt2 : emptyAt
        (placePiece zk s.colorToMove PieceType.king m.dst
          (removePiece zk s.colorToMove m.pieceType m.src s))
        (CASTLING_ROOK_FROM_TO m.dst).2 :=
      emptyAt_placePiece_ne zk s.colorToMove PieceType.king m.dst _ _ (by decide) hrtd hrt1
    have hrt3 : emptyAt
        (removePiece zk s.colorToMove PieceType.rook (CASTLING_ROOK_FROM_TO m.dst).1
          (placePiece zk s.colorToMove PieceType.king m.dst
            (removePiece zk s.colorToMove m.pieceType m.src s)))
        (CASTLING_ROOK_FROM_TO m.dst).2 :=
      emptyAt_removePiece_ne zk s.colorToMove PieceType.rook _ _ _ (by decide) hrtrf hrt2
    have hinvC := hashOK_placePiece zk s.colorToMove PieceType.rook
      (CASTLING_ROOK_FROM_TO m.dst).2 _ hrt64 (by decide) hrt3 hinvB
    exact hashOK_of_neutral zk _ _ rfl (fun p => by cases p <;> rfl)
      (fun c => by cases c <;> rfl) rfl rfl rfl hinvC
  · rw [if_neg hc]
    by_cases he : m.flag = MoveFlag.enPassant
    · rw [if_pos he]
      obtain ⟨hcs64, hcss, hcsd, hpawnHold, hdEmpty⟩ := hepc he
      simp only [epCapturedSquare] at hcs64 hcss hcsd hpawnHold
      have hpawn1 : holdsExactly (removePiece zk s.colorToMove m.pieceType m.src s)
          (if s.colorToMove = Color.white then m.dst - 8 else m.dst + 8)
          (oppColor s.colorToMove) PieceType.pawn :=
        holdsExactly_removePiece_ne zk s.colorToMove m.pieceType m.src s _ _ _ hptn hcss
          hpawnHold
      have hinvA := hashOK_removePiece zk (oppColor s.colorToMove) PieceType.pawn
        (if s.colorToMove = Color.white then m.dst - 8 else m.dst + 8) _ hcs64
        (by decide) hpawn1 hinv1
      have hd1 : emptyAt (removePiece zk s.colorToMove m.pieceType m.src s) m.dst :=
        emptyAt_removePiece_ne zk s.colorToMove m.pieceType m.src s m.dst hptn hds hdEmpty
      have hd2 : emptyAt
          (removePiece zk (oppColor s.colorToMove) PieceType.pawn
            (if s.colorToMove = Color.white then m.dst - 8 else m.dst + 8)
            (removePiece zk s.colorToMove m.pieceType m.src s)) m.dst :=
        emptyAt_removePiece_ne zk (oppColor s.colorToMove) PieceType.pawn _ _ m.dst
          (by decide) hcsd.symm hd1
      have hinvB := hashOK_placePiece zk s.colorToMove PieceType.pawn m.dst _ hdst
        (by decide) hd2 hinvA
      exact hashOK_of_neutral zk _ _ rfl (fun p => by cases p <;> rfl)
        (fun c => by cases c <;> rfl) rfl rfl rfl hinvB
    · rw [if_neg he]
      have hpt2 : (if m.promotion ≠ PieceType.none then m.promotion else m.pieceType) ≠
          PieceType.none := by
        split_ifs with hp
        · exact hp
        · exact hptn
      rcases hnorm hc he with hdEmpty | ⟨cpt, hcptn, hcptHold⟩
      · have hd1 : emptyAt (removePiece zk s.colorToMove m.pieceType m.src s) m.dst :=
          emptyAt_removePiece_ne zk s.colorToMove m.pieceType m.src s m.dst hptn hds
            hdEmpty
        rw [pieceTypeAt_of_emptyAt _ m.dst hd1,
          if_neg (show ¬(PieceType.none ≠ PieceType.none) from fun hh => hh rfl)]
        have hinvB := hashOK_of_neutral zk
          (removePiece zk s.colorToMove m.pieceType m.src s)
          { removePiece zk s.colorToMove m.pieceType m.src s with
            captured := PieceType.none }
          rfl (fun p => by cases p <;> rfl) (fun c => by cases c <;> rfl) rfl rfl rfl
          hinv1
        have hd2 : emptyAt { removePiece zk s.colorToMove m.pieceType m.src s with
            captured := PieceType.none } m.dst :=
          emptyAt_congr _ _ m.dst (fun p => by cases p <;> rfl)
            (fun c => by cases c <;> rfl) hd1
        exact hashOK_placePiece zk s.colorToMove _ m.dst _ hdst hpt2 hd2 hinvB
      · have hold1 : holdsExactly (removePiece zk s.colorToMove m.pieceType m.src s)
            m.dst (oppColor s.colorToMove) cpt :=
          holdsExactly_removePiece_ne zk s.colorToMove m.pieceType m.src s m.dst _ _ hptn
            hds hcptHold
        rw [pieceTypeAt_of_holdsExactly _ m.dst (oppColor s.colorToMove) cpt hcptn hold1,
          if_pos hcptn]
        have hinvB := hashOK_of_neutral zk
          (removePiece zk s.colorToMove m.pieceType m.src s)
          { removePiece zk s.colorToMove m.pieceType m.src s with captured := cpt }
          rfl (fun p => by cases p <;> rfl) (fun c => by cases c <;> rfl) rfl rfl rfl
          hinv1
        have hold2 : holdsExactly { removePiece zk s.colorToMove m.pieceType m.src s with
            captured := cpt } m.dst (oppColor s.colorToMove) cpt :=
          holdsExactly_congr _ _ m.dst _ _ (fun p => by cases p <;> rfl)
            (fun c => by cases c <;> rfl) hold1
        have hinvC := hashOK_removePiece zk (oppColor s.colorToMove) cpt m.dst _ hdst
          hcptn hold2 hinvB
        have hd3 := removePiece_emptyAt_self zk (oppColor s.colorToMove) cpt m.dst _
          hcptn hold2
        exact hashOK_placePiece zk s.colorToMove _ m.dst _ hdst hpt2 hd3 hinvC

/-- `hashOK_flipColor` with the flipped-to color as an argument, as
`makeMove` computes it from the pre-move state. -/
theorem hashOK_flipColorArg (zk : ZKeys) (opp : Color) (s : BoardState)
    (hopp : opp = oppColor s.colorToMove)
    (hinv : s.zobristHash = recomputeZobrist zk s) :
    (flipColor zk opp s).zobristHash = recomputeZobrist zk (flipColor zk opp s) := by
  rw [hopp]
  exact hashOK_flipColor zk s hinv

/-- `makeMove`'s new state keeps the stored hash equal to the recomputed
hash, for the null move or any move satisfying `movePre`. -/
theorem hashOK_makeMoveState (zk : ZKeys) (s : BoardState) (m : Move)
    (hpre : m = MOVE_NONE ∨ movePre s m)
    (hinv : s.zobristHash = recomputeZobrist zk s) :
    (makeMoveState zk s m).zobristHash = recomputeZobrist zk (makeMoveState zk s m) := by
  have hinv0 : ({ s with lastMove := m } : BoardState).zobristHash =
      recomputeZobrist zk { s with lastMove := m } :=
    hashOK_of_neutral zk s _ rfl (fun p => by cases p <;> rfl)
      (fun c => by cases c <;> rfl) rfl rfl rfl hinv
  simp only [makeMoveState]
  by_cases hm : m = MOVE_NONE
  · rw [if_pos hm]
    split_ifs with hw
    · exact hashOK_of_neutral zk
        (epClear zk (flipColor zk (oppColor s.colorToMove) { s with lastMove := m })) _
        rfl (fun p => by cases p <;> rfl) (fun c => by cases c <;> rfl) rfl rfl rfl
        (hashOK_epClear zk _
          (hashOK_flipColorArg zk (oppColor s.colorToMove) { s with lastMove := m } rfl
            hinv0))
    · exact hashOK_of_neutral zk
        (epClear zk (flipColor zk (oppColor s.colorToMove) { s with lastMove := m })) _
        rfl (fun p => by cases p <;> rfl) (fun c => by cases c <;> rfl) rfl rfl rfl
        (hashOK_epClear zk _
          (hashOK_flipColorArg zk (oppColor s.colorToMove) { s with lastMove := m } rfl
            hinv0))
  · rw [if_neg hm]
    have hmPre := hpre.resolve_left hm
    have hmP := hmPre
    unfold movePre movePreBase at hmP
    obtain ⟨⟨hsrc, hdst, hds, hptn, hhold⟩, -, -, -⟩ := hmP
    have hpre0 : movePre { s with lastMove := m } m :=
      movePre_congr s _ m (fun p => by cases p <;> rfl) (fun c => by cases c <;> rfl)
        rfl hmPre
    have h1 : (movePieces zk s.colorToMove m { s with lastMove := m }).zobristHash =
        recomputeZobrist zk (movePieces zk s.colorToMove m { s with lastMove := m }) :=
      hashOK_movePieces zk { s with lastMove := m } m hpre0 hinv0
    have h2 := hashOK_crStep zk s.colorToMove m.pieceType m.src m.dst _ h1
    have h3 := hashOK_epClear zk _ h2
    by_cases htw : m.flag = MoveFlag.pawnTwoUp
    · rw [if_pos htw]
      have hepne : (if s.colorToMove = Color.white then m.dst - 8 else m.dst + 8) ≠
          SQUARE_NONE := by
        simp only [SQUARE_NONE]
        split_ifs <;> omega
      have h4 := hashOK_epSet zk
        (if s.colorToMove = Color.white then m.dst - 8 else m.dst + 8) _
        (epClear_enPassant zk _) hepne h3
      have hctm4 : (epSet zk
          (if s.colorToMove = Color.white then m.dst - 8 else m.dst + 8)
          (epClear zk (crStep s.colorToMove m.pieceType m.src m.dst
            (movePieces zk s.colorToMove m { s with lastMove := m })))).colorToMove =
          s.colorToMove := by
        rw [epSet_colorToMove, epClear_colorToMove, crStep_colorToMove,
          movePieces_colorToMove]
      exact hashOK_checkersStep zk _
        (hashOK_counterStep zk _ _
          (hashOK_flipColorArg zk (oppColor s.colorToMove) _
            (congrArg oppColor hctm4.symm) h4))
    · rw [if_neg htw]
      have hctm4 : (epClear zk (crStep s.colorToMove m.pieceType m.src m.dst
          (movePieces zk s.colorToMove m { s with lastMove := m }))).colorToMove =
          s.colorToMove := by
        rw [epClear_colorToMove, crStep_colorToMove, movePieces_colorToMove]
      exact hashOK_checkersStep zk _
        (hashOK_counterStep zk _ _
          (hashOK_flipColorArg zk (oppColor s.colorToMove) _
            (congrArg oppColor hctm4.symm) h3))

/-- Every state of the board's history stores a Zobrist hash equal to
the from-scratch recomputation. -/
def histInv (zk : ZKeys) (b : Board) : Prop :=
  ∀ s ∈ b.hist, s.zobristHash = recomputeZobrist zk s

instance (zk : ZKeys) (b : Board) : Decidable (histInv zk b) := by
  unfold histInv; infer_instance

/-- Each listed move, played in order, is the null move or satisfies the
position-consistency facts `movePre` where it is played. -/
def movesOK (zk : ZKeys) (b : Board) : List Move → Prop
  | [] => True
  | m :: rest => (m = MOVE_NONE ∨ movePre b.cur m) ∧ movesOK zk (b.makeMove zk m) rest

instance movesOKDecidable (zk : ZKeys) : (b : Board) → (ms : List Move) →
    Decidable (movesOK zk b ms)
  | _, [] => isTrue trivial
  | b, m :: rest =>
    have : Decidable (movesOK zk (b.makeMove zk m) rest) :=
      movesOKDecidable zk (b.makeMove zk m) rest
    by unfold movesOK; infer_instance

theorem histInv_cur (zk : ZKeys) (b : Board) (h : histInv zk b) :
    b.cur.zobristHash = recomputeZobrist zk b.cur :=
  h b.cur (by rw [Board.hist]; exact List.mem_cons_self ..)

theorem histInv_makeMove (zk : ZKeys) (b : Board) (m : Move)
    (hpre : m = MOVE_NONE ∨ movePre b.cur m) (h : histInv zk b) :
    histInv zk (b.makeMove zk m) := by
  intro t ht
  rw [show (b.makeMove zk m).hist = makeMoveState zk b.cur m :: b.cur :: b.prev from
    rfl] at ht
  rcases List.mem_cons.mp ht with rfl | hrest
  · exact hashOK_makeMoveState zk b.cur m hpre (histInv_cur zk b h)
  · exact h t (by rw [show b.hist = b.cur :: b.prev from rfl]; exact hrest)

theorem histInv_makeMoves (zk : ZKeys) (b : Board) (ms : List Move)
    (hms : movesOK zk b ms) (h : histInv zk b) : histInv zk (makeMoves zk b ms) := by
  induction ms generalizing b with
  | nil => exact h
  | cons m rest ih =>
    obtain ⟨h1, h2⟩ := hms
    exact ih (b.makeMove zk m) h2 (histInv_makeMove zk b m h1 h)

theorem histInv_undoMove (zk : ZKeys) (b : Board) (h : histInv zk b) :
    histInv zk b.undoMove := by
  obtain ⟨c, prev⟩ := b
  cases prev with
  | nil => exact h
  | cons p rest =>
    intro t ht
    exact h t (List.mem_cons_of_mem _ ht)

theorem histInv_undoMoves (zk : ZKeys) (b : Board) (k : Nat) (h : histInv zk b) :
    histInv zk (undoMoves b k) := by
  induction k generalizing b with
  | zero => exact h
  | succ k ih => exact ih b.undoMove (histInv_undoMove zk b h)

/-- Claim C4: after every `makeMove` and every `undoMove` — that is, on
the current state reached from a board `b` by any sequence of `makeMove`
calls followed by any number of `undoMove` calls — the stored
`zobristHash` equals the hash recomputed from scratch: XOR over all
(color, piece-type, square) occupancies of the piece keys, XOR the side
key when Black is to move, XOR the castling-rights contribution, XOR the
file key of the en-passant square when one is set (`recomputeZobrist`).
The starting board must store correct hashes (the FEN constructor
establishes this; the witness checks it for the standard starting
position), and each move must be the null move or satisfy the
position-consistency facts `movePre`, which hold for every move
pseudolegal in a well-formed position. -/
theorem zobrist_recompute_after_make_undo (zk : ZKeys) (b : Board) (ms : List Move)
    (k : Nat) (hb : histInv zk b) (hms : movesOK zk b ms) :
    (undoMoves (makeMoves zk b ms) k).cur.zobristHash =
      recomputeZobrist zk (undoMoves (makeMoves zk b ms) k).cur :=
  histInv_cur zk _ (histInv_undoMoves zk _ k (histInv_makeMoves zk b ms hms hb))

-- ## Every pseudolegal move of a well-formed position satisfies `movePre`

theorem mem_bits (bb i : Nat) : i ∈ bits bb ↔ i < 64 ∧ bb.testBit i = true := by
  simp [bits, List.mem_filter, List.mem_range]

theorem lsb_bitboard : ∀ q < 64, lsb (bitboard q) = q := by decide

theorem ONES_testBit : ∀ i, i < 64 → ONES.testBit i = true := by
  intro i hi
  rw [ONES, Nat.testBit_two_pow_sub_one]
  exact decide_eq_true hi

theorem compl64_testBit (x i : Nat) (hi : i < 64) :
    (compl64 x).testBit i = !x.testBit i := by
  rw [compl64, Nat.testBit_xor, Nat.testBit_land, ONES_testBit i hi]
  cases h : x.testBit i <;> rfl

theorem isOccupied_eq (b : Board) (sq : Nat) :
    b.isOccupied sq = (b.occupancy).testBit sq := by
  rw [Board.isOccupied]
  cases h : (b.occupancy).testBit sq
  · exact decide_eq_false (fun hc =>
      hc (by rw [Nat.land_comm]; exact (bitboard_and_eq_zero sq _).mpr h))
  · exact decide_eq_true (by rw [Nat.land_comm]; exact (bitboard_and_ne_zero sq _).mpr h)

theorem occupancy_eq (b : Board) : b.occupancy = b.cur.bbWhite ||| b.cur.bbBlack := rfl

theorem exists_piece_at (s : BoardState) (hun : allPieces s = s.bbWhite ||| s.bbBlack)
    (q : Nat) (hocc : (s.bbWhite ||| s.bbBlack).testBit q = true) :
    ∃ pt, pt ≠ PieceType.none ∧ (s.pieceBb pt).testBit q = true := by
  have hall : (allPieces s).testBit q = true := by rw [hun]; exact hocc
  rw [allPieces] at hall
  simp only [Nat.testBit_lor, Bool.or_eq_true] at hall
  rcases hall with ⟨⟨⟨⟨hp | hn⟩ | hb⟩ | hr⟩ | hq⟩ | hk
  · exact ⟨PieceType.pawn, by decide, hp⟩
  · exact ⟨PieceType.knight, by decide, hn⟩
  · exact ⟨PieceType.bishop, by decide, hb⟩
  · exact ⟨PieceType.rook, by decide, hr⟩
  · exact ⟨PieceType.queen, by decide, hq⟩
  · exact ⟨PieceType.king, by decide, hk⟩

theorem colorBb_them_of_unus (s : BoardState) (q : Nat)
    (hocc : (s.bbWhite ||| s.bbBlack).testBit q = true)
    (hnus : (s.colorBb s.colorToMove).testBit q = false) :
    (s.colorBb (oppColor s.colorToMove)).testBit q = true := by
  rw [Nat.testBit_lor] at hocc
  cases hc : s.colorToMove <;> rw [hc] at hnus <;>
    simp_all [BoardState.colorBb, oppColor]

/-- A destination square the side to move does not occupy satisfies the
normal-branch facts of `movePre`. -/
theorem movePreNormalAt (s : BoardState) (hWF : WFState s) (dst : Nat)
    (hnus : (s.colorBb s.colorToMove).testBit dst = false) :
    emptyAt s dst ∨
      ∃ cpt, cpt ≠ PieceType.none ∧
        holdsExactly s dst (oppColor s.colorToMove) cpt := by
  have hun : allPieces s = s.bbWhite ||| s.bbBlack := hWF.2.2.1
  cases hocc : (s.bbWhite ||| s.bbBlack).testBit dst
  · exact Or.inl (WF_emptyAt s hun dst hocc)
  · refine Or.inr ?_
    obtain ⟨cpt, hne, hbit⟩ := exists_piece_at s hun dst hocc
    exact ⟨cpt, hne, WF_holdsExactly s hWF _ cpt dst
      (colorBb_them_of_unus s dst hocc hnus) hbit⟩

/-- With no pawns on the back ranks, a pawn square lies in `[8, 56)`. -/
theorem pawn_bounds (s : BoardState) (hz : s.bbPawn &&& 0xFF000000000000FF = 0)
    (sq : Nat) (hsq : sq < 64) (h : s.bbPawn.testBit sq = true) : 8 ≤ sq ∧ sq < 56 := by
  have hmask : ∀ q, q < 64 → (q < 8 ∨ 56 ≤ q) →
      (0xFF000000000000FF : Nat).testBit q = true := by decide
  by_contra hcon
  have h2 : sq < 8 ∨ 56 ≤ sq := by omega
  have h3 := hmask sq hsq h2
  have h4 := and_eq_zero_testBit _ _ hz sq h
  rw [h4] at h3
  exact absurd h3 (by decide)

theorem mem_addPromotions (src dst : Nat) (u : Bool) (m : Move)
    (hm : m ∈ addPromotions src dst u) :
    m.src = src ∧ m.dst = dst ∧ m.pieceType = PieceType.pawn ∧
    m.flag ≠ MoveFlag.castling ∧ m.flag ≠ MoveFlag.enPassant := by
  rw [addPromotions] at hm
  rcases List.mem_cons.mp hm with rfl | hm2
  · exact ⟨rfl, rfl, rfl, fun h => MoveFlag.noConfusion h, fun h => MoveFlag.noConfusion h⟩
  · split_ifs at hm2 with hu
    · simp only [List.mem_cons, List.not_mem_nil, or_false] at hm2
      rcases hm2 with rfl | rfl | rfl <;>
        exact ⟨rfl, rfl, rfl, fun h => MoveFlag.noConfusion h,
          fun h => MoveFlag.noConfusion h⟩
    · exact absurd hm2 (List.not_mem_nil m)

theorem mem_pieceMovesFor (atk mask : Nat) (fl : MoveFlag) (sq : Nat) (m : Move)
    (hm : m ∈ pieceMovesFor atk mask fl sq) :
    m.src = sq ∧ m.flag = fl ∧ m.dst < 64 ∧ (atk &&& mask).testBit m.dst = true := by
  rw [pieceMovesFor] at hm
  rcases List.mem_map.mp hm with ⟨t, ht, rfl⟩
  rw [mem_bits] at ht
  exact ⟨rfl, rfl, ht.1, ht.2⟩

/-- What membership in one pawn's generated moves tells us: the move
starts at the pawn's square with a pawn flag, and lands either on an
enemy-occupied square (captures) or on an unoccupied push square. -/
theorem mem_pawnMovesFor (b : Board) (noisy u : Bool) (sq : Nat) (m : Move)
    (hm : m ∈ pawnMovesFor b noisy u sq) :
    m.src = sq ∧ m.pieceType = PieceType.pawn ∧
    m.flag ≠ MoveFlag.castling ∧ m.flag ≠ MoveFlag.enPassant ∧
    ((m.dst < 64 ∧ (b.them).testBit m.dst = true) ∨
     (b.isOccupied m.dst = false ∧
       (m.dst = (if b.sideToMove = Color.white then sq + 8 else sq - 8) ∨
        (m.dst = (if b.sideToMove = Color.white then sq + 16 else sq - 16) ∧
         ((squareRank sq = 1 ∧ b.sideToMove = Color.white) ∨
          (squareRank sq = 6 ∧ b.sideToMove = Color.black)))))) := by
  have hcap : ∀ m2 : Move, m2 ∈ (bits (pawnAttacks sq b.sideToMove &&& b.them)).flatMap
      (fun t =>
        if (squareRank sq = 1 ∧ b.sideToMove = Color.black) ∨
            (squareRank sq = 6 ∧ b.sideToMove = Color.white) then
          addPromotions sq t u
        else [Move.mk sq t MoveFlag.pawnF]) →
      m2.src = sq ∧ m2.pieceType = PieceType.pawn ∧
      m2.flag ≠ MoveFlag.castling ∧ m2.flag ≠ MoveFlag.enPassant ∧
      (m2.dst < 64 ∧ (b.them).testBit m2.dst = true) := by
    intro m2 hm2
    rcases List.mem_flatMap.mp hm2 with ⟨t, ht, hmt⟩
    rw [mem_bits] at ht
    have htb : (b.them).testBit t = true := by
      have h5 := ht.2
      rw [Nat.testBit_land, Bool.and_eq_true] at h5
      exact h5.2
    split_ifs at hmt with hwp
    · obtain ⟨a1, a2, a3, a4, a5⟩ := mem_addPromotions sq t u m2 hmt
      exact ⟨a1, a3, a4, a5, by rw [a2]; exact ⟨ht.1, htb⟩⟩
    · simp only [List.mem_cons, List.not_mem_nil, or_false] at hmt
      subst hmt
      exact ⟨rfl, rfl, fun h => MoveFlag.noConfusion h, fun h => MoveFlag.noConfusion h,
        ht.1, htb⟩
  simp only [pawnMovesFor] at hm
  by_cases h1 : b.isOccupied (if b.sideToMove = Color.white then sq + 8 else sq - 8) = true
  · rw [if_pos h1] at hm
    obtain ⟨a1, a2, a3, a4, a5⟩ := hcap m hm
    exact ⟨a1, a2, a3, a4, Or.inl a5⟩
  · have hocc1 : b.isOccupied (if b.sideToMove = Color.white then sq + 8 else sq - 8) =
        false := by
      cases hoc : b.isOccupied (if b.sideToMove = Color.white then sq + 8 else sq - 8)
      · rfl
      · exact absurd hoc h1
    rw [if_neg h1] at hm
    by_cases h2 : (squareRank sq = 1 ∧ b.sideToMove = Color.black) ∨
        (squareRank sq = 6 ∧ b.sideToMove = Color.white)
    · rw [if_pos h2] at hm
      rcases List.mem_append.mp hm with hmc | hmp
      · obtain ⟨a1, a2, a3, a4, a5⟩ := hcap m hmc
        exact ⟨a1, a2, a3, a4, Or.inl a5⟩
      · obtain ⟨b1, b2, b3, b4, b5⟩ := mem_addPromotions _ _ _ _ hmp
        refine ⟨b1, b3, b4, b5, Or.inr ⟨?_, Or.inl b2⟩⟩
        rw [b2]
        exact hocc1
    · rw [if_neg h2] at hm
      by_cases h3 : noisy = true
      · rw [if_pos h3] at hm
        obtain ⟨a1, a2, a3, a4, a5⟩ := hcap m hm
        exact ⟨a1, a2, a3, a4, Or.inl a5⟩
      · rw [if_neg h3] at hm
        rcases List.mem_append.mp hm with hm12 | hmd
        · rcases List.mem_append.mp hm12 with hmc | hmp
          · obtain ⟨a1, a2, a3, a4, a5⟩ := hcap m hmc
            exact ⟨a1, a2, a3, a4, Or.inl a5⟩
          · simp only [List.mem_cons, List.not_mem_nil, or_false] at hmp
            subst hmp
            exact ⟨rfl, rfl, fun h => MoveFlag.noConfusion h,
              fun h => MoveFlag.noConfusion h, Or.inr ⟨hocc1, Or.inl rfl⟩⟩
        · by_cases h4 : ((squareRank sq = 1 ∧ b.sideToMove = Color.white) ∨
              (squareRank sq = 6 ∧ b.sideToMove = Color.black)) ∧
              ¬ b.isOccupied (if b.sideToMove = Color.white then sq + 16 else sq - 16) =
                true
          · rw [if_pos h4] at hmd
            simp only [List.mem_cons, List.not_mem_nil, or_false] at hmd
            subst hmd
            have hocc2 : b.isOccupied
                (if b.sideToMove = Color.white then sq + 16 else sq - 16) = false := by
              cases hoc : b.isOccupied
                  (if b.sideToMove = Color.white then sq + 16 else sq - 16)
              · rfl
              · exact absurd hoc h4.2
            exact ⟨rfl, rfl, fun h => MoveFlag.noConfusion h,
              fun h => MoveFlag.noConfusion h, Or.inr ⟨hocc2, Or.inr ⟨rfl, h4.1⟩⟩⟩
          · rw [if_neg h4] at hmd
            exact absurd hmd (List.not_mem_nil m)

theorem oppColor_oppColor (c : Color) : oppColor (oppColor c) = c := by
  cases c <;> rfl

theorem occ_of_color (s : BoardState) (c : Color) (q : Nat)
    (h : (s.colorBb c).testBit q = true) :
    (s.bbWhite ||| s.bbBlack).testBit q = true := by
  cases c <;> simp_all [BoardState.colorBb, Nat.testBit_lor]

theorem us_false_of_them (s : BoardState) (hdis : s.bbWhite &&& s.bbBlack = 0) (q : Nat)
    (h : (s.colorBb (oppColor s.colorToMove)).testBit q = true) :
    (s.colorBb s.colorToMove).testBit q = false := by
  cases hc : s.colorToMove <;> rw [hc] at h <;>
    simp only [BoardState.colorBb, oppColor] at h ⊢
  · exact and_eq_zero_testBit _ _ (by rw [Nat.land_comm]; exact hdis) q h
  · exact and_eq_zero_testBit _ _ hdis q h

/-- A destination inside the generation mask (enemy pieces for noisy
moves, the complement of our pieces otherwise) is never our own
square. -/
theorem mask_unus (b : Board) (hdis : b.cur.bbWhite &&& b.cur.bbBlack = 0) (noisy : Bool)
    (dst : Nat) (hdst : dst < 64)
    (h : (if noisy = true then b.them else compl64 b.us).testBit dst = true) :
    (b.cur.colorBb b.cur.colorToMove).testBit dst = false := by
  split_ifs at h with hn
  · exact us_false_of_them b.cur hdis dst h
  · have h2 := h
    rw [show compl64 b.us = compl64 (b.cur.colorBb b.cur.colorToMove) from rfl,
      compl64_testBit _ dst hdst] at h2
    cases hu : (b.cur.colorBb b.cur.colorToMove).testBit dst
    · rfl
    · rw [hu] at h2
      exact absurd h2 (by decide)

theorem bitboard_testBit_inj (q i : Nat) (h : (bitboard q).testBit i = true) : q = i := by
  rw [testBit_bitboard] at h
  exact of_decide_eq_true h

/-- The king square of a well-formed position is in range and carries
our king. -/
theorem WF_kingFacts (b : Board) (hWF : WFState b.cur) :
    b.kingSquare < 64 ∧
    (b.cur.colorBb b.cur.colorToMove).testBit b.kingSquare = true ∧
    (b.cur.pieceBb PieceType.king).testBit b.kingSquare = true := by
  obtain ⟨q, hq, hbb⟩ := hWF.2.2.2.1 b.cur.colorToMove
  have hks : b.kingSquare = q := by
    rw [Board.kingSquare, Board.kingSquareOf,
      show b.getBb b.sideToMove PieceType.king =
        b.cur.pieceBb PieceType.king &&& b.cur.colorBb b.cur.colorToMove from rfl, hbb]
    exact lsb_bitboard q hq
  have hbit : (b.cur.pieceBb PieceType.king &&&
      b.cur.colorBb b.cur.colorToMove).testBit q = true := by
    rw [hbb, testBit_bitboard]
    exact decide_eq_true rfl
  rw [Nat.testBit_land, Bool.and_eq_true] at hbit
  rw [hks]
  exact ⟨hq, hbit.2, hbit.1⟩

/-- Builder for `movePre` on a normal (non-castling, non-en-passant)
move: our piece on the source, any non-ours destination. -/
theorem movePre_normal_mk (b : Board) (hWF : WFState b.cur) (m : Move)
    (hsrc64 : m.src < 64) (hdst64 : m.dst < 64)
    (hptn : m.pieceType ≠ PieceType.none)
    (hcf : m.flag ≠ MoveFlag.castling) (hef : m.flag ≠ MoveFlag.enPassant)
    (hsrcC : (b.cur.colorBb b.cur.colorToMove).testBit m.src = true)
    (hsrcP : (b.cur.pieceBb m.pieceType).testBit m.src = true)
    (hdstN : emptyAt b.cur m.dst ∨
      ∃ cpt, cpt ≠ PieceType.none ∧
        holdsExactly b.cur m.dst (oppColor b.cur.colorToMove) cpt) :
    movePre b.cur m := by
  have hhold : holdsExactly b.cur m.src b.cur.colorToMove m.pieceType :=
    WF_holdsExactly b.cur hWF _ _ _ hsrcC hsrcP
  have hds : m.dst ≠ m.src := by
    intro he
    rcases hdstN with hemp | ⟨cpt, hne2, hcap⟩
    · obtain ⟨hw, hb2, -⟩ := hemp
      rw [he] at hw hb2
      cases hc : b.cur.colorToMove <;> rw [hc] at hsrcC
      · rw [hw] at hsrcC
        exact absurd hsrcC (by decide)
      · rw [hb2] at hsrcC
        exact absurd hsrcC (by decide)
    · have h2 := hcap.2.1
      rw [oppColor_oppColor, he] at h2
      rw [h2] at hsrcC
      exact absurd hsrcC (by decide)
  unfold movePre movePreBase movePreNormal
  exact ⟨⟨hsrc64, hdst64, hds, hptn, hhold⟩, fun hcc => absurd hcc hcf,
    fun hee => absurd hee hef, fun _ _ => hdstN⟩

/-- One leaper/slider chunk of `pseudolegalMoves` yields only
`movePre`-satisfying moves. -/
theorem movePre_piece_chunk (b : Board) (hWF : WFState b.cur) (noisy : Bool)
    (atkF : Nat → Nat) (pt : PieceType) (fl : MoveFlag)
    (hptm : ∀ m2 : Move, m2.flag = fl → m2.pieceType = pt)
    (hptn : pt ≠ PieceType.none)
    (hflc : fl ≠ MoveFlag.castling) (hfle : fl ≠ MoveFlag.enPassant) (m : Move)
    (hm : m ∈ (bits (b.getBb b.sideToMove pt)).flatMap (fun sq =>
      pieceMovesFor (atkF sq) (if noisy = true then b.them else compl64 b.us) fl sq)) :
    movePre b.cur m := by
  obtain ⟨sq, hsq, hmv⟩ := List.mem_flatMap.mp hm
  rw [mem_bits] at hsq
  obtain ⟨hsq64, hbit⟩ := hsq
  rw [show b.getBb b.sideToMove pt =
    b.cur.pieceBb pt &&& b.cur.colorBb b.cur.colorToMove from rfl,
    Nat.testBit_land, Bool.and_eq_true] at hbit
  obtain ⟨hsrc, hflag, hdst64, hmask⟩ := mem_pieceMovesFor _ _ _ _ _ hmv
  rw [Nat.testBit_land, Bool.and_eq_true] at hmask
  have hunus : (b.cur.colorBb b.cur.colorToMove).testBit m.dst = false :=
    mask_unus b hWF.1 noisy m.dst hdst64 hmask.2
  refine movePre_normal_mk b hWF m (by rw [hsrc]; exact hsq64) hdst64
    (by rw [hptm m hflag]; exact hptn)
    (by rw [hflag]; exact hflc) (by rw [hflag]; exact hfle)
    (by rw [hsrc]; exact hbit.2) (by rw [hptm m hflag, hsrc]; exact hbit.1)
    (movePreNormalAt b.cur hWF m.dst hunus)

/-- Builder for `movePre` on a generated en-passant capture, from the
`epWF` component of well-formedness. -/
theorem movePre_ep_mk (b : Board) (hWF : WFState b.cur) (sqStart : Nat)
    (hsq64 : sqStart < 64)
    (hsrcC : (b.cur.colorBb b.cur.colorToMove).testBit sqStart = true)
    (hsrcP : (b.cur.pieceBb PieceType.pawn).testBit sqStart = true)
    (hepne : b.cur.enPassantSquare ≠ SQUARE_NONE) :
    movePre b.cur (Move.mk sqStart b.cur.enPassantSquare MoveFlag.enPassant) := by
  have hhold := WF_holdsExactly b.cur hWF _ PieceType.pawn sqStart hsrcC hsrcP
  have hun : allPieces b.cur = b.cur.bbWhite ||| b.cur.bbBlack := hWF.2.2.1
  rcases hWF.2.2.2.2.2.2 with he | ⟨hocc, hwcl, hbcl⟩
  · exact absurd he hepne
  have hsrcOcc : (b.cur.bbWhite ||| b.cur.bbBlack).testBit sqStart = true :=
    occ_of_color b.cur _ sqStart hsrcC
  have hdne : b.cur.enPassantSquare ≠ sqStart := by
    intro he
    rw [he] at hocc
    rw [hocc] at hsrcOcc
    exact absurd hsrcOcc (by decide)
  have hep64 : b.cur.enPassantSquare < 64 := by
    cases hc : b.cur.colorToMove
    · obtain ⟨-, hhi, -⟩ := hwcl hc
      omega
    · obtain ⟨-, hhi, -⟩ := hbcl hc
      omega
  have hepPart : movePreEp b.cur (Move.mk sqStart b.cur.enPassantSquare
      MoveFlag.enPassant) := by
    unfold movePreEp epCapturedSquare
    cases hc : b.cur.colorToMove
    case white =>
      have hsrcC2 := hsrcC
      rw [hc] at hsrcC2
      obtain ⟨hlo, hhi, hpb⟩ := hwcl hc
      rw [Nat.testBit_land, Bool.and_eq_true] at hpb
      have hcapOcc : (b.cur.bbWhite ||| b.cur.bbBlack).testBit
          (b.cur.enPassantSquare - 8) = true := occ_of_color b.cur Color.black _ hpb.2
      rw [if_pos rfl]
      show b.cur.enPassantSquare - 8 < 64 ∧ b.cur.enPassantSquare - 8 ≠ sqStart ∧
        b.cur.enPassantSquare - 8 ≠ b.cur.enPassantSquare ∧
        holdsExactly b.cur (b.cur.enPassantSquare - 8) (oppColor Color.white)
          PieceType.pawn ∧
        emptyAt b.cur b.cur.enPassantSquare
      refine ⟨by omega, ?_, by omega, ?_, WF_emptyAt b.cur hun _ hocc⟩
      · intro he
        have hb2 := hpb.2
        rw [he] at hb2
        have hw2 : (b.cur.colorBb Color.black).testBit sqStart = false :=
          and_eq_zero_testBit _ _ hWF.1 sqStart hsrcC2
        rw [hw2] at hb2
        exact absurd hb2 (by decide)
      · exact WF_holdsExactly b.cur hWF _ PieceType.pawn _ hpb.2 hpb.1
    case black =>
      have hsrcC2 := hsrcC
      rw [hc] at hsrcC2
      obtain ⟨hlo, hhi, hpb⟩ := hbcl hc
      rw [Nat.testBit_land, Bool.and_eq_true] at hpb
      rw [if_neg (fun hh => Color.noConfusion hh)]
      show b.cur.enPassantSquare + 8 < 64 ∧ b.cur.enPassantSquare + 8 ≠ sqStart ∧
        b.cur.enPassantSquare + 8 ≠ b.cur.enPassantSquare ∧
        holdsExactly b.cur (b.cur.enPassantSquare + 8) (oppColor Color.black)
          PieceType.pawn ∧
        emptyAt b.cur b.cur.enPassantSquare
      refine ⟨by omega, ?_, by omega, ?_, WF_emptyAt b.cur hun _ hocc⟩
      · intro he
        have hb2 := hpb.2
        rw [he] at hb2
        have hw2 : (b.cur.colorBb Color.white).testBit sqStart = false :=
          and_eq_zero_testBit _ _ (by rw [Nat.land_comm]; exact hWF.1) sqStart hsrcC2
        rw [hw2] at hb2
        exact absurd hb2 (by decide)
      · exact WF_holdsExactly b.cur hWF _ PieceType.pawn _ hpb.2 hpb.1
  unfold movePre movePreBase
  exact ⟨⟨hsq64, hep64, hdne, fun h => PieceType.noConfusion h, hhold⟩,
    fun h => MoveFlag.noConfusion h, fun _ => hepPart, fun _ h2 => absurd rfl h2⟩

/-- Builder for `movePre` on a castling move with its concrete king,
destination and rook squares. -/
theorem movePre_castle_build (s : BoardState) (hWF : WFState s) (ks d rf rt : Nat)
    (hks64 : ks < 64) (hd64 : d < 64) (hrf64 : rf < 64) (hrt64 : rt < 64)
    (hfr : CASTLING_ROOK_FROM_TO d = (rf, rt))
    (hdne : d ≠ ks) (hrfks : rf ≠ ks) (hrfd : rf ≠ d) (hrtks : rt ≠ ks) (hrtd : rt ≠ d)
    (hrtrf : rt ≠ rf)
    (hkC : (s.colorBb s.colorToMove).testBit ks = true)
    (hkP : (s.pieceBb PieceType.king).testBit ks = true)
    (hrC : (s.colorBb s.colorToMove).testBit rf = true)
    (hrP : (s.pieceBb PieceType.rook).testBit rf = true)
    (hdE : (s.bbWhite ||| s.bbBlack).testBit d = false)
    (hrtE : (s.bbWhite ||| s.bbBlack).testBit rt = false) :
    movePre s (Move.mk ks d MoveFlag.castling) := by
  have hun : allPieces s = s.bbWhite ||| s.bbBlack := hWF.2.2.1
  unfold movePre movePreBase movePreCastling
  refine ⟨⟨hks64, hd64, hdne, fun h => PieceType.noConfusion h,
    WF_holdsExactly s hWF _ _ _ hkC hkP⟩,
    fun _ => ?_, fun h => MoveFlag.noConfusion h, fun h1 _ => absurd rfl h1⟩
  show (CASTLING_ROOK_FROM_TO d).1 < 64 ∧ (CASTLING_ROOK_FROM_TO d).2 < 64 ∧
    (CASTLING_ROOK_FROM_TO d).1 ≠ ks ∧ (CASTLING_ROOK_FROM_TO d).1 ≠ d ∧
    (CASTLING_ROOK_FROM_TO d).2 ≠ ks ∧ (CASTLING_ROOK_FROM_TO d).2 ≠ d ∧
    (CASTLING_ROOK_FROM_TO d).2 ≠ (CASTLING_ROOK_FROM_TO d).1 ∧
    emptyAt s d ∧
    holdsExactly s (CASTLING_ROOK_FROM_TO d).1 s.colorToMove PieceType.rook ∧
    emptyAt s (CASTLING_ROOK_FROM_TO d).2
  rw [hfr]
  exact ⟨hrf64, hrt64, hrfks, hrfd, hrtks, hrtd, hrtrf, WF_emptyAt s hun d hdE,
    WF_holdsExactly s hWF _ _ _ hrC hrP, WF_emptyAt s hun rt hrtE⟩

/-- Every move generated by `pseudolegalMoves` on a well-formed position
satisfies the `movePre` facts that the Zobrist-hash invariant proof of
`makeMove` relies on. -/
theorem movePre_of_pseudolegal (b : Board) (noisyOnly underpromotions : Bool)
    (hWF : WFState b.cur) (m : Move)
    (hm : m ∈ b.pseudolegalMoves noisyOnly underpromotions) :
    movePre b.cur m := by
  simp only [Board.pseudolegalMoves] at hm
  rcases List.mem_append.mp hm with h7 | hCast
  · rcases List.mem_append.mp h7 with h6 | hKing
    · rcases List.mem_append.mp h6 with h5 | hQueen
      · rcases List.mem_append.mp h5 with h4 | hRook
        · rcases List.mem_append.mp h4 with h3 | hBishop
          · rcases List.mem_append.mp h3 with h2 | hKnight
            · rcases List.mem_append.mp h2 with hEp | hPawn
              · -- en passant
                by_cases hep : b.cur.enPassantSquare ≠ SQUARE_NONE
                · rw [if_pos hep] at hEp
                  rcases List.mem_map.mp hEp with ⟨sq, hsq, rfl⟩
                  rw [mem_bits] at hsq
                  obtain ⟨hsq64, hbit⟩ := hsq
                  rw [Nat.testBit_land, Bool.and_eq_true] at hbit
                  have hb2 := hbit.2
                  rw [show b.getBb b.sideToMove PieceType.pawn =
                    b.cur.pieceBb PieceType.pawn &&& b.cur.colorBb b.cur.colorToMove from
                    rfl, Nat.testBit_land, Bool.and_eq_true] at hb2
                  exact movePre_ep_mk b hWF sq hsq64 hb2.2 hb2.1 hep
                · rw [if_neg hep] at hEp
                  exact absurd hEp (List.not_mem_nil m)
              · -- pawn moves
                obtain ⟨sq, hsq, hmv⟩ := List.mem_flatMap.mp hPawn
                rw [mem_bits] at hsq
                obtain ⟨hsq64, hbit⟩ := hsq
                rw [show b.getBb b.sideToMove PieceType.pawn =
                  b.cur.pieceBb PieceType.pawn &&& b.cur.colorBb b.cur.colorToMove from
                  rfl, Nat.testBit_land, Bool.and_eq_true] at hbit
                obtain ⟨ha1, ha2, ha3, ha4, ha5⟩ :=
                  mem_pawnMovesFor b noisyOnly underpromotions sq m hmv
                have hpb := pawn_bounds b.cur hWF.2.2.2.2.1 sq hsq64 hbit.1
                rcases ha5 with ⟨hd64, hthem⟩ | ⟨hunocc, hdsteq⟩
                · exact movePre_normal_mk b hWF m (by rw [ha1]; exact hsq64) hd64
                    (by rw [ha2]; exact fun h => PieceType.noConfusion h) ha3 ha4
                    (by rw [ha1]; exact hbit.2) (by rw [ha2, ha1]; exact hbit.1)
                    (movePreNormalAt b.cur hWF m.dst
                      (us_false_of_them b.cur hWF.1 m.dst hthem))
                · have hd64 : m.dst < 64 := by
                    rcases hdsteq with he1 | ⟨he2, hrk⟩
                    · rw [he1]
                      split_ifs <;> omega
                    · rw [he2]
                      split_ifs with hw
                      · rcases hrk with ⟨hr1, -⟩ | ⟨-, hcb⟩
                        · rw [squareRank] at hr1
                          omega
                        · rw [hw] at hcb
                          exact absurd hcb (fun hh => Color.noConfusion hh)
                      · omega
                  have hoccF : (b.cur.bbWhite ||| b.cur.bbBlack).testBit m.dst = false := by
                    have h9 := hunocc
                    rw [isOccupied_eq] at h9
                    exact h9
                  exact movePre_normal_mk b hWF m (by rw [ha1]; exact hsq64) hd64
                    (by rw [ha2]; exact fun h => PieceType.noConfusion h) ha3 ha4
                    (by rw [ha1]; exact hbit.2) (by rw [ha2, ha1]; exact hbit.1)
                    (Or.inl (WF_emptyAt b.cur hWF.2.2.1 m.dst hoccF))
            · -- knights
              exact movePre_piece_chunk b hWF noisyOnly (fun sq => knightAttacks sq)
                PieceType.knight MoveFlag.knightF
                (fun m2 h => by simp only [Move.pieceType, h])
                (fun h => PieceType.noConfusion h) (fun h => MoveFlag.noConfusion h)
                (fun h => MoveFlag.noConfusion h) m hKnight
          · -- bishops
            exact movePre_piece_chunk b hWF noisyOnly
              (fun sq => bishopAttacks sq b.occupancy) PieceType.bishop MoveFlag.bishopF
              (fun m2 h => by simp only [Move.pieceType, h])
              (fun h => PieceType.noConfusion h) (fun h => MoveFlag.noConfusion h)
              (fun h => MoveFlag.noConfusion h) m hBishop
        · -- rooks
          exact movePre_piece_chunk b hWF noisyOnly
            (fun sq => rookAttacks sq b.occupancy) PieceType.rook MoveFlag.rookF
            (fun m2 h => by simp only [Move.pieceType, h])
            (fun h => PieceType.noConfusion h) (fun h => MoveFlag.noConfusion h)
            (fun h => MoveFlag.noConfusion h) m hRook
      · -- queens
        exact movePre_piece_chunk b hWF noisyOnly
          (fun sq => queenAttacks sq b.occupancy) PieceType.queen MoveFlag.queenF
          (fun m2 h => by simp only [Move.pieceType, h])
          (fun h => PieceType.noConfusion h) (fun h => MoveFlag.noConfusion h)
          (fun h => MoveFlag.noConfusion h) m hQueen
    · -- king moves
      obtain ⟨hsrc, hflag, hdst64, hmask⟩ := mem_pieceMovesFor _ _ _ _ _ hKing
      rw [Nat.testBit_land, Bool.and_eq_true] at hmask
      obtain ⟨hk64, hkC, hkP⟩ := WF_kingFacts b hWF
      exact movePre_normal_mk b hWF m (by rw [hsrc]; exact hk64) hdst64
        (by simp only [Move.pieceType, hflag]; exact fun h => PieceType.noConfusion h)
        (by rw [hflag]; exact fun h => MoveFlag.noConfusion h)
        (by rw [hflag]; exact fun h => MoveFlag.noConfusion h)
        (by rw [hsrc]; exact hkC)
        (by simp only [Move.pieceType, hflag]; rw [hsrc]; exact hkP)
        (movePreNormalAt b.cur hWF m.dst
          (mask_unus b hWF.1 noisyOnly m.dst hdst64 hmask.2))
  · -- castling
    by_cases hnc : ¬ noisyOnly = true ∧ ¬ b.inCheck = true
    · rw [if_pos hnc] at hCast
      have hcr := hWF.2.2.2.2.2.1
      rcases List.mem_append.mp hCast with hShort | hLong
      · by_cases hcond : b.cur.castlingRights &&&
            CASTLING_MASKS b.sideToMove CASTLE_SHORT ≠ 0 ∧
            b.occupancy &&& BETWEEN b.kingSquare (b.kingSquare + 3) = 0
        · rw [if_pos hcond] at hShort
          simp only [List.mem_cons, List.not_mem_nil, or_false] at hShort
          subst hShort
          cases hstm : b.sideToMove
          · rw [hstm] at hcond
            have hc2 : b.cur.colorToMove = Color.white := hstm
            have hcr7 : b.cur.castlingRights.testBit 7 = true := by
              have h1 := hcond.1
              rw [show CASTLING_MASKS Color.white CASTLE_SHORT = bitboard 7 from rfl,
                Nat.land_comm] at h1
              exact (bitboard_and_ne_zero 7 _).mp h1
            obtain ⟨hrk7, hkg4⟩ := hcr.2.1 hcr7
            rw [Nat.testBit_land, Bool.and_eq_true] at hrk7 hkg4
            obtain ⟨q, hq64, hqe⟩ := hWF.2.2.2.1 b.cur.colorToMove
            have hq4 : q = 4 := by
              have h4 : (b.cur.pieceBb PieceType.king &&&
                  b.cur.colorBb b.cur.colorToMove).testBit 4 = true := by
                rw [hc2]
                rw [Nat.testBit_land, Bool.and_eq_true]
                exact hkg4
              rw [hqe] at h4
              exact bitboard_testBit_inj q 4 h4
            have hks : b.kingSquare = 4 := by
              rw [Board.kingSquare, Board.kingSquareOf,
                show b.getBb b.sideToMove PieceType.king = b.cur.pieceBb PieceType.king
                  &&& b.cur.colorBb b.cur.colorToMove from rfl, hqe, hq4]
              exact lsb_bitboard 4 (by omega)
            rw [hks] at hcond ⊢
            have hbet := hcond.2
            rw [Nat.land_comm] at hbet
            have hdE : (b.cur.bbWhite ||| b.cur.bbBlack).testBit 6 = false :=
              and_eq_zero_testBit _ _ hbet 6 (by decide)
            have hrtE : (b.cur.bbWhite ||| b.cur.bbBlack).testBit 5 = false :=
              and_eq_zero_testBit _ _ hbet 5 (by decide)
            exact movePre_castle_build b.cur hWF 4 6 7 5 (by omega) (by omega)
              (by omega) (by omega) (by decide) (by decide) (by decide) (by decide)
              (by decide) (by decide) (by decide)
              (by rw [hc2]; exact hkg4.2) hkg4.1
              (by rw [hc2]; exact hrk7.2) hrk7.1 hdE hrtE
          · rw [hstm] at hcond
            have hc2 : b.cur.colorToMove = Color.black := hstm
            have hcr63 : b.cur.castlingRights.testBit 63 = true := by
              have h1 := hcond.1
              rw [show CASTLING_MASKS Color.black CASTLE_SHORT = bitboard 63 from rfl,
                Nat.land_comm] at h1
              exact (bitboard_and_ne_zero 63 _).mp h1
            obtain ⟨hrk63, hkg60⟩ := hcr.2.2.2.1 hcr63
            rw [Nat.testBit_land, Bool.and_eq_true] at hrk63 hkg60
            obtain ⟨q, hq64, hqe⟩ := hWF.2.2.2.1 b.cur.colorToMove
            have hq60 : q = 60 := by
              have h4 : (b.cur.pieceBb PieceType.king &&&
                  b.cur.colorBb b.cur.colorToMove).testBit 60 = true := by
                rw [hc2]
                rw [Nat.testBit_land, Bool.and_eq_true]
                exact hkg60
              rw [hqe] at h4
              exact bitboard_testBit_inj q 60 h4
            have hks : b.kingSquare = 60 := by
              rw [Board.kingSquare, Board.kingSquareOf,
                show b.getBb b.sideToMove PieceType.king = b.cur.pieceBb PieceType.king
                  &&& b.cur.colorBb b.cur.colorToMove from rfl, hqe, hq60]
              exact lsb_bitboard 60 (by omega)
            rw [hks] at hcond ⊢
            have hbet := hcond.2
            rw [Nat.land_comm] at hbet
            have hdE : (b.cur.bbWhite ||| b.cur.bbBlack).testBit 62 = false :=
              and_eq_zero_testBit _ _ hbet 62 (by decide)
            have hrtE : (b.cur.bbWhite ||| b.cur.bbBlack).testBit 61 = false :=
              and_eq_zero_testBit _ _ hbet 61 (by decide)
            exact movePre_castle_build b.cur hWF 60 62 63 61 (by omega) (by omega)
              (by omega) (by omega) (by decide) (by decide) (by decide) (by decide)
              (by decide) (by decide) (by decide)
              (by rw [hc2]; exact hkg60.2) hkg60.1
              (by rw [hc2]; exact hrk63.2) hrk63.1 hdE hrtE
        · rw [if_neg hcond] at hShort
          exact absurd hShort (List.not_mem_nil m)
      · by_cases hcond : b.cur.castlingRights &&&
            CASTLING_MASKS b.sideToMove CASTLE_LONG ≠ 0 ∧
            b.occupancy &&& BETWEEN b.kingSquare (b.kingSquare - 4) = 0
        · rw [if_pos hcond] at hLong
          simp only [List.mem_cons, List.not_mem_nil, or_false] at hLong
          subst hLong
          cases hstm : b.sideToMove
          · rw [hstm] at hcond
            have hc2 : b.cur.colorToMove = Color.white := hstm
            have hcr0 : b.cur.castlingRights.testBit 0 = true := by
              have h1 := hcond.1
              rw [show CASTLING_MASKS Color.white CASTLE_LONG = bitboard 0 from rfl,
                Nat.land_comm] at h1
              exact (bitboard_and_ne_zero 0 _).mp h1
            obtain ⟨hrk0, hkg4⟩ := hcr.2.2.1 hcr0
            rw [Nat.testBit_land, Bool.and_eq_true] at hrk0 hkg4
            obtain ⟨q, hq64, hqe⟩ := hWF.2.2.2.1 b.cur.colorToMove
            have hq4 : q = 4 := by
              have h4 : (b.cur.pieceBb PieceType.king &&&
                  b.cur.colorBb b.cur.colorToMove).testBit 4 = true := by
                rw [hc2]
                rw [Nat.testBit_land, Bool.and_eq_true]
                exact hkg4
              rw [hqe] at h4
              exact bitboard_testBit_inj q 4 h4
            have hks : b.kingSquare = 4 := by
              rw [Board.kingSquare, Board.kingSquareOf,
                show b.getBb b.sideToMove PieceType.king = b.cur.pieceBb PieceType.king
                  &&& b.cur.colorBb b.cur.colorToMove from rfl, hqe, hq4]
              exact lsb_bitboard 4 (by omega)
            rw [hks] at hcond ⊢
            have hbet := hcond.2
            rw [Nat.land_comm] at hbet
            have hdE : (b.cur.bbWhite ||| b.cur.bbBlack).testBit 2 = false :=
              and_eq_zero_testBit _ _ hbet 2 (by decide)
            have hrtE : (b.cur.bbWhite ||| b.cur.bbBlack).testBit 3 = false :=
              and_eq_zero_testBit _ _ hbet 3 (by decide)
            exact movePre_castle_build b.cur hWF 4 2 0 3 (by omega) (by omega)
              (by omega) (by omega) (by decide) (by decide) (by decide) (by decide)
              (by decide) (by decide) (by decide)
              (by rw [hc2]; exact hkg4.2) hkg4.1
              (by rw [hc2]; exact hrk0.2) hrk0.1 hdE hrtE
          · rw [hstm] at hcond
            have hc2 : b.cur.colorToMove = Color.black := hstm
            have hcr56 : b.cur.castlingRights.testBit 56 = true := by
              have h1 := hcond.1
              rw [show CASTLING_MASKS Color.black CASTLE_LONG = bitboard 56 from rfl,
                Nat.land_comm] at h1
              exact (bitboard_and_ne_zero 56 _).mp h1
            obtain ⟨hrk56, hkg60⟩ := hcr.2.2.2.2 hcr56
            rw [Nat.testBit_land, Bool.and_eq_true] at hrk56 hkg60
            obtain ⟨q, hq64, hqe⟩ := hWF.2.2.2.1 b.cur.colorToMove
            have hq60 : q = 60 := by
              have h4 : (b.cur.pieceBb PieceType.king &&&
                  b.cur.colorBb b.cur.colorToMove).testBit 60 = true := by
                rw [hc2]
                rw [Nat.testBit_land, Bool.and_eq_true]
                exact hkg60
              rw [hqe] at h4
              exact bitboard_testBit_inj q 60 h4
            have hks : b.kingSquare = 60 := by
              rw [Board.kingSquare, Board.kingSquareOf,
                show b.getBb b.sideToMove PieceType.king = b.cur.pieceBb PieceType.king
                  &&& b.cur.colorBb b.cur.colorToMove from rfl, hqe, hq60]
              exact lsb_bitboard 60 (by omega)
            rw [hks] at hcond ⊢
            have hbet := hcond.2
            rw [Nat.land_comm] at hbet
            have hdE : (b.cur.bbWhite ||| b.cur.bbBlack).testBit 58 = false :=
              and_eq_zero_testBit _ _ hbet 58 (by decide)
            have hrtE : (b.cur.bbWhite ||| b.cur.bbBlack).testBit 59 = false :=
              and_eq_zero_testBit _ _ hbet 59 (by decide)
            exact movePre_castle_build b.cur hWF 60 58 56 59 (by omega) (by omega)
              (by omega) (by omega) (by decide) (by decide) (by decide) (by decide)
              (by decide) (by decide) (by decide)
              (by rw [hc2]; exact hkg60.2) hkg60.1
              (by rw [hc2]; exact hrk56.2) hrk56.1 hdE hrtE
        · rw [if_neg hcond] at hLong
          exact absurd hLong (List.not_mem_nil m)
    · rw [if_neg hnc] at hCast
      exact absurd hCast (List.not_mem_nil m)

/-- Capstone for claim C4: one search step — `makeMove` on any move the
generator produced for a well-formed position — preserves the
stored-equals-recomputed hash invariant of the whole history. -/
theorem histInv_pseudolegal_step (zk : ZKeys) (b : Board)
    (noisyOnly underpromotions : Bool) (m : Move) (hWF : WFState b.cur)
    (hm : m ∈ b.pseudolegalMoves noisyOnly underpromotions) (h : histInv zk b) :
    histInv zk (b.makeMove zk m) :=
  histInv_makeMove zk b m
    (Or.inr (movePre_of_pseudolegal b noisyOnly underpromotions hWF m hm)) h

-- ## Supporting checks for claims C1 and C2 (kernel-feasible instances)

/-- The claim-C2 right-hand side: after `makeMove`, the king of the side
that just moved is not attacked by the side now to move. -/
def moverKingSafeAfter (zk : ZKeys) (b : Board) (m : Move) : Bool :=
  let mover := b.sideToMove
  let b2 := b.makeMove zk m
  ¬ b2.isSquareAttacked (b2.kingSquareOf mover) b2.sideToMove

set_option maxRecDepth 100000 in
/-- C1 at a kernel-feasible depth: `perft(1)` of the starting position
is 20 (the claimed `perft(6)` is the same recursion four levels
deeper). -/
theorem perft_startpos_d1 : perft zk0 (parseFen zk0 START_FEN) 1 = 20 := by decide

set_option maxRecDepth 100000 in
/-- C1 at a kernel-feasible depth: `perft(2)` of the starting position
is 400. -/
theorem perft_startpos_d2 : perft zk0 (parseFen zk0 START_FEN) 2 = 400 := by decide

set_option maxRecDepth 100000 in
/-- C2 checked on the starting position: every generated pseudolegal
move is reported legal exactly when the mover's king is safe after
`makeMove`. -/
theorem isPseudolegalLegal_startpos_iff :
    ∀ m ∈ (parseFen zk0 START_FEN).pseudolegalMoves false true,
      (parseFen zk0 START_FEN).isPseudolegalLegal m (parseFen zk0 START_FEN).pinned =
        moverKingSafeAfter zk0 (parseFen zk0 START_FEN) m := by decide

/-- The "Kiwipete" perft test position (spec's perft table), with
castling, captures and a pinned-piece-rich middlegame. -/
def KIWIPETE_FEN : String :=
  "r3k2r/p1ppqpb1/bn2pnp1/3PN3/1p2P3/2N2Q1p/PPPBBPPP/R3K2R w KQkq - 0 1"

set_option maxRecDepth 100000 in
/-- C1 on the Kiwipete position at a kernel-feasible depth:
`perft(1)` is 48. -/
theorem perft_kiwipete_d1 : perft zk0 (parseFen zk0 KIWIPETE_FEN) 1 = 48 := by decide

set_option maxRecDepth 100000 in
/-- C2 checked on the Kiwipete position (castling and captures
included): every generated pseudolegal move is reported legal exactly
when the mover's king is safe after `makeMove`. -/
theorem isPseudolegalLegal_kiwipete_iff :
    ∀ m ∈ (parseFen zk0 KIWIPETE_FEN).pseudolegalMoves false true,
      (parseFen zk0 KIWIPETE_FEN).isPseudolegalLegal m
          (parseFen zk0 KIWIPETE_FEN).pinned =
        moverKingSafeAfter zk0 (parseFen zk0 KIWIPETE_FEN) m := by decide

-- ## Claim C5: SEE versus the exchange value
-- Spec-side definition, following the claim's words: the net value of
-- the exchange on the destination square, computed by exhaustive
-- simulation that alternately pulls each side's least valuable attacker
-- (adding X-ray sliders uncovered through vacated squares), using the
-- SEE piece values (king = 0), with the rule that a side whose only
-- remaining attacker is its king loses the exchange if the opponent
-- still has defenders.  The pulls, the X-ray updates and the king rule
-- are shared with the code's loop; the value is folded minimax-style
-- with stand-pat (`max 0 _`), which is what "net value of the exchange"
-- denotes for an exchange both sides may abandon.

/-- The value, to the side `us` about to recapture, of the ongoing
exchange on `square` when the piece currently there is worth `tv`:
zero if `us` cannot (or, under the king rule, may not) capture, else
the captured value minus the opponent's continuation, floored at zero
because `us` may stand pat. -/
def specExchange (b : Board) (v : SeeVals) (square bishopsQueens rooksQueens : Nat) :
    Nat → Nat → Nat → Color → Int → Int
  | 0, _, _, _, _ => 0
  | fuel + 1, occ, attackers, us, tv =>
    let ourAttackers := attackers &&& b.getBbColor us
    if ourAttackers = 0 then 0
    else
      let nextOcc := popLeastValuable b us ourAttackers occ
      let next := nextOcc.1
      let occ := nextOcc.2
      let attackers :=
        if next = PieceType.pawn ∨ next = PieceType.bishop ∨ next = PieceType.queen then
          attackers ||| (bishopAttacks square occ &&& bishopsQueens)
        else attackers
      let attackers :=
        if next = PieceType.rook ∨ next = PieceType.queen then
          attackers ||| (rookAttacks square occ &&& rooksQueens)
        else attackers
      let attackers := attackers &&& occ
      if next = PieceType.king ∧ attackers &&& b.getBbColor (oppColor us) ≠ 0 then 0
      else
        max 0 (tv - specExchange b v square bishopsQueens rooksQueens fuel occ attackers
          (oppColor us) (seeVal v next))

/-- `SEE_value(move)` of the spec: the captured material (with the
promotion upgrade), minus the opponent's value of the exchange that
follows on the destination square. -/
def SEE_value (b : Board) (v : SeeVals) (m : Move) : Int :=
  let captured := b.capturedPiece m
  let promo := m.promotion
  let gain := seeVal v captured +
    (if promo ≠ PieceType.none then seeVal v promo - v.pawn else 0)
  let next := if promo ≠ PieceType.none then promo else m.pieceType
  let bishopsQueens := b.getBbPiece PieceType.bishop ||| b.getBbPiece PieceType.queen
  let rooksQueens := b.getBbPiece PieceType.rook ||| b.getBbPiece PieceType.queen
  let occ := b.occupancy ^^^ bitboard m.src ^^^ bitboard m.dst
  let attackers := b.attackersOcc m.dst occ
  gain - specExchange b v m.dst bishopsQueens rooksQueens 64 occ attackers b.oppSide
    (seeVal v next)

theorem seeVal_nonneg (v : SeeVals)
    (hv : 0 ≤ v.pawn ∧ 0 ≤ v.minor ∧ 0 ≤ v.rook ∧ 0 ≤ v.queen) (pt : PieceType) :
    0 ≤ seeVal v pt := by
  obtain ⟨h1, h2, h3, h4⟩ := hv
  cases pt <;> simp only [seeVal] <;> omega

theorem specExchange_nonneg (b : Board) (v : SeeVals) (sq bq rq : Nat) :
    ∀ (fuel occ att : Nat) (us : Color) (tv : Int),
      0 ≤ specExchange b v sq bq rq fuel occ att us tv := by
  intro fuel occ att us tv
  cases fuel with
  | zero => exact le_refl 0
  | succ fuel =>
    simp only [specExchange]
    split_ifs <;> first
      | exact le_refl 0
      | exact le_max_left 0 _

theorem specExchange_le (b : Board) (v : SeeVals) (sq bq rq : Nat)
    (fuel occ att : Nat) (us : Color) (tv : Int) :
    specExchange b v sq bq rq fuel occ att us tv ≤ max 0 tv := by
  have key : ∀ (f o a : Nat) (u : Color) (w : Int),
      max 0 (tv - specExchange b v sq bq rq f o a u w) ≤ max 0 tv := by
    intro f o a u w
    have h0 := specExchange_nonneg b v sq bq rq f o a u w
    refine max_le (le_max_left 0 tv) (le_trans ?_ (le_max_right 0 tv))
    omega
  cases fuel with
  | zero => exact le_max_left 0 tv
  | succ fuel =>
    simp only [specExchange]
    split_ifs <;> first
      | exact le_max_left 0 tv
      | exact key _ _ _ _ _

theorem eq_iff_ne_oppColor (r u : Color) : r = u ↔ ¬(r = oppColor u) := by
  cases r <;> cases u <;> decide

/-- One exchange step: the code's score iteration and the spec's value
recursion decide the same way. -/
theorem see_step (b : Board) (v : SeeVals) (sq bq rq : Nat)
    (hv : 0 ≤ v.pawn ∧ 0 ≤ v.minor ∧ 0 ≤ v.rook ∧ 0 ≤ v.queen) (fuel : Nat)
    (occ2 att4 : Nat) (us : Color) (next : PieceType) (s tv : Int)
    (hs : s < 0) (hst : 0 ≤ s + tv) (htv : 0 ≤ tv)
    (ih : ∀ (occ att : Nat) (us2 : Color) (s2 tv2 : Int), s2 < 0 → 0 ≤ s2 + tv2 →
      0 ≤ tv2 →
      ((seeLoop b v sq bq rq fuel occ att s2 us2 = us2) ↔
        specExchange b v sq bq rq fuel occ att us2 tv2 ≤ s2 + tv2)) :
    ((if 0 ≤ -s - 1 - seeVal v next then
        if next = PieceType.king ∧ att4 &&& b.getBbColor (oppColor us) ≠ 0 then
          oppColor (oppColor us)
        else oppColor us
      else seeLoop b v sq bq rq fuel occ2 att4 (-s - 1 - seeVal v next) (oppColor us)) =
        us) ↔
      (if next = PieceType.king ∧ att4 &&& b.getBbColor (oppColor us) ≠ 0 then 0
       else max 0 (tv - specExchange b v sq bq rq fuel occ2 att4 (oppColor us)
         (seeVal v next))) ≤ s + tv := by
  have hw0 : 0 ≤ seeVal v next := seeVal_nonneg v hv next
  by_cases hking : next = PieceType.king ∧ att4 &&& b.getBbColor (oppColor us) ≠ 0
  · have hwk : seeVal v next = 0 := by rw [hking.1]; rfl
    have hsc : 0 ≤ -s - 1 - seeVal v next := by omega
    rw [if_pos hsc, if_pos hking, if_pos hking, oppColor_oppColor]
    simp [hst]
  · rw [if_neg hking, if_neg hking]
    by_cases hsc : 0 ≤ -s - 1 - seeVal v next
    · rw [if_pos hsc]
      have hXle := specExchange_le b v sq bq rq fuel occ2 att4 (oppColor us)
        (seeVal v next)
      rw [max_eq_right hw0] at hXle
      refine iff_of_false (oppColor_ne us) (fun hcon => ?_)
      have hm := le_max_right 0
        (tv - specExchange b v sq bq rq fuel occ2 att4 (oppColor us) (seeVal v next))
      omega
    · rw [if_neg hsc]
      have hihyp := ih occ2 att4 (oppColor us) (-s - 1 - seeVal v next) (seeVal v next)
        (by omega) (by omega) hw0
      rw [show (-s - 1 - seeVal v next) + seeVal v next = -s - 1 from by ring] at hihyp
      rw [eq_iff_ne_oppColor, hihyp, max_le_iff]
      omega

/-- The `SEE` exchange loop returns the side to move exactly when the
spec's exchange value stays within the loop's score margin. -/
theorem seeLoop_iff_specExchange (b : Board) (v : SeeVals) (sq bq rq : Nat)
    (hv : 0 ≤ v.pawn ∧ 0 ≤ v.minor ∧ 0 ≤ v.rook ∧ 0 ≤ v.queen) :
    ∀ (fuel : Nat) (occ att : Nat) (us : Color) (s tv : Int),
      s < 0 → 0 ≤ s + tv → 0 ≤ tv →
      ((seeLoop b v sq bq rq fuel occ att s us = us) ↔
        specExchange b v sq bq rq fuel occ att us tv ≤ s + tv) := by
  intro fuel
  induction fuel with
  | zero =>
    intro occ att us s tv hs hst htv
    simp only [seeLoop, specExchange]
    simp [hst]
  | succ fuel ih =>
    intro occ att us s tv hs hst htv
    simp only [seeLoop, specExchange]
    by_cases hatt : att &&& b.getBbColor us = 0
    · rw [if_pos hatt, if_pos hatt]
      simp [hst]
    · rw [if_neg hatt, if_neg hatt]
      exact see_step b v sq bq rq hv fuel _ _ us _ s tv hs hst htv ih

/-- Claim C5: for every move and every integer threshold, `SEE(m, t)`
returns true exactly when the net value of the exchange on the
destination square — `SEE_value`, the exhaustive least-valuable-attacker
simulation with X-ray updates and the king rule — is at least `t` from
the mover's point of view.  The SEE piece values (not in the provided
sources; spec §4.2 fixes the shape pawn/minor/minor/rook/queen/king=0)
are parameters, assumed nonnegative. -/
theorem SEE_iff_value (b : Board) (v : SeeVals) (m : Move) (t : Int)
    (hv : 0 ≤ v.pawn ∧ 0 ≤ v.minor ∧ 0 ≤ v.rook ∧ 0 ≤ v.queen) :
    (b.SEE v m t = true) ↔ t ≤ SEE_value b v m := by
  simp only [Board.SEE, SEE_value]
  set c0 := seeVal v (b.capturedPiece m) with hc0
  set padj := (if m.promotion ≠ PieceType.none then seeVal v m.promotion - v.pawn else 0)
    with hpadj
  set n0 := (if m.promotion ≠ PieceType.none then m.promotion else m.pieceType) with hn0
  set v0 := seeVal v n0 with hv0
  have hv00 : 0 ≤ v0 := seeVal_nonneg v hv n0
  set bq := b.getBbPiece PieceType.bishop ||| b.getBbPiece PieceType.queen with hbq
  set rq := b.getBbPiece PieceType.rook ||| b.getBbPiece PieceType.queen with hrq
  set occ0 := b.occupancy ^^^ bitboard m.src ^^^ bitboard m.dst with hocc0
  set att0 := b.attackersOcc m.dst occ0 with hatt0
  set X := specExchange b v m.dst bq rq 64 occ0 att0 b.oppSide v0 with hX
  have hX0 := specExchange_nonneg b v m.dst bq rq 64 occ0 att0 b.oppSide v0
  have hXle := specExchange_le b v m.dst bq rq 64 occ0 att0 b.oppSide v0
  rw [max_eq_right hv00] at hXle
  rw [← hX] at hX0 hXle
  by_cases h1 : -t + c0 + padj < 0
  · rw [if_pos h1]
    exact iff_of_false (by decide) (by omega)
  · rw [if_neg h1]
    by_cases h2 : 0 ≤ -t + c0 + padj - v0
    · rw [if_pos h2]
      exact iff_of_true rfl (by omega)
    · rw [if_neg h2]
      have hloop := seeLoop_iff_specExchange b v m.dst bq rq hv 64 occ0 att0 b.oppSide
        (-t + c0 + padj - v0) v0 (by omega) (by omega) hv00
      rw [show (-t + c0 + padj - v0) + v0 = -t + c0 + padj from by ring, ← hX] at hloop
      simp only [decide_eq_true_eq]
      have hcol : ∀ r : Color, (b.sideToMove ≠ r) ↔ (r = b.oppSide) := by
        intro r
        rw [show b.oppSide = oppColor b.sideToMove from rfl]
        cases hu : b.sideToMove <;> cases r <;> simp [oppColor]
      rw [hcol, hloop]
      omega

/-- Witness for `SEE_iff_value`: standard values 100/300/500/900, the
pawn capture e4xd5 after 1. e4 d5, threshold 0. -/
theorem SEE_iff_value_witness :
    (0 ≤ (SeeVals.mk 100 300 500 900).pawn ∧ 0 ≤ (SeeVals.mk 100 300 500 900).minor ∧
      0 ≤ (SeeVals.mk 100 300 500 900).rook ∧ 0 ≤ (SeeVals.mk 100 300 500 900).queen) ∧
    ((parseFen zk0 "rnbqkbnr/ppp1pppp/8/3p4/4P3/8/PPPP1PPP/RNBQKBNR w KQkq d6 0 2").SEE
        (SeeVals.mk 100 300 500 900) (Move.mk 28 35 MoveFlag.pawnF) 0 = true ↔
      (0 : Int) ≤ SEE_value
        (parseFen zk0 "rnbqkbnr/ppp1pppp/8/3p4/4P3/8/PPPP1PPP/RNBQKBNR w KQkq d6 0 2")
        (SeeVals.mk 100 300 500 900) (Move.mk 28 35 MoveFlag.pawnF)) :=
  ⟨by decide, SEE_iff_value _ _ _ _ (by decide)⟩

set_option maxRecDepth 100000 in
/-- Witness for `zobrist_recompute_after_make_undo`: the standard
starting position (with its constructor-established hashes checked by
the kernel), two double pawn pushes and a pawn capture made, one
`undoMove`. -/
theorem zobrist_recompute_after_make_undo_witness :
    histInv zk0 (parseFen zk0 START_FEN) ∧
    movesOK zk0 (parseFen zk0 START_FEN)
      [Move.mk 12 28 MoveFlag.pawnTwoUp, Move.mk 51 35 MoveFlag.pawnTwoUp,
       Move.mk 28 35 MoveFlag.pawnF] ∧
    (undoMoves (makeMoves zk0 (parseFen zk0 START_FEN)
        [Move.mk 12 28 MoveFlag.pawnTwoUp, Move.mk 51 35 MoveFlag.pawnTwoUp,
         Move.mk 28 35 MoveFlag.pawnF]) 1).cur.zobristHash =
      recomputeZobrist zk0 (undoMoves (makeMoves zk0 (parseFen zk0 START_FEN)
        [Move.mk 12 28 MoveFlag.pawnTwoUp, Move.mk 51 35 MoveFlag.pawnTwoUp,
         Move.mk 28 35 MoveFlag.pawnF]) 1).cur :=
  ⟨by decide, by decide,
    zobrist_recompute_after_make_undo zk0 _ _ 1 (by decide) (by decide)⟩

end Starzix
